import Mathlib

/-!
Verification development for the reactive spreadsheet engine of
`src/spreadsheet.js`: the `Cell` record, the `Spreadsheet` manager with its
`setCell` / `getCell` entry points, the recursive `_evaluateCell` with its
cycle-detection set, and the `_updateDependents` propagation sweep.

Strings are modelled as `List Char`.  JavaScript numbers are modelled as
exact rationals extended with `Infinity`, `-Infinity` and `NaN`
(IEEE-754 rounding is not modelled; the claims below only exercise values
on which the two semantics agree).  The mutable `visited` sets of the
source are modelled functionally: every completed `_evaluateCell` frame
deletes exactly the entry it added, so passing the extended set downward
is an exact translation, while `_updateDependents` never deletes, so its
set is threaded through and returned.
-/

namespace Sheetv

abbrev Str := List Char

/-- ASCII whitespace as accepted by `String.prototype.trim` and the `\s`
regex class (the non-ASCII whitespace code points are never produced by
the engine and are not modelled). -/
def isWs (c : Char) : Bool :=
  c == ' ' || c == '\t' || c == '\n' || c == '\r' || c == '\x0b' || c == '\x0c'

/-- `String.prototype.trim`. -/
def jsTrim (s : Str) : Str :=
  ((s.dropWhile isWs).reverse.dropWhile isWs).reverse

/-- `raw.startsWith('=')`. -/
def startsWithEq : Str → Bool
  | [] => false
  | c :: _ => c == '='

/-! ## JavaScript numbers -/

/-- JavaScript number values reachable in the engine: finite (modelled
exactly as a rational), the two infinities, and `NaN`. -/
inductive JNum where
  | fin (q : ℚ)
  | inf
  | neginf
  | nan
deriving DecidableEq, Repr

def JNum.neg : JNum → JNum
  | fin q => fin (-q)
  | inf => neginf
  | neginf => inf
  | nan => nan

def JNum.add : JNum → JNum → JNum
  | nan, _ => nan
  | _, nan => nan
  | fin q, fin r => fin (q + r)
  | inf, neginf => nan
  | neginf, inf => nan
  | inf, _ => inf
  | _, inf => inf
  | neginf, _ => neginf
  | _, neginf => neginf

def JNum.sub (a b : JNum) : JNum := a.add b.neg

def JNum.mul : JNum → JNum → JNum
  | nan, _ => nan
  | _, nan => nan
  | fin q, fin r => fin (q * r)
  | inf, fin q => if q = 0 then nan else if 0 < q then inf else neginf
  | fin q, inf => if q = 0 then nan else if 0 < q then inf else neginf
  | neginf, fin q => if q = 0 then nan else if 0 < q then neginf else inf
  | fin q, neginf => if q = 0 then nan else if 0 < q then neginf else inf
  | inf, inf => inf
  | neginf, neginf => inf
  | inf, neginf => neginf
  | neginf, inf => neginf

/-- JavaScript division: division by zero yields an infinity (or `NaN` for
`0/0`) rather than faulting.  Negative zero is not modelled. -/
def JNum.div : JNum → JNum → JNum
  | nan, _ => nan
  | _, nan => nan
  | fin q, fin r =>
      if r = 0 then (if q = 0 then nan else if 0 < q then inf else neginf)
      else fin (q / r)
  | fin _, inf => fin 0
  | fin _, neginf => fin 0
  | inf, fin r => if 0 ≤ r then inf else neginf
  | neginf, fin r => if 0 ≤ r then neginf else inf
  | inf, inf => nan
  | inf, neginf => nan
  | neginf, inf => nan
  | neginf, neginf => nan

/-! ## Number formatting and parsing -/

def natDigits (n : Nat) : Str := Nat.toDigits 10 n

/-- Decimal expansion of the fractional remainder `r / d`, one digit per
step, stopping when the remainder vanishes or the fuel runs out. -/
def fracDigits : Nat → Nat → Nat → Str
  | 0, _, _ => []
  | _ + 1, 0, _ => []
  | f + 1, r, d =>
      Char.ofNat (48 + (r * 10) / d) :: fracDigits f ((r * 10) % d) d

/-- The text JavaScript produces when a number is concatenated into a
string.  Exact for integers and terminating decimals (the only numeric
values the claims exercise); non-terminating expansions are cut off after
32 digits, roughly where the double-precision printer would stop. -/
def JNum.toStr : JNum → Str
  | nan => "NaN".toList
  | inf => "Infinity".toList
  | neginf => "-Infinity".toList
  | fin q =>
      let sgn : Str := if q < 0 then ['-'] else []
      let n := q.num.natAbs
      let d := q.den
      sgn ++ natDigits (n / d) ++
        (if n % d = 0 then [] else '.' :: fracDigits 32 (n % d) d)

def digitsVal (l : Str) : Nat := l.foldl (fun a c => a * 10 + (c.toNat - 48)) 0

/-- Exponent suffix of a JavaScript string numeric literal:
empty, or `e`/`E` followed by an optional sign and digits. -/
def parseExpPart (base : ℚ) : Str → Option ℚ
  | [] => some base
  | e :: r =>
    if e = 'e' ∨ e = 'E' then
      let r2 : Str := match r with
        | '+' :: t => t
        | t => t
      let negExp : Bool := match r with
        | '-' :: _ => true
        | _ => false
      let r3 : Str := match r with
        | '-' :: t => t
        | _ => r2
      let ds := r3.takeWhile Char.isDigit
      if ds = [] ∨ r3.dropWhile Char.isDigit ≠ [] then none
      else some (if negExp then base / (10 : ℚ) ^ digitsVal ds
                 else base * (10 : ℚ) ^ digitsVal ds)
    else none

/-- Unsigned decimal part of a JavaScript string numeric literal:
`digits [. digits] [exp]` or `. digits [exp]`. -/
def parseUnsignedDec (s : Str) : Option ℚ :=
  let ip := s.takeWhile Char.isDigit
  let rest := s.dropWhile Char.isDigit
  match rest with
  | [] => if ip = [] then none else some (digitsVal ip)
  | '.' :: r2 =>
      let fp := r2.takeWhile Char.isDigit
      let r3 := r2.dropWhile Char.isDigit
      if ip = [] ∧ fp = [] then none
      else parseExpPart ((digitsVal ip : ℚ) + (digitsVal fp : ℚ) / (10 : ℚ) ^ fp.length) r3
  | _ => if ip = [] then none else parseExpPart (digitsVal ip) rest

def isHexDigit (c : Char) : Bool :=
  c.isDigit || ('a' ≤ c && c ≤ 'f') || ('A' ≤ c && c ≤ 'F')

def hexDigitVal (c : Char) : Nat :=
  if c.isDigit then c.toNat - 48
  else if 'a' ≤ c ∧ c ≤ 'f' then c.toNat - 87
  else c.toNat - 55

/-- Unsigned radix literal body (after `0x` / `0o` / `0b`). -/
def parseRadix (radix : Nat) (digOk : Char → Bool) (val : Char → Nat) (s : Str) : Option ℚ :=
  if s ≠ [] ∧ s.all digOk then
    some ((s.foldl (fun a c => a * radix + val c) 0 : Nat) : ℚ)
  else none

def parseUnsigned (s : Str) : Option JNum :=
  if s = "Infinity".toList then some JNum.inf
  else (parseUnsignedDec s).map JNum.fin

/-- JavaScript `ToNumber` on an already-trimmed string (`none` models
`NaN`); the empty string converts to `0`, radix prefixes take no sign. -/
def jsToNum (s : Str) : Option JNum :=
  match s with
  | [] => some (JNum.fin 0)
  | '0' :: 'x' :: r => (parseRadix 16 isHexDigit hexDigitVal r).map JNum.fin
  | '0' :: 'X' :: r => (parseRadix 16 isHexDigit hexDigitVal r).map JNum.fin
  | '0' :: 'o' :: r => (parseRadix 8 (fun c => '0' ≤ c && c ≤ '7') (fun c => c.toNat - 48) r).map JNum.fin
  | '0' :: 'O' :: r => (parseRadix 8 (fun c => '0' ≤ c && c ≤ '7') (fun c => c.toNat - 48) r).map JNum.fin
  | '0' :: 'b' :: r => (parseRadix 2 (fun c => c = '0' || c = '1') (fun c => c.toNat - 48) r).map JNum.fin
  | '0' :: 'B' :: r => (parseRadix 2 (fun c => c = '0' || c = '1') (fun c => c.toNat - 48) r).map JNum.fin
  | '+' :: r => parseUnsigned r
  | '-' :: r => (parseUnsigned r).map JNum.neg
  | _ => parseUnsigned s

/-- JavaScript `ToNumber` on an arbitrary string (trims first); used by
the engine through `isNaN(...)` and `Number(...)`. -/
def toNumber (s : Str) : Option JNum := jsToNum (jsTrim s)

/-! ## The restricted expression evaluator

The source evaluates the substituted formula text with
`Function('return ' + expr)()` after a character filter has restricted it
to digits, whitespace, parentheses, dots and `+ - * /`.  We model the
JavaScript expression grammar over exactly that alphabet: decimal
literals, parentheses, unary and binary `+`/`-`, binary `*`/`/`, with the
standard precedence and left associativity.  The lexer rejects the
adjacent-operator forms (`--`, `++`) that JavaScript lexes as
increment/decrement punctuators and then rejects.  (JavaScript-only
exotica expressible in this alphabet — the `**` operator and legacy octal
literals — are outside the modelled grammar.) -/

inductive Tok where
  | tnum (q : ℚ)
  | tadd
  | tsub
  | tmul
  | tdiv
  | tlp
  | trp
deriving DecidableEq, Repr

/-- Lex one numeric literal: maximal munch of `digits [. digits]` or
`. digits`, returning its value and the unconsumed text. -/
def lexNum (s : Str) : Option (ℚ × Str) :=
  let ip := s.takeWhile Char.isDigit
  let r1 := s.dropWhile Char.isDigit
  match r1 with
  | '.' :: r2 =>
      let fp := r2.takeWhile Char.isDigit
      let r3 := r2.dropWhile Char.isDigit
      if ip = [] ∧ fp = [] then none
      else some ((digitsVal ip : ℚ) + (digitsVal fp : ℚ) / (10 : ℚ) ^ fp.length, r3)
  | _ => if ip = [] then none else some ((digitsVal ip : ℚ), r1)

def lexExpr : Nat → Str → Option (List Tok)
  | 0, _ => none
  | _ + 1, [] => some []
  | f + 1, c :: r =>
    if isWs c then lexExpr f r
    else if c = '+' then
      match r with
      | '+' :: _ => none
      | _ => (lexExpr f r).map (Tok.tadd :: ·)
    else if c = '-' then
      match r with
      | '-' :: _ => none
      | _ => (lexExpr f r).map (Tok.tsub :: ·)
    else if c = '*' then
      match r with
      | '*' :: _ => none
      | _ => (lexExpr f r).map (Tok.tmul :: ·)
    else if c = '/' then (lexExpr f r).map (Tok.tdiv :: ·)
    else if c = '(' then (lexExpr f r).map (Tok.tlp :: ·)
    else if c = ')' then (lexExpr f r).map (Tok.trp :: ·)
    else if c.isDigit ∨ c = '.' then
      match lexNum (c :: r) with
      | none => none
      | some (q, rest) => (lexExpr f rest).map (Tok.tnum q :: ·)
    else none

/-- Nonterminals of the restricted grammar: expression, the left-fold
tail of an expression, term, the left-fold tail of a term, unary, and
primary. -/
inductive PMode where
  | pe
  | pel
  | pt
  | ptl
  | pu
  | pp
deriving DecidableEq, Repr

/-- Recursive-descent parser-evaluator for
`Expr := Term (('+'|'-') Term)*`, `Term := Unary (('*'|'/') Unary)*`,
`Unary := ('+'|'-') Unary | Primary`, `Primary := number | '(' Expr ')'`
with the accumulator `acc` carrying the left operand in the tail modes
(giving left-to-right associativity).  A single fuel-indexed function so
that it is structurally recursive and kernel-reducible. -/
def parseRun : Nat → PMode → JNum → List Tok → Option (JNum × List Tok)
  | 0, _, _, _ => none
  | f + 1, PMode.pe, a, ts =>
    (match parseRun f PMode.pt a ts with
     | none => none
     | some (v, rest) => parseRun f PMode.pel v rest)
  | f + 1, PMode.pel, acc, Tok.tadd :: ts =>
    (match parseRun f PMode.pt acc ts with
     | none => none
     | some (v, rest) => parseRun f PMode.pel (acc.add v) rest)
  | f + 1, PMode.pel, acc, Tok.tsub :: ts =>
    (match parseRun f PMode.pt acc ts with
     | none => none
     | some (v, rest) => parseRun f PMode.pel (acc.sub v) rest)
  | _ + 1, PMode.pel, acc, ts => some (acc, ts)
  | f + 1, PMode.pt, a, ts =>
    (match parseRun f PMode.pu a ts with
     | none => none
     | some (v, rest) => parseRun f PMode.ptl v rest)
  | f + 1, PMode.ptl, acc, Tok.tmul :: ts =>
    (match parseRun f PMode.pu acc ts with
     | none => none
     | some (v, rest) => parseRun f PMode.ptl (acc.mul v) rest)
  | f + 1, PMode.ptl, acc, Tok.tdiv :: ts =>
    (match parseRun f PMode.pu acc ts with
     | none => none
     | some (v, rest) => parseRun f PMode.ptl (acc.div v) rest)
  | _ + 1, PMode.ptl, acc, ts => some (acc, ts)
  | f + 1, PMode.pu, a, Tok.tadd :: ts => parseRun f PMode.pu a ts
  | f + 1, PMode.pu, a, Tok.tsub :: ts =>
    (parseRun f PMode.pu a ts).map (fun vr => (vr.1.neg, vr.2))
  | f + 1, PMode.pu, a, ts => parseRun f PMode.pp a ts
  | _ + 1, PMode.pp, _, Tok.tnum q :: ts => some (JNum.fin q, ts)
  | f + 1, PMode.pp, a, Tok.tlp :: ts =>
    (match parseRun f PMode.pe a ts with
     | some (v, Tok.trp :: rest) => some (v, rest)
     | _ => none)
  | _ + 1, PMode.pp, _, _ => none

/-- Evaluate a whole token sequence as a JavaScript expression. -/
def evalTokens (ts : List Tok) : Option JNum :=
  match parseRun (8 * ts.length + 8) PMode.pe (JNum.fin 0) ts with
  | some (v, []) => some v
  | _ => none

/-- `Function('return ' + expr)()` on the validated alphabet:
`none` models the thrown `SyntaxError`. -/
def evalExpr (s : Str) : Option JNum :=
  match lexExpr (s.length + 1) s with
  | none => none
  | some ts => evalTokens ts

/-- The character class of the validation regex `/^[-+*\/().\d\s]+$/`. -/
def validChar (c : Char) : Bool :=
  c == '+' || c == '-' || c == '*' || c == '/' || c == '(' || c == ')' ||
    c == '.' || c.isDigit || isWs c

/-- `/^[-+*\/().\d\s]+$/.test expr`: nonempty and all characters in the
permitted alphabet. -/
def validExpr (s : Str) : Bool := !s.isEmpty && s.all validChar

/-! ## Reference extraction and substitution -/

/-- The scan `raw.match(/[A-E][1-5]/g) || []`: left-to-right,
non-overlapping, duplicates kept.  The letter and digit ranges are
hardcoded in the source independently of the grid's construction
parameters. -/
def extractRefs : Str → List Str
  | [] => []
  | [_] => []
  | c :: d :: rest2 =>
    if ('A' ≤ c ∧ c ≤ 'E') ∧ ('1' ≤ d ∧ d ≤ '5') then (c :: [d]) :: extractRefs rest2
    else extractRefs (d :: rest2)

/-- `String.prototype.replaceAll` with a plain pattern: repeatedly replace
the leftmost occurrence, never rescanning replacement text.  Fuel
`s.length + 1` always suffices. -/
def replAll : Nat → Str → Str → Str → Str
  | 0, s, _, _ => s
  | _ + 1, [], _, _ => []
  | f + 1, c :: s, p, r =>
    if p ≠ [] ∧ p.isPrefixOf (c :: s) then r ++ replAll f ((c :: s).drop p.length) p r
    else c :: replAll f s p r

def replaceAll (s p r : Str) : Str := replAll (s.length + 1) s p r

/-! ## Cells and the grid -/

inductive Value where
  | str (s : Str)
  | num (n : JNum)
deriving DecidableEq, Repr

def circValue : Value := Value.str "#CIRC".toList

def errValue : Value := Value.str "#ERR".toList

/-- The `Cell` record: raw text, computed value, the two adjacency sets
(insertion-ordered, as JavaScript `Set`s), and the error diagnostic. -/
structure Cell where
  raw : Str
  value : Value
  dependencies : List Str
  dependents : List Str
  error : Option Str
deriving DecidableEq, Repr

/-- The `Spreadsheet` instance: construction parameters and the cell
table keyed by identifier (insertion order preserved, domain fixed at
construction). -/
structure Sheet where
  cols : Nat
  rows : Nat
  cells : List (Str × Cell)
deriving DecidableEq, Repr

def Sheet.find (s : Sheet) (id : Str) : Option Cell :=
  (s.cells.find? (fun kv => kv.1 == id)).map Prod.snd

def Sheet.modifyCell (s : Sheet) (id : Str) (f : Cell → Cell) : Sheet :=
  { s with cells := s.cells.map (fun kv => if kv.1 == id then (kv.1, f kv.2) else kv) }

/-- `Set.prototype.add`: append if absent (JavaScript sets preserve
insertion order). -/
def listAdd (l : List Str) (x : Str) : List Str := if x ∈ l then l else l ++ [x]

/-- `Set.prototype.delete`. -/
def listDel (l : List Str) (x : Str) : List Str := l.erase x

def newCell : Cell :=
  { raw := [], value := Value.str [], dependencies := [], dependents := [], error := none }

/-- `new Spreadsheet(cols, rows)`: identifiers `<letter><1-based row>`,
generated column-major from the construction parameters. -/
def initSheet (cols rows : Nat) : Sheet :=
  { cols := cols, rows := rows,
    cells := ((List.range cols).map (fun i => Char.ofNat (65 + i))).flatMap
      (fun ch => (List.range rows).map (fun r => (ch :: natDigits (r + 1), newCell))) }

/-! ## Evaluation -/

/-- The literal (non-formula) evaluation of a trimmed raw text: empty text
gives the empty string, text passing `!isNaN(raw)` gives `Number(raw)`,
anything else gives the text itself. -/
def litValue (raw : Str) : Value :=
  if raw = [] then Value.str []
  else
    match toNumber raw with
    | some n => Value.num n
    | none => Value.str raw

/-- One step of the first loop of the formula branch:
`cell.dependencies.add(ref); this.cells[ref]?.dependents.add(cellId)`
(modifying a missing identifier is a no-op, like optional chaining). -/
def addEdge (s : Sheet) (cellId ref : Str) : Sheet :=
  (s.modifyCell cellId (fun c => { c with dependencies := listAdd c.dependencies ref })).modifyCell
    ref (fun c => { c with dependents := listAdd c.dependents cellId })

/-- The coerced, parenthesised text substituted for a reference token:
`undefined` and `''` become `0`; a string that fails `isNaN` becomes `0`;
a numeric string is concatenated verbatim; a number is rendered by
JavaScript string conversion. -/
def refValStr (v : Option Value) : Str :=
  match v with
  | none => ('(' :: (JNum.fin 0).toStr) ++ [')']
  | some (Value.str s) =>
      if s = [] then ('(' :: (JNum.fin 0).toStr) ++ [')']
      else
        match toNumber s with
        | none => ('(' :: (JNum.fin 0).toStr) ++ [')']
        | some _ => ('(' :: s) ++ [')']
  | some (Value.num n) => ('(' :: n.toStr) ++ [')']

/-- The write a revisited (in-progress) cell receives: the
circular-reference sentinel and its diagnostic. -/
def hitWrite (s : Sheet) (cellId : Str) : Sheet :=
  s.modifyCell cellId (fun c =>
    { c with value := circValue, error := some "Circular reference".toList })

/-- The write of the plain-value branch. -/
def litWrite (s : Sheet) (cellId : Str) (raw : Str) : Sheet :=
  s.modifyCell cellId (fun c => { c with value := litValue raw, error := none })

/-- The final write of the formula branch, applied to the state and
substituted expression the reference loop produced: the character
validation, then the expression evaluation, with the two fault kinds
mapped to the generic-error sentinel. -/
def finishWrite (cellId : Str) (se : Sheet × Str) : Sheet :=
  if !validExpr se.2 then
    se.1.modifyCell cellId (fun c =>
      { c with value := errValue, error := some "Invalid formula".toList })
  else
    match evalExpr se.2 with
    | none =>
      se.1.modifyCell cellId (fun c =>
        { c with value := errValue, error := some "SyntaxError".toList })
    | some n =>
      se.1.modifyCell cellId (fun c => { c with value := Value.num n, error := none })

/-- `Spreadsheet.prototype._evaluateCell`.  `fuel` bounds the recursion
depth; `cells.length + 1` always suffices because every nested frame adds
a distinct live cell to `visited`.  The second loop of the formula branch
(recursively evaluate each extracted reference, passing the same
in-progress set, then substitute its parenthesised value for every
occurrence of the token) is the inner fold; `substFold` below names it. -/
def evaluateCell : Nat → Sheet → Str → List Str → Sheet
  | 0, s, _, _ => s
  | fuel + 1, s, cellId, visited =>
    match s.find cellId with
    | none => s
    | some cell =>
      if cellId ∈ visited then
        hitWrite s cellId
      else
        let raw := jsTrim cell.raw
        if !startsWithEq raw then
          litWrite s cellId raw
        else
          let refs := extractRefs raw
          let s1 := refs.foldl (fun acc ref => addEdge acc cellId ref) s
          let se := refs.foldl
            (fun (acc : Sheet × Str) ref =>
              let s' := evaluateCell fuel acc.1 ref (cellId :: visited)
              (s', replaceAll acc.2 ref (refValStr ((s'.find ref).map Cell.value))))
            (s1, raw.drop 1)
          finishWrite cellId se

/-- The reference-substitution loop of the formula branch, as a named
function of the recursion fuel handed to the nested evaluations. -/
def substFold (fuel : Nat) (visited : List Str) (refs : List Str) (s : Sheet) (expr : Str) :
    Sheet × Str :=
  refs.foldl
    (fun (acc : Sheet × Str) ref =>
      let s' := evaluateCell fuel acc.1 ref visited
      (s', replaceAll acc.2 ref (refValStr ((s'.find ref).map Cell.value))))
    (s, expr)

/-- `Spreadsheet.prototype._updateDependents`: the shared, accumulated
"already propagated" set is threaded through and returned.  (The source
would fault on a missing identifier; dependent sets of well-formed states
only hold live identifiers, so that branch returns unchanged here.) -/
def updateDependents : Nat → Sheet → Str → List Str → Sheet × List Str
  | 0, s, _, v => (s, v)
  | fuel + 1, s, cellId, visited =>
    if cellId ∈ visited then (s, visited)
    else
      let visited1 := visited ++ [cellId]
      match s.find cellId with
      | none => (s, visited1)
      | some cell =>
        cell.dependents.foldl
          (fun (acc : Sheet × List Str) dep =>
            let s' := evaluateCell (acc.1.cells.length + 1) acc.1 dep []
            updateDependents fuel s' dep acc.2)
          (s, visited1)

/-- Steps 1–3 of `setCell` on a live cell: store the raw text and clear
the error, detach this cell from the `dependents` of its old
`dependencies`, then clear its `dependencies`. -/
def cleanupOf (s : Sheet) (cellId v : Str) (oldDeps : List Str) : Sheet :=
  let s1 := s.modifyCell cellId (fun c => { c with raw := v, error := none })
  let s2 := oldDeps.foldl
    (fun acc dep =>
      acc.modifyCell dep (fun c => { c with dependents := listDel c.dependents cellId }))
    s1
  s2.modifyCell cellId (fun c => { c with dependencies := [] })

/-- `Spreadsheet.prototype.setCell`. -/
def setCell (s : Sheet) (cellId : Str) (v : Str) : Sheet :=
  match s.find cellId with
  | none => s
  | some cell =>
    let s3 := cleanupOf s cellId v cell.dependencies
    let s4 := evaluateCell (s3.cells.length + 1) s3 cellId []
    (updateDependents (s4.cells.length + 1) s4 cellId []).1

/-- `Spreadsheet.prototype.getCell`. -/
def getCell (s : Sheet) (cellId : Str) : Option Value :=
  (s.find cellId).map Cell.value

/-- The property names a fresh object literal `{}` inherits from
`Object.prototype` (ECMA-262): for these identifiers `this.cells[id]`
is a truthy inherited value even though no cell was ever stored under
them. -/
def protoKeys : List Str :=
  ["constructor".toList, "hasOwnProperty".toList, "isPrototypeOf".toList,
    "propertyIsEnumerable".toList, "toLocaleString".toList, "toString".toList,
    "valueOf".toList, "__proto__".toList, "__defineGetter__".toList,
    "__defineSetter__".toList, "__lookupGetter__".toList, "__lookupSetter__".toList]

/-- The result of the JavaScript property read `this.cells[id]`: an own
stored cell, a truthy value inherited from `Object.prototype` (a
function, or `Object.prototype` itself for `__proto__` — not a `Cell`),
or `undefined`. -/
inductive JsLookup where
  | own (c : Cell)
  | inherited
  | undef
deriving DecidableEq, Repr

/-- The property read `this.cells[id]` with the prototype chain: own
properties are the stored cells; failing that, the `Object.prototype`
property names are found on the prototype; everything else is
`undefined`. -/
def cellsGet (s : Sheet) (id : Str) : JsLookup :=
  match s.find id with
  | some c => JsLookup.own c
  | none => if id ∈ protoKeys then JsLookup.inherited else JsLookup.undef

/-- `setCell` with the guard's property read modelled on full JavaScript
object semantics.  `undefined` fails the `!this.cells[cellId]` guard and
the call returns with no effect; an own cell proceeds exactly as
`setCell`; an inherited `Object.prototype` value passes the guard, its
`dependencies` property is `undefined`, and the loop header
`for (let dep of cell.dependencies)` throws `TypeError` out of the call
(modelled as `none`). -/
def setCellJS (s : Sheet) (cellId v : Str) : Option Sheet :=
  match cellsGet s cellId with
  | JsLookup.undef => some s
  | JsLookup.inherited => none
  | JsLookup.own _ => some (setCell s cellId v)

/-- `getCell` with the same property read: `this.cells[cellId]?.value`
is the stored value for an own cell, and `undefined` both for a missing
identifier and for an inherited `Object.prototype` value (whose `value`
property is `undefined`). -/
def getCellJS (s : Sheet) (cellId : Str) : Option Value :=
  match cellsGet s cellId with
  | JsLookup.own c => some c.value
  | JsLookup.inherited => none
  | JsLookup.undef => none

/-! ## Derived notions used by the claims -/

/-- The error diagnostic of a cell (`some none`: live cell, no error). -/
def errorAt (s : Sheet) (id : Str) : Option (Option Str) :=
  (s.find id).map Cell.error

/-- The raw text of a cell. -/
def rawAt (s : Sheet) (id : Str) : Option Str :=
  (s.find id).map Cell.raw

/-- The identifier list of the cell table (fixed at construction). -/
def idsOf (s : Sheet) : List Str := s.cells.map Prod.fst

/-- The `dependencies` set of a cell. -/
def depsAt (s : Sheet) (id : Str) : Option (List Str) :=
  (s.find id).map Cell.dependencies

/-- The `dependents` set of a cell. -/
def dependentsAt (s : Sheet) (id : Str) : Option (List Str) :=
  (s.find id).map Cell.dependents

/-- The references a formula raw text draws in: the regex scan on the
trimmed text if it is a formula, nothing otherwise. -/
def refsSetOf (raw : Str) : List Str :=
  if startsWithEq (jsTrim raw) then extractRefs (jsTrim raw) else []

/-- One breadth step over `dependents` edges, `fuel` times: the cells
reachable from the start set.  `cells.length` steps always reach the
closure. -/
def reachN : Nat → Sheet → List Str → List Str
  | 0, _, acc => acc
  | f + 1, s, acc =>
      reachN f s
        (acc.foldl (fun a id => (((s.find id).map Cell.dependents).getD []).foldl listAdd a) acc)

/-- The cells reachable from `id` (inclusive) by following `dependents`
edges. -/
def dependentsClosure (s : Sheet) (id : Str) : List Str :=
  reachN s.cells.length s [id]

/-- The value a fresh, full re-evaluation of `id` against the current raw
texts would produce (the no-stale-reads reference point). -/
def reEvalValue (s : Sheet) (id : Str) : Option Value :=
  getCell (evaluateCell (s.cells.length + 1) s id []) id

/-- The substituted expression text that the evaluation phase of a
`setCell s cellId v` call computes for a formula input (`none` for a
missing cell or a non-formula input): the store/detach/clear steps of
`setCell` followed by the formula branch of `_evaluateCell` up to the
validation test, mirroring the fuel and visited set `setCell` hands it. -/
def setCellExpr (s : Sheet) (cellId : Str) (v : Str) : Option Str :=
  match s.find cellId with
  | none => none
  | some cell =>
    let s3 := cleanupOf s cellId v cell.dependencies
    let raw := jsTrim v
    if !startsWithEq raw then none
    else
      let refs := extractRefs raw
      let s1' := refs.foldl (fun acc ref => addEdge acc cellId ref) s3
      some (substFold s3.cells.length (cellId :: []) refs s1' (raw.drop 1)).2

/-- The 25 identifier tokens of the hardcoded `[A-E][1-5]` rectangle. -/
def refTokens : List Str :=
  (['A', 'B', 'C', 'D', 'E']).flatMap (fun c => (['1', '2', '3', '4', '5']).map (fun d => [c, d]))

/-- The observable value/error pair of a cell. -/
def veAt (s : Sheet) (id : Str) : Option (Value × Option Str) :=
  (s.find id).map (fun c => (c.value, c.error))

/-- The identifier/raw projection of the cell table: everything literal
evaluation depends on. -/
def rawSkel (s : Sheet) : List (Str × Str) :=
  s.cells.map (fun kv => (kv.1, kv.2.raw))

/-- The raw/adjacency view of a single cell (no value, no error). -/
def cellSk (c : Cell) : Str × List Str × List Str :=
  (c.raw, c.dependencies, c.dependents)

/-- Two states with the same identifier list and, identifier for
identifier, the same raw text and adjacency lists — values and errors
are unconstrained.  A pair of parallel evaluations preserves this
relation and makes identical control-flow decisions under it. -/
def SkRel (t t' : Sheet) : Prop :=
  idsOf t = idsOf t' ∧ ∀ x, (t.find x).map cellSk = (t'.find x).map cellSk

/-- The identifier/raw/adjacency projection of the cell table: everything
except the value/error observables. -/
def skel (s : Sheet) : List (Str × Str × List Str × List Str) :=
  s.cells.map (fun kv => (kv.1, kv.2.raw, kv.2.dependencies, kv.2.dependents))

/-- The identifier/raw/dependents projection: everything the control flow
of evaluation and propagation reads besides values it has itself just
written. -/
def simS (s : Sheet) : List (Str × Str × List Str) :=
  s.cells.map (fun kv => (kv.1, kv.2.raw, kv.2.dependents))

/-- The well-formedness invariant of reachable grids: identifiers are
unique, adjacency lists are duplicate-free, `dependencies` holds exactly
the references of the current raw text, and `dependents` is its exact
mutual mirror over live cells. -/
def Inv (s : Sheet) : Prop :=
  (idsOf s).Nodup ∧
  ∀ kv ∈ s.cells,
    kv.2.dependents.Nodup ∧
    kv.2.dependencies.Nodup ∧
    (∀ x ∈ kv.2.dependencies, x ∈ refsSetOf kv.2.raw) ∧
    (∀ x ∈ refsSetOf kv.2.raw, x ∈ kv.2.dependencies) ∧
    (∀ c ∈ kv.2.dependents, kv.1 ∈ ((s.find c).map (fun cc => refsSetOf cc.raw)).getD []) ∧
    (∀ kv2 ∈ s.cells, kv.1 ∈ refsSetOf kv2.2.raw → kv2.1 ∈ kv.2.dependents)

/-- The one-sided edge closure that makes every edge-add of evaluation a
no-op: each live cell already records its references forward, and is
already recorded backward by every live reference. -/
def EdgeSup (s : Sheet) : Prop :=
  ∀ kv ∈ s.cells,
    (∀ x ∈ refsSetOf kv.2.raw, x ∈ kv.2.dependencies) ∧
    (∀ x ∈ refsSetOf kv.2.raw, ∀ kv2 ∈ s.cells, kv2.1 = x → kv.1 ∈ kv2.2.dependents)

/-- The states reachable through the public interface: a freshly
constructed grid, followed by any number of `setCell` calls.  The
construction parameters are restricted to the single-letter,
single-digit identifier scheme (the program's own grid is 5×5): beyond
it, colliding identifiers would be collapsed by the JavaScript object
table but kept as separate entries by this model. -/
inductive Reachable : Sheet → Prop where
  | init (cols rows : Nat) (hc : cols ≤ 26) (hr : rows ≤ 9) :
      Reachable (initSheet cols rows)
  | step (s : Sheet) (id v : Str) : Reachable s → Reachable (setCell s id v)

/-- A rank function witnessing that the cell-reference graph is acyclic:
every live reference of a live cell has strictly smaller rank. -/
def RankOK (s : Sheet) (rk : Str → Nat) : Prop :=
  ∀ kv ∈ s.cells, ∀ r ∈ refsSetOf kv.2.raw, r ∈ idsOf s → rk r < rk kv.1

/-- The value/error a cell's formula determines from the raw texts alone:
literal evaluation for plain cells, and for formulas the substitution of
each reference's own pure value (absent and dead references as `0`),
followed by validation and evaluation — the reference point for
"no stale reads".  `none` for a dead cell or exhausted fuel. -/
def pureVE : Nat → Sheet → Str → Option (Value × Option Str)
  | 0, _, _ => none
  | f + 1, s, id =>
    match s.find id with
    | none => none
    | some cell =>
      let raw := jsTrim cell.raw
      if !startsWithEq raw then some (litValue raw, none)
      else
        let expr := (extractRefs raw).foldl
          (fun e ref => replaceAll e ref (refValStr ((pureVE f s ref).map Prod.fst)))
          (raw.drop 1)
        if !validExpr expr then some (errValue, some "Invalid formula".toList)
        else
          match evalExpr expr with
          | none => some (errValue, some "SyntaxError".toList)
          | some n => some (Value.num n, none)

/-- Fuel large enough for `_evaluateCell`'s recursion from a given
visited set: more than the number of live cells outside the set. -/
def goodFuel (s : Sheet) (v : List Str) (fuel : Nat) : Prop :=
  ((idsOf s).filter (fun id => decide (id ∉ v))).length < fuel

/-! ## Concrete states the counterexamples and witnesses evaluate -/

def idA1 : Str := "A1".toList
def idB1 : Str := "B1".toList
def idC1 : Str := "C1".toList

/-- `A1 = "=B1"` then `B1 = "=A1"` on a fresh grid containing both. -/
def cycState : Sheet := setCell (setCell (initSheet 5 5) idA1 "=B1".toList) idB1 "=A1".toList

/-- `A1 = 5`, `B1 = 3`, `C1 = "=A1*B1+2"`. -/
def arithState : Sheet :=
  setCell (setCell (setCell (initSheet 3 1) idA1 "5".toList) idB1 "3".toList) idC1
    "=A1*B1+2".toList

/-- `A1 = 1`, `B1 = "=A1+1"`, then `A1 = 10` without touching `B1`. -/
def refreshState : Sheet :=
  setCell (setCell (setCell (initSheet 2 1) idA1 "1".toList) idB1 "=A1+1".toList) idA1
    "10".toList

/-- A cyclic configuration in which propagation order leaves a stale
dependent: `A1 = "=B1+1"`, `C1 = "=B1"`, `B1 = "=A1+1"`, then `A1`
re-set to `"=B1+1"`. -/
def staleState : Sheet :=
  setCell
    (setCell (setCell (setCell (initSheet 3 1) idA1 "=B1+1".toList) idC1 "=B1".toList) idB1
      "=A1+1".toList)
    idA1 "=B1+1".toList

/-- `B1 = "=1/0*A1"`, `C1 = "=A1*B1"`: the state from which setting
`A1 = "=B1"` substitutes `(NaN)` yet ends with the value `0`. -/
def nanFlipState : Sheet :=
  setCell (setCell (initSheet 3 1) idB1 "=1/0*A1".toList) idC1 "=A1*B1".toList

/-!
## Theorems
-/

/-! ### Cell-table access -/

theorem find?_modList (l : List (Str × Cell)) (id id' : Str) (f : Cell → Cell) :
    (l.map (fun kv => if kv.1 == id then (kv.1, f kv.2) else kv)).find?
        (fun kv => kv.1 == id') =
      if id' = id then
        (l.find? (fun kv => kv.1 == id')).map (fun kv => (kv.1, f kv.2))
      else l.find? (fun kv => kv.1 == id') := by
  induction l with
  | nil => split <;> rfl
  | cons kv t ih =>
    by_cases h1 : kv.1 = id <;> by_cases h2 : kv.1 = id' <;>
      simp_all [List.find?_cons, beq_iff_eq] <;> split <;> simp_all

theorem Sheet.find_modifyCell (s : Sheet) (id id' : Str) (f : Cell → Cell) :
    (s.modifyCell id f).find id' =
      if id' = id then (s.find id').map f else s.find id' := by
  unfold Sheet.find Sheet.modifyCell
  rw [find?_modList]
  split <;> simp [Option.map_map, Function.comp_def]

theorem Sheet.find_modifyCell_self (s : Sheet) (id : Str) (f : Cell → Cell) :
    (s.modifyCell id f).find id = (s.find id).map f := by
  rw [Sheet.find_modifyCell]; simp

theorem Sheet.find_modifyCell_ne (s : Sheet) (id id' : Str) (f : Cell → Cell)
    (h : id' ≠ id) : (s.modifyCell id f).find id' = s.find id' := by
  rw [Sheet.find_modifyCell]; simp [h]

theorem idsOf_modifyCell (s : Sheet) (id : Str) (f : Cell → Cell) :
    idsOf (s.modifyCell id f) = idsOf s := by
  unfold idsOf Sheet.modifyCell
  simp only [List.map_map]
  refine List.map_congr_left (fun kv _ => ?_)
  by_cases h : kv.1 = id <;> simp [h]

theorem cells_length_modifyCell (s : Sheet) (id : Str) (f : Cell → Cell) :
    (s.modifyCell id f).cells.length = s.cells.length := by
  unfold Sheet.modifyCell
  simp

/-! ### Projections determine the accessors -/

theorem rawAt_eq_of_rawSkel (s s' : Sheet) (h : rawSkel s = rawSkel s') (id : Str) :
    rawAt s id = rawAt s' id := by
  have key : ∀ t : Sheet, rawAt t id =
      ((rawSkel t).find? (fun kv => kv.1 == id)).map Prod.snd := by
    intro t
    unfold rawAt Sheet.find rawSkel
    rw [List.find?_map]
    simp [Option.map_map, Function.comp_def]
  rw [key, key, h]

theorem idsOf_eq_of_rawSkel (s s' : Sheet) (h : rawSkel s = rawSkel s') :
    idsOf s = idsOf s' := by
  have key : ∀ t : Sheet, idsOf t = (rawSkel t).map Prod.fst := by
    intro t; unfold idsOf rawSkel; simp
  rw [key, key, h]

theorem rawSkel_modifyCell_of_raw (s : Sheet) (id : Str) (f : Cell → Cell)
    (hf : ∀ c, (f c).raw = c.raw) : rawSkel (s.modifyCell id f) = rawSkel s := by
  unfold rawSkel Sheet.modifyCell
  simp only [List.map_map]
  refine List.map_congr_left (fun kv _ => ?_)
  by_cases h : kv.1 = id <;> simp [h, hf]

theorem veAt_modifyCell_ne (s : Sheet) (a b : Str) (f : Cell → Cell) (h : b ≠ a) :
    veAt (s.modifyCell a f) b = veAt s b := by
  unfold veAt
  rw [Sheet.find_modifyCell_ne _ _ _ _ h]

theorem veAt_modifyCell_keep (s : Sheet) (a b : Str) (f : Cell → Cell)
    (hf : ∀ c, (f c).value = c.value ∧ (f c).error = c.error) :
    veAt (s.modifyCell a f) b = veAt s b := by
  unfold veAt
  rw [Sheet.find_modifyCell]
  split
  · cases s.find b <;> simp [hf]
  · rfl

theorem veAt_modifyCell_self (s : Sheet) (a : Str) (f : Cell → Cell) :
    veAt (s.modifyCell a f) a =
      (s.find a).map (fun c => ((f c).value, (f c).error)) := by
  unfold veAt
  rw [Sheet.find_modifyCell_self, Option.map_map]
  rfl

theorem veAt_addEdge (s : Sheet) (a r x : Str) : veAt (addEdge s a r) x = veAt s x := by
  unfold addEdge
  exact (veAt_modifyCell_keep _ r x
      (fun c => { c with dependents := listAdd c.dependents a }) (fun c => ⟨rfl, rfl⟩)).trans
    (veAt_modifyCell_keep s a x
      (fun c => { c with dependencies := listAdd c.dependencies r }) (fun c => ⟨rfl, rfl⟩))

theorem rawSkel_addEdge (s : Sheet) (a r : Str) : rawSkel (addEdge s a r) = rawSkel s := by
  unfold addEdge
  exact (rawSkel_modifyCell_of_raw _ r
      (fun c => { c with dependents := listAdd c.dependents a }) (fun c => rfl)).trans
    (rawSkel_modifyCell_of_raw s a
      (fun c => { c with dependencies := listAdd c.dependencies r }) (fun c => rfl))

/-! ### Equation lemmas for the engine -/

theorem evaluateCell_zero (s : Sheet) (c : Str) (v : List Str) :
    evaluateCell 0 s c v = s := rfl

theorem evaluateCell_succ (fuel : Nat) (s : Sheet) (cellId : Str) (visited : List Str) :
    evaluateCell (fuel + 1) s cellId visited =
      match s.find cellId with
      | none => s
      | some cell =>
        if cellId ∈ visited then hitWrite s cellId
        else if !startsWithEq (jsTrim cell.raw) then litWrite s cellId (jsTrim cell.raw)
        else
          finishWrite cellId
            (substFold fuel (cellId :: visited) (extractRefs (jsTrim cell.raw))
              ((extractRefs (jsTrim cell.raw)).foldl (fun acc ref => addEdge acc cellId ref) s)
              ((jsTrim cell.raw).drop 1)) := rfl

theorem substFold_nil (fuel : Nat) (v : List Str) (s : Sheet) (e : Str) :
    substFold fuel v [] s e = (s, e) := rfl

theorem substFold_cons (fuel : Nat) (v : List Str) (r : Str) (rs : List Str) (s : Sheet)
    (e : Str) :
    substFold fuel v (r :: rs) s e =
      substFold fuel v rs (evaluateCell fuel s r v)
        (replaceAll e r (refValStr (((evaluateCell fuel s r v).find r).map Cell.value))) := rfl

theorem substFold_append (fuel : Nat) (v : List Str) (a b : List Str) (s : Sheet) (e : Str) :
    substFold fuel v (a ++ b) s e =
      substFold fuel v b (substFold fuel v a s e).1 (substFold fuel v a s e).2 := by
  induction a generalizing s e with
  | nil => rfl
  | cons r rs ih => rw [List.cons_append, substFold_cons, substFold_cons, ih]

theorem updateDependents_zero (s : Sheet) (c : Str) (pv : List Str) :
    updateDependents 0 s c pv = (s, pv) := rfl

theorem updateDependents_succ (fuel : Nat) (s : Sheet) (cellId : Str) (visited : List Str) :
    updateDependents (fuel + 1) s cellId visited =
      if cellId ∈ visited then (s, visited)
      else
        match s.find cellId with
        | none => (s, visited ++ [cellId])
        | some cell =>
          cell.dependents.foldl
            (fun acc dep =>
              updateDependents fuel (evaluateCell (acc.1.cells.length + 1) acc.1 dep []) dep
                acc.2)
            (s, visited ++ [cellId]) := rfl

theorem setCell_eq (s : Sheet) (cellId v : Str) (cell : Cell)
    (h : s.find cellId = some cell) :
    setCell s cellId v =
      (updateDependents
          ((evaluateCell ((cleanupOf s cellId v cell.dependencies).cells.length + 1)
                (cleanupOf s cellId v cell.dependencies) cellId []).cells.length + 1)
          (evaluateCell ((cleanupOf s cellId v cell.dependencies).cells.length + 1)
            (cleanupOf s cellId v cell.dependencies) cellId [])
          cellId []).1 := by
  unfold setCell
  rw [h]

/-! ### Raw texts and identifiers are preserved by evaluation -/

theorem rawSkel_finishWrite (c : Str) (se : Sheet × Str) :
    rawSkel (finishWrite c se) = rawSkel se.1 := by
  unfold finishWrite
  split
  · exact rawSkel_modifyCell_of_raw _ _ _ (fun c => rfl)
  · split <;> exact rawSkel_modifyCell_of_raw _ _ _ (fun c => rfl)

theorem rawSkel_evaluateCell (fuel : Nat) :
    ∀ (s : Sheet) (c : Str) (v : List Str), rawSkel (evaluateCell fuel s c v) = rawSkel s := by
  induction fuel with
  | zero => intro s c v; rfl
  | succ f ih =>
    intro s c v
    rw [evaluateCell_succ]
    cases hf : s.find c with
    | none => rfl
    | some cell =>
      simp only
      split
      · exact rawSkel_modifyCell_of_raw _ _ _ (fun c => rfl)
      · split
        · exact rawSkel_modifyCell_of_raw _ _ _ (fun c => rfl)
        · rw [rawSkel_finishWrite]
          have aux1 : ∀ (refs : List Str) (t : Sheet),
              rawSkel (refs.foldl (fun acc ref => addEdge acc c ref) t) = rawSkel t := by
            intro refs
            induction refs with
            | nil => intro t; rfl
            | cons r rs ihr => intro t; rw [List.foldl_cons, ihr, rawSkel_addEdge]
          have aux2 : ∀ (refs : List Str) (t : Sheet) (e : Str),
              rawSkel (substFold f (c :: v) refs t e).1 = rawSkel t := by
            intro refs
            induction refs with
            | nil => intro t e; rfl
            | cons r rs ihr => intro t e; rw [substFold_cons, ihr, ih]
          rw [aux2, aux1]

theorem rawAt_evaluateCell (fuel : Nat) (s : Sheet) (c : Str) (v : List Str) (id : Str) :
    rawAt (evaluateCell fuel s c v) id = rawAt s id :=
  rawAt_eq_of_rawSkel _ _ (rawSkel_evaluateCell fuel s c v) id

theorem idsOf_evaluateCell (fuel : Nat) (s : Sheet) (c : Str) (v : List Str) :
    idsOf (evaluateCell fuel s c v) = idsOf s :=
  idsOf_eq_of_rawSkel _ _ (rawSkel_evaluateCell fuel s c v)

theorem rawSkel_updateDependents (fuel : Nat) :
    ∀ (s : Sheet) (c : Str) (pv : List Str),
      rawSkel (updateDependents fuel s c pv).1 = rawSkel s := by
  induction fuel with
  | zero => intro s c pv; rfl
  | succ f ih =>
    intro s c pv
    rw [updateDependents_succ]
    split
    · rfl
    · cases hf : s.find c with
      | none => rfl
      | some cell =>
        simp only
        have aux : ∀ (deps : List Str) (acc : Sheet × List Str),
            rawSkel
                (deps.foldl
                  (fun acc dep =>
                    updateDependents f (evaluateCell (acc.1.cells.length + 1) acc.1 dep [])
                      dep acc.2)
                  acc).1 =
              rawSkel acc.1 := by
          intro deps
          induction deps with
          | nil => intro acc; rfl
          | cons d ds ihd =>
            intro acc
            rw [List.foldl_cons, ihd, ih, rawSkel_evaluateCell]
        rw [aux]

theorem rawAt_updateDependents (fuel : Nat) (s : Sheet) (c : Str) (pv : List Str) (id : Str) :
    rawAt (updateDependents fuel s c pv).1 id = rawAt s id :=
  rawAt_eq_of_rawSkel _ _ (rawSkel_updateDependents fuel s c pv) id

/-! ### Which values a call can write to a fixed cell

If every direct evaluation of a cell `id` (from any state with the same
raw text, any fuel, any visited set not containing `id`) ends writing the
same value/error pair, then an arbitrary evaluation or propagation call
either leaves `id` untouched or leaves exactly that pair.  This is the
backbone for the literal-parsing and invalid-formula claims: the write
`id`'s own completing frame performs always wins, and the transient
`#CIRC` write of a revisit can only hit a cell whose frame is active
below it on the call stack. -/

theorem veAt_hitWrite (s : Sheet) (c x : Str) (h : x ≠ c) :
    veAt (hitWrite s c) x = veAt s x :=
  veAt_modifyCell_ne s c x _ h

theorem veAt_litWrite (s : Sheet) (c : Str) (raw : Str) (x : Str) (h : x ≠ c) :
    veAt (litWrite s c raw) x = veAt s x :=
  veAt_modifyCell_ne s c x _ h

theorem veAt_finishWrite (c : Str) (se : Sheet × Str) (x : Str) (h : x ≠ c) :
    veAt (finishWrite c se) x = veAt se.1 x := by
  unfold finishWrite
  split
  · exact veAt_modifyCell_ne _ c x _ h
  · split <;> exact veAt_modifyCell_ne _ c x _ h

theorem eval_ve_writes (id : Str) (raw0 : Str) (tve : Value × Option Str)
    (HW : ∀ (fuel : Nat) (s' : Sheet) (v' : List Str), rawAt s' id = some raw0 → id ∉ v' →
      veAt (evaluateCell (fuel + 1) s' id v') id = some tve) :
    ∀ (fuel : Nat) (s : Sheet) (c : Str) (v : List Str), rawAt s id = some raw0 → id ∉ v →
      veAt (evaluateCell fuel s c v) id = veAt s id ∨
        veAt (evaluateCell fuel s c v) id = some tve := by
  intro fuel
  induction fuel with
  | zero => intro s c v _ _; exact Or.inl rfl
  | succ f ih =>
    intro s c v hraw hv
    by_cases hc : c = id
    · subst hc
      exact Or.inr (HW f s v hraw hv)
    · rw [evaluateCell_succ]
      cases hf : s.find c with
      | none => exact Or.inl rfl
      | some cell =>
        simp only
        split
        · exact Or.inl (veAt_hitWrite s c id (fun h => hc h.symm))
        · split
          · exact Or.inl (veAt_litWrite s c _ id (fun h => hc h.symm))
          · rw [veAt_finishWrite _ _ id (fun h => hc h.symm)]
            have aux1 : ∀ (refs : List Str) (t : Sheet),
                veAt (refs.foldl (fun acc ref => addEdge acc c ref) t) id = veAt t id ∧
                  rawAt (refs.foldl (fun acc ref => addEdge acc c ref) t) id = rawAt t id := by
              intro refs
              induction refs with
              | nil => intro t; exact ⟨rfl, rfl⟩
              | cons r rs ihr =>
                intro t
                rw [List.foldl_cons]
                refine ⟨(ihr _).1.trans (veAt_addEdge t c r id), (ihr _).2.trans ?_⟩
                exact rawAt_eq_of_rawSkel _ _ (rawSkel_addEdge t c r) id
            have aux2 : ∀ (refs : List Str) (t : Sheet) (e : Str), rawAt t id = some raw0 →
                veAt (substFold f (c :: v) refs t e).1 id = veAt t id ∨
                  veAt (substFold f (c :: v) refs t e).1 id = some tve := by
              intro refs
              induction refs with
              | nil => intro t e _; exact Or.inl rfl
              | cons r rs ihr =>
                intro t e hr
                rw [substFold_cons]
                have hid : id ∉ c :: v := by
                  intro hmem
                  rcases List.mem_cons.mp hmem with h | h
                  · exact hc h.symm
                  · exact hv h
                have h1 := ih t r (c :: v) hr hid
                have hr' : rawAt (evaluateCell f t r (c :: v)) id = some raw0 :=
                  (rawAt_evaluateCell f t r (c :: v) id).trans hr
                rcases ihr (evaluateCell f t r (c :: v)) _ hr' with h2 | h2
                · rcases h1 with h1 | h1
                  · exact Or.inl (h2.trans h1)
                  · exact Or.inr (h2.trans h1)
                · exact Or.inr h2
            rcases aux2 (extractRefs (jsTrim cell.raw))
                ((extractRefs (jsTrim cell.raw)).foldl (fun acc ref => addEdge acc c ref) s)
                ((jsTrim cell.raw).drop 1)
                ((aux1 (extractRefs (jsTrim cell.raw)) s).2.trans hraw) with h | h
            · exact Or.inl (h.trans (aux1 (extractRefs (jsTrim cell.raw)) s).1)
            · exact Or.inr h

theorem upd_ve_writes (id : Str) (raw0 : Str) (tve : Value × Option Str)
    (HW : ∀ (fuel : Nat) (s' : Sheet) (v' : List Str), rawAt s' id = some raw0 → id ∉ v' →
      veAt (evaluateCell (fuel + 1) s' id v') id = some tve) :
    ∀ (fuel : Nat) (s : Sheet) (c : Str) (pv : List Str), rawAt s id = some raw0 →
      veAt (updateDependents fuel s c pv).1 id = veAt s id ∨
        veAt (updateDependents fuel s c pv).1 id = some tve := by
  intro fuel
  induction fuel with
  | zero => intro s c pv _; exact Or.inl rfl
  | succ f ih =>
    intro s c pv hraw
    rw [updateDependents_succ]
    split
    · exact Or.inl rfl
    · cases hf : s.find c with
      | none => exact Or.inl rfl
      | some cell =>
        simp only
        have aux : ∀ (deps : List Str) (acc : Sheet × List Str), rawAt acc.1 id = some raw0 →
            veAt
                  (deps.foldl
                    (fun acc dep =>
                      updateDependents f (evaluateCell (acc.1.cells.length + 1) acc.1 dep [])
                        dep acc.2)
                    acc).1 id =
                veAt acc.1 id ∨
              veAt
                  (deps.foldl
                    (fun acc dep =>
                      updateDependents f (evaluateCell (acc.1.cells.length + 1) acc.1 dep [])
                        dep acc.2)
                    acc).1 id =
                some tve := by
          intro deps
          induction deps with
          | nil => intro acc _; exact Or.inl rfl
          | cons d ds ihd =>
            intro acc hacc
            rw [List.foldl_cons]
            have h1 : veAt (evaluateCell (acc.1.cells.length + 1) acc.1 d []) id =
                veAt acc.1 id ∨
                veAt (evaluateCell (acc.1.cells.length + 1) acc.1 d []) id = some tve :=
              eval_ve_writes id raw0 tve HW (acc.1.cells.length + 1) acc.1 d [] hacc
                (List.not_mem_nil id)
            have hr1 : rawAt (evaluateCell (acc.1.cells.length + 1) acc.1 d []) id =
                some raw0 :=
              (rawAt_evaluateCell _ acc.1 d [] id).trans hacc
            have h2 := ih (evaluateCell (acc.1.cells.length + 1) acc.1 d []) d acc.2 hr1
            have hr2 : rawAt (updateDependents f
                (evaluateCell (acc.1.cells.length + 1) acc.1 d []) d acc.2).1 id =
                some raw0 :=
              (rawAt_updateDependents f _ d acc.2 id).trans hr1
            rcases ihd (updateDependents f (evaluateCell (acc.1.cells.length + 1) acc.1 d [])
                d acc.2) hr2 with h3 | h3
            · rcases h2 with h2 | h2
              · rcases h1 with h1 | h1
                · exact Or.inl ((h3.trans h2).trans h1)
                · exact Or.inr ((h3.trans h2).trans h1)
              · exact Or.inr (h3.trans h2)
            · exact Or.inr h3
        exact aux cell.dependents (s, pv ++ [c]) hraw

theorem getCell_errorAt_of_veAt (s : Sheet) (x : Str) (a : Value) (b : Option Str)
    (h : veAt s x = some (a, b)) : getCell s x = some a ∧ errorAt s x = some b := by
  unfold veAt at h
  unfold getCell errorAt
  cases hf : s.find x <;> rw [hf] at h <;> simp_all

theorem find_isSome_of_rawAt (s : Sheet) (x : Str) (r : Str) (h : rawAt s x = some r) :
    s.find x ≠ none := by
  unfold rawAt at h
  cases hf : s.find x <;> simp_all

theorem rawAt_cleanupOf (s : Sheet) (id v : Str) (old : List Str) :
    rawAt (cleanupOf s id v old) id = (s.find id).map (fun _ => v) := by
  unfold cleanupOf
  have h3 : ∀ t : Sheet, rawAt (t.modifyCell id (fun c => { c with dependencies := [] })) id =
      rawAt t id := fun t =>
    rawAt_eq_of_rawSkel _ _
      (rawSkel_modifyCell_of_raw t id (fun c => { c with dependencies := [] })
        (fun c => rfl)) id
  have h2 : ∀ (l : List Str) (t : Sheet),
      rawAt (l.foldl (fun acc dep =>
        acc.modifyCell dep (fun c => { c with dependents := listDel c.dependents id })) t) id =
      rawAt t id := by
    intro l
    induction l with
    | nil => intro t; rfl
    | cons d ds ihd =>
      intro t
      rw [List.foldl_cons, ihd]
      exact rawAt_eq_of_rawSkel _ _
        (rawSkel_modifyCell_of_raw t d
          (fun c => { c with dependents := listDel c.dependents id }) (fun c => rfl)) id
  rw [h3, h2]
  unfold rawAt
  rw [Sheet.find_modifyCell_self, Option.map_map]
  rfl

/-- Any direct evaluation of a cell holding a non-formula raw text writes
its literal value and clears the error, whatever the state, fuel and
visited set. -/
theorem lit_HW (id raw0 : Str) (hnf : startsWithEq (jsTrim raw0) = false) :
    ∀ (fuel : Nat) (s' : Sheet) (v' : List Str), rawAt s' id = some raw0 → id ∉ v' →
      veAt (evaluateCell (fuel + 1) s' id v') id = some (litValue (jsTrim raw0), none) := by
  intro fuel s' v' hraw hv
  cases hf : s'.find id with
  | none => unfold rawAt at hraw; rw [hf] at hraw; exact absurd hraw (by simp)
  | some cell =>
    have hcr : cell.raw = raw0 := by
      unfold rawAt at hraw
      rw [hf] at hraw
      simpa using hraw
    rw [evaluateCell_succ, hf]
    simp only
    rw [if_neg hv, hcr,
      if_pos (show (!startsWithEq (jsTrim raw0)) = true by rw [hnf]; rfl)]
    unfold litWrite
    rw [veAt_modifyCell_self, hf]
    rfl

/-- Claim C4.  For a live cell, `set` with a non-formula input stores as
value: the empty string for empty (trimmed) text, the number for text
that converts as a number, and the text itself otherwise — with the error
cleared. -/
theorem literal_set_value (s : Sheet) (id raw : Str) (hlive : s.find id ≠ none)
    (hnf : startsWithEq (jsTrim raw) = false) :
    getCell (setCell s id raw) id = some (litValue (jsTrim raw)) ∧
      errorAt (setCell s id raw) id = some none := by
  cases hcell : s.find id with
  | none => exact absurd hcell hlive
  | some cell =>
    rw [setCell_eq s id raw cell hcell]
    have hraw3 : rawAt (cleanupOf s id raw cell.dependencies) id = some raw := by
      rw [rawAt_cleanupOf, hcell]
      rfl
    have hve4 : veAt (evaluateCell ((cleanupOf s id raw cell.dependencies).cells.length + 1)
        (cleanupOf s id raw cell.dependencies) id []) id =
        some (litValue (jsTrim raw), none) :=
      lit_HW id raw hnf _ _ [] hraw3 (List.not_mem_nil id)
    have hraw4 : rawAt (evaluateCell ((cleanupOf s id raw cell.dependencies).cells.length + 1)
        (cleanupOf s id raw cell.dependencies) id []) id = some raw :=
      (rawAt_evaluateCell _ _ id [] id).trans hraw3
    rcases upd_ve_writes id raw (litValue (jsTrim raw), none) (lit_HW id raw hnf) _ _ id []
        hraw4 with h | h
    · exact getCell_errorAt_of_veAt _ _ _ _ (h.trans hve4)
    · exact getCell_errorAt_of_veAt _ _ _ _ h

/-- Claim C4, witness: `"42"` becomes the number `42`, `""` the empty
string, `"hello"` the text itself, each with the error cleared. -/
theorem literal_set_value_witness :
    (getCell (setCell (initSheet 2 1) idA1 "42".toList) idA1 =
        some (litValue (jsTrim "42".toList)) ∧
      errorAt (setCell (initSheet 2 1) idA1 "42".toList) idA1 = some none) ∧
    litValue (jsTrim "42".toList) = Value.num (JNum.fin 42) ∧
    (getCell (setCell (initSheet 2 1) idA1 [] ) idA1 = some (litValue (jsTrim [])) ∧
      errorAt (setCell (initSheet 2 1) idA1 []) idA1 = some none) ∧
    litValue (jsTrim []) = Value.str [] ∧
    (getCell (setCell (initSheet 2 1) idA1 "hello".toList) idA1 =
        some (litValue (jsTrim "hello".toList)) ∧
      errorAt (setCell (initSheet 2 1) idA1 "hello".toList) idA1 = some none) ∧
    litValue (jsTrim "hello".toList) = Value.str "hello".toList :=
  ⟨literal_set_value (initSheet 2 1) idA1 "42".toList (by with_unfolding_all decide)
      (by with_unfolding_all decide),
    by with_unfolding_all decide,
    literal_set_value (initSheet 2 1) idA1 [] (by with_unfolding_all decide)
      (by with_unfolding_all decide),
    by with_unfolding_all decide,
    literal_set_value (initSheet 2 1) idA1 "hello".toList (by with_unfolding_all decide)
      (by with_unfolding_all decide),
    by with_unfolding_all decide⟩

/-! ### Characters that survive substitution -/

theorem replAll_succ_cons (f : Nat) (c : Char) (t p r : Str) :
    replAll (f + 1) (c :: t) p r =
      if p ≠ [] ∧ p.isPrefixOf (c :: t) then r ++ replAll f ((c :: t).drop p.length) p r
      else c :: replAll f t p r := rfl

theorem replAll_mem (f : Nat) :
    ∀ (s p r : Str) (ch : Char), ch ∈ s → ch ∉ p → ch ∈ replAll f s p r := by
  induction f with
  | zero => intro s p r ch hs _; exact hs
  | succ f ih =>
    intro s p r ch hs hp
    cases s with
    | nil => exact absurd hs (List.not_mem_nil ch)
    | cons c t =>
      rw [replAll_succ_cons]
      split
      · rename_i hpre
        obtain ⟨rest, hrest⟩ := List.isPrefixOf_iff_prefix.mp hpre.2
        have hdrop : (c :: t).drop p.length = rest := by
          rw [← hrest, List.drop_left]
        have hmem : ch ∈ rest := by
          rw [← hrest] at hs
          rcases List.mem_append.mp hs with h | h
          · exact absurd h hp
          · exact h
        exact List.mem_append_right r (ih _ p r ch (hdrop ▸ hmem) hp)
      · rcases List.mem_cons.mp hs with h | h
        · exact h ▸ List.mem_cons_self c _
        · exact List.mem_cons_of_mem c (ih t p r ch h hp)

theorem mem_replaceAll (s p r : Str) (ch : Char) (hs : ch ∈ s) (hp : ch ∉ p) :
    ch ∈ replaceAll s p r :=
  replAll_mem (s.length + 1) s p r ch hs hp

/-- Every reference the scan extracts is a two-character token inside the
hardcoded letter/digit rectangle. -/
theorem extractRefs_shape :
    ∀ (s r : Str), r ∈ extractRefs s →
      ∃ c d, r = [c, d] ∧ 'A' ≤ c ∧ c ≤ 'E' ∧ '1' ≤ d ∧ d ≤ '5' := by
  intro s
  induction s using extractRefs.induct with
  | case1 => intro r h; exact absurd h (List.not_mem_nil r)
  | case2 c => intro r h; exact absurd h (List.not_mem_nil r)
  | case3 c d rest2 hcd ih =>
    intro r h
    rw [extractRefs, if_pos hcd] at h
    rcases List.mem_cons.mp h with h | h
    · exact ⟨c, d, h, hcd.1.1, hcd.1.2, hcd.2.1, hcd.2.2⟩
    · exact ih r h
  | case4 c d rest2 hcd ih =>
    intro r h
    rw [extractRefs, if_neg hcd] at h
    exact ih r h

theorem validChar_of_digit_range (d : Char) (h3 : '1' ≤ d) (h4 : d ≤ '5') :
    validChar d = true := by
  have hd : d.isDigit = true := by
    have l1 : '0' ≤ d := le_trans (by decide) h3
    have l2 : d ≤ '9' := le_trans h4 (by decide)
    rw [Char.le_def] at l1 l2
    unfold Char.isDigit
    simp
    exact ⟨l1, l2⟩
  unfold validChar
  rw [hd]
  simp

theorem bad_char_not_in_token (ch : Char) (hbad : validChar ch = false)
    (hAE : ¬('A' ≤ ch ∧ ch ≤ 'E')) (s' r : Str) (hr : r ∈ extractRefs s') : ch ∉ r := by
  obtain ⟨c, d, hrcd, h1, h2, h3, h4⟩ := extractRefs_shape s' r hr
  subst hrcd
  intro hmem
  rcases List.mem_cons.mp hmem with h | h
  · exact hAE ⟨h ▸ h1, h ▸ h2⟩
  · rcases List.mem_cons.mp h with h | h
    · rw [h] at hbad
      rw [validChar_of_digit_range d h3 h4] at hbad
      exact Bool.noConfusion hbad
    · exact absurd h (List.not_mem_nil ch)

theorem substFold_char_mem (ch : Char) (f : Nat) (v : List Str) :
    ∀ (refs : List Str) (s : Sheet) (e : Str), (∀ r ∈ refs, ch ∉ r) → ch ∈ e →
      ch ∈ (substFold f v refs s e).2 := by
  intro refs
  induction refs with
  | nil => intro s e _ he; exact he
  | cons r rs ih =>
    intro s e htok he
    rw [substFold_cons]
    exact ih _ _ (fun r' hr' => htok r' (List.mem_cons_of_mem r hr'))
      (mem_replaceAll _ _ _ ch he (htok r (List.mem_cons_self r rs)))

theorem validExpr_false_of_mem (e : Str) (ch : Char) (he : ch ∈ e)
    (hbad : validChar ch = false) : validExpr e = false := by
  cases hve : validExpr e with
  | false => rfl
  | true =>
    exfalso
    unfold validExpr at hve
    rw [Bool.and_eq_true, List.all_eq_true] at hve
    rw [hve.2 ch he] at hbad
    exact Bool.noConfusion hbad

theorem rawAt_addEdge_fold (c : Str) :
    ∀ (refs : List Str) (s : Sheet) (x : Str),
      rawAt (refs.foldl (fun acc ref => addEdge acc c ref) s) x = rawAt s x := by
  intro refs
  induction refs with
  | nil => intro s x; rfl
  | cons r rs ih =>
    intro s x
    rw [List.foldl_cons, ih]
    exact rawAt_eq_of_rawSkel _ _ (rawSkel_addEdge s c r) x

theorem rawAt_substFold (f : Nat) (v : List Str) :
    ∀ (refs : List Str) (s : Sheet) (e : Str) (x : Str),
      rawAt (substFold f v refs s e).1 x = rawAt s x := by
  intro refs
  induction refs with
  | nil => intro s e x; rfl
  | cons r rs ih =>
    intro s e x
    rw [substFold_cons, ih, rawAt_evaluateCell]

/-- Any direct evaluation of a formula cell whose body holds a character
that is both invalid and outside the substitutable letter range writes the
generic-error sentinel with the `Invalid formula` message: the character
survives every substitution, so the validation always fails. -/
theorem invalid_HW (id raw0 : Str) (ch : Char) (hfm : startsWithEq (jsTrim raw0) = true)
    (hch : ch ∈ (jsTrim raw0).drop 1) (hbad : validChar ch = false)
    (hAE : ¬('A' ≤ ch ∧ ch ≤ 'E')) :
    ∀ (fuel : Nat) (s' : Sheet) (v' : List Str), rawAt s' id = some raw0 → id ∉ v' →
      veAt (evaluateCell (fuel + 1) s' id v') id =
        some (errValue, some "Invalid formula".toList) := by
  intro fuel s' v' hraw hv
  cases hfind : s'.find id with
  | none => unfold rawAt at hraw; rw [hfind] at hraw; exact absurd hraw (by simp)
  | some cell =>
    have hcr : cell.raw = raw0 := by
      unfold rawAt at hraw
      rw [hfind] at hraw
      simpa using hraw
    rw [evaluateCell_succ, hfind]
    simp only
    rw [if_neg hv, hcr, if_neg (show ¬(!startsWithEq (jsTrim raw0)) = true by
      rw [hfm]; simp)]
    have hmem : ch ∈ (substFold fuel (id :: v') (extractRefs (jsTrim raw0))
        ((extractRefs (jsTrim raw0)).foldl (fun acc ref => addEdge acc id ref) s')
        ((jsTrim raw0).drop 1)).2 :=
      substFold_char_mem ch fuel (id :: v') _ _ _
        (fun r hr => bad_char_not_in_token ch hbad hAE _ r hr) hch
    have hinv := validExpr_false_of_mem _ ch hmem hbad
    unfold finishWrite
    rw [if_pos (show (!validExpr (substFold fuel (id :: v') (extractRefs (jsTrim raw0))
        ((extractRefs (jsTrim raw0)).foldl (fun acc ref => addEdge acc id ref) s')
        ((jsTrim raw0).drop 1)).2) = true by rw [hinv]; rfl)]
    have hraw1 : rawAt (substFold fuel (id :: v') (extractRefs (jsTrim raw0))
        ((extractRefs (jsTrim raw0)).foldl (fun acc ref => addEdge acc id ref) s')
        ((jsTrim raw0).drop 1)).1 id = some raw0 := by
      rw [rawAt_substFold, rawAt_addEdge_fold]
      exact hraw
    rw [veAt_modifyCell_self]
    cases hse : (substFold fuel (id :: v') (extractRefs (jsTrim raw0))
        ((extractRefs (jsTrim raw0)).foldl (fun acc ref => addEdge acc id ref) s')
        ((jsTrim raw0).drop 1)).1.find id with
    | none =>
      unfold rawAt at hraw1
      rw [hse] at hraw1
      exact absurd hraw1 (by simp)
    | some c2 => rfl

/-- Claim C6 (amended).  For a live cell and a formula whose body holds a
character outside the permitted alphabet other than a column letter
`A`–`E` — such a character survives reference substitution — `set` leaves
the generic-error sentinel with the non-null `Invalid formula` message. -/
theorem invalid_formula_rejected (s : Sheet) (id raw : Str) (ch : Char)
    (hlive : s.find id ≠ none) (hfm : startsWithEq (jsTrim raw) = true)
    (hch : ch ∈ (jsTrim raw).drop 1) (hbad : validChar ch = false)
    (hAE : ¬('A' ≤ ch ∧ ch ≤ 'E')) :
    getCell (setCell s id raw) id = some errValue ∧
      errorAt (setCell s id raw) id = some (some "Invalid formula".toList) := by
  cases hcell : s.find id with
  | none => exact absurd hcell hlive
  | some cell =>
    rw [setCell_eq s id raw cell hcell]
    have hraw3 : rawAt (cleanupOf s id raw cell.dependencies) id = some raw := by
      rw [rawAt_cleanupOf, hcell]
      rfl
    have HW := invalid_HW id raw ch hfm hch hbad hAE
    have hve4 : veAt (evaluateCell ((cleanupOf s id raw cell.dependencies).cells.length + 1)
        (cleanupOf s id raw cell.dependencies) id []) id =
        some (errValue, some "Invalid formula".toList) :=
      HW _ _ [] hraw3 (List.not_mem_nil id)
    have hraw4 : rawAt (evaluateCell ((cleanupOf s id raw cell.dependencies).cells.length + 1)
        (cleanupOf s id raw cell.dependencies) id []) id = some raw :=
      (rawAt_evaluateCell _ _ id [] id).trans hraw3
    rcases upd_ve_writes id raw (errValue, some "Invalid formula".toList) HW _ _ id []
        hraw4 with h | h
    · exact getCell_errorAt_of_veAt _ _ _ _ (h.trans hve4)
    · exact getCell_errorAt_of_veAt _ _ _ _ h

/-- Claim C6 (amended), witness: `set("A1", "=DROP TABLE")` — the
character `R` is invalid and not a column letter. -/
theorem invalid_formula_rejected_witness :
    getCell (setCell (initSheet 2 1) idA1 "=DROP TABLE".toList) idA1 = some errValue ∧
      errorAt (setCell (initSheet 2 1) idA1 "=DROP TABLE".toList) idA1 =
        some (some "Invalid formula".toList) :=
  invalid_formula_rejected (initSheet 2 1) idA1 "=DROP TABLE".toList 'R'
    (by with_unfolding_all decide) (by with_unfolding_all decide)
    (by with_unfolding_all decide) (by with_unfolding_all decide)
    (by with_unfolding_all decide)

/-! ### The hardcoded reference rectangle -/

theorem char_col_range_mem (c : Char) (h1 : 'A' ≤ c) (h2 : c ≤ 'E') :
    c ∈ ['A', 'B', 'C', 'D', 'E'] := by
  rw [Char.le_def] at h1 h2
  have h1' : ('A').val.toNat ≤ c.val.toNat := h1
  have h2' : c.val.toNat ≤ ('E').val.toNat := h2
  have e1 : ('A').val.toNat = 65 := rfl
  have e2 : ('E').val.toNat = 69 := rfl
  have hn : c.toNat = 65 ∨ c.toNat = 66 ∨ c.toNat = 67 ∨ c.toNat = 68 ∨ c.toNat = 69 := by
    unfold Char.toNat
    omega
  have hofn := Char.ofNat_toNat c
  rcases hn with h | h | h | h | h <;> rw [h] at hofn <;> rw [← hofn] <;> decide

theorem char_row_range_mem (d : Char) (h1 : '1' ≤ d) (h2 : d ≤ '5') :
    d ∈ ['1', '2', '3', '4', '5'] := by
  rw [Char.le_def] at h1 h2
  have h1' : ('1').val.toNat ≤ d.val.toNat := h1
  have h2' : d.val.toNat ≤ ('5').val.toNat := h2
  have e1 : ('1').val.toNat = 49 := rfl
  have e2 : ('5').val.toNat = 53 := rfl
  have hn : d.toNat = 49 ∨ d.toNat = 50 ∨ d.toNat = 51 ∨ d.toNat = 52 ∨ d.toNat = 53 := by
    unfold Char.toNat
    omega
  have hofn := Char.ofNat_toNat d
  rcases hn with h | h | h | h | h <;> rw [h] at hofn <;> rw [← hofn] <;> decide

/-- Claim C8 (amended).  The extraction pattern recognises exactly the
25 tokens of the fixed `A1`–`E5` rectangle, whatever the text; those
coincide with the live cells of the 5×5 grid the program instantiates. -/
theorem ref_pattern_hardcoded :
    (∀ (body r : Str), r ∈ extractRefs body → r ∈ refTokens) ∧
    (∀ r ∈ refTokens, (initSheet 5 5).find r ≠ none) := by
  constructor
  · intro body r hr
    obtain ⟨c, d, hrcd, h1, h2, h3, h4⟩ := extractRefs_shape body r hr
    subst hrcd
    have hc := char_col_range_mem c h1 h2
    have hd := char_row_range_mem d h3 h4
    fin_cases hc <;> fin_cases hd <;> decide
  · intro r hr
    fin_cases hr <;> with_unfolding_all decide

/-- Claim C8 (amended), witness: the token `A1` is extracted from
`"=A1"`, lies in the rectangle, and names a live cell of the 5×5 grid. -/
theorem ref_pattern_hardcoded_witness :
    "A1".toList ∈ refTokens ∧ (initSheet 5 5).find "A1".toList ≠ none :=
  ⟨ref_pattern_hardcoded.1 "=A1".toList "A1".toList (by with_unfolding_all decide),
    ref_pattern_hardcoded.2 "A1".toList (by with_unfolding_all decide)⟩

/-! ### Non-finite values poison the substituted text -/

theorem replAll_insert (r rep : Str) (hr : r ≠ []) (ch : Char) (hch : ch ∈ rep) :
    ∀ (f : Nat) (e : Str), e.length < f → r <:+: e → ch ∈ replAll f e r rep := by
  intro f
  induction f with
  | zero => intro e hlen _; exact absurd hlen (Nat.not_lt_zero _)
  | succ f ih =>
    intro e hlen hinf
    cases e with
    | nil =>
      exfalso
      obtain ⟨pre, post, hsplit⟩ := hinf
      obtain ⟨h1, _⟩ := List.append_eq_nil.mp hsplit
      obtain ⟨_, h4⟩ := List.append_eq_nil.mp h1
      exact hr h4
    | cons c t =>
      rw [replAll_succ_cons]
      split
      · exact List.mem_append_left _ hch
      · rename_i hneg
        obtain ⟨pre, post, hsplit⟩ := hinf
        cases pre with
        | nil =>
          exfalso
          apply hneg
          refine ⟨hr, List.isPrefixOf_iff_prefix.mpr ⟨post, ?_⟩⟩
          simpa using hsplit
        | cons p0 pre' =>
          have ht : t = pre' ++ r ++ post := by
            have := hsplit
            simp only [List.cons_append] at this
            exact ((List.cons.injEq _ _ _ _).mp this |>.2).symm
          exact List.mem_cons_of_mem c
            (ih t (by simpa using Nat.lt_of_succ_lt_succ hlen) ⟨pre', post, ht.symm⟩)

/-- Claim C10.  If, when a formula cell is evaluated, the substitution
loop reaches a reference whose token still occurs in the pending
expression text and whose just-computed value is `Infinity`, `-Infinity`
or `NaN`, then the substituted token text (`(Infinity)`/`(NaN)`) fails
the character validation, and the evaluation leaves the cell holding the
generic-error sentinel with the non-null `Invalid formula` message —
non-finite numbers do not propagate numerically through dependents. -/
theorem nonfinite_dependency_error (s : Sheet) (cid : Str) (v : List Str) (fuel : Nat)
    (cell : Cell) (hfind : s.find cid = some cell) (hv : cid ∉ v)
    (hfm : startsWithEq (jsTrim cell.raw) = true)
    (l1 l2 : List Str) (r : Str)
    (hrefs : extractRefs (jsTrim cell.raw) = l1 ++ r :: l2)
    (hocc : r <:+: (substFold fuel (cid :: v) l1
      ((extractRefs (jsTrim cell.raw)).foldl (fun acc ref => addEdge acc cid ref) s)
      ((jsTrim cell.raw).drop 1)).2)
    (hval : ∃ n,
      ((evaluateCell fuel
            (substFold fuel (cid :: v) l1
              ((extractRefs (jsTrim cell.raw)).foldl (fun acc ref => addEdge acc cid ref) s)
              ((jsTrim cell.raw).drop 1)).1
            r (cid :: v)).find r).map Cell.value = some (Value.num n) ∧
        (n = JNum.inf ∨ n = JNum.neginf ∨ n = JNum.nan)) :
    veAt (evaluateCell (fuel + 1) s cid v) cid =
      some (errValue, some "Invalid formula".toList) := by
  obtain ⟨n, hn, hcase⟩ := hval
  have hrtok : r ∈ extractRefs (jsTrim cell.raw) := by
    rw [hrefs]
    exact List.mem_append_right l1 (List.mem_cons_self r l2)
  obtain ⟨cc, dd, hrcd, _, _, _, _⟩ := extractRefs_shape _ r hrtok
  have hrne : r ≠ [] := by rw [hrcd]; simp
  -- the poisoning character and the check that it is invalid and survives
  have hchex : ∃ ch, ch ∈ refValStr (some (Value.num n)) ∧ validChar ch = false ∧
      ¬('A' ≤ ch ∧ ch ≤ 'E') := by
    rcases hcase with h | h | h <;> subst h
    · exact ⟨'I', by decide, by decide, by decide⟩
    · exact ⟨'I', by decide, by decide, by decide⟩
    · exact ⟨'N', by decide, by decide, by decide⟩
  obtain ⟨ch, hchmem, hchbad, hchAE⟩ := hchex
  -- the expression after the whole loop contains the character
  have hsf : substFold fuel (cid :: v) (extractRefs (jsTrim cell.raw))
      ((extractRefs (jsTrim cell.raw)).foldl (fun acc ref => addEdge acc cid ref) s)
      ((jsTrim cell.raw).drop 1) =
      substFold fuel (cid :: v) (l1 ++ r :: l2)
        ((extractRefs (jsTrim cell.raw)).foldl (fun acc ref => addEdge acc cid ref) s)
        ((jsTrim cell.raw).drop 1) := by
    nth_rewrite 1 [hrefs]
    rfl
  have hexpr : ch ∈ (substFold fuel (cid :: v) (extractRefs (jsTrim cell.raw))
      ((extractRefs (jsTrim cell.raw)).foldl (fun acc ref => addEdge acc cid ref) s)
      ((jsTrim cell.raw).drop 1)).2 := by
    rw [hsf, substFold_append, substFold_cons]
    refine substFold_char_mem ch fuel (cid :: v) l2 _ _
      (fun r' hr' => bad_char_not_in_token ch hchbad hchAE _ r'
        (by rw [hrefs]; exact List.mem_append_right l1 (List.mem_cons_of_mem r hr'))) ?_
    rw [hn]
    exact replAll_insert r _ hrne ch hchmem _ _ (Nat.lt_succ_self _) hocc
  have hinv := validExpr_false_of_mem _ ch hexpr hchbad
  rw [evaluateCell_succ, hfind]
  simp only
  rw [if_neg hv, if_neg (show ¬(!startsWithEq (jsTrim cell.raw)) = true by rw [hfm]; simp)]
  unfold finishWrite
  rw [if_pos (show (!validExpr (substFold fuel (cid :: v) (extractRefs (jsTrim cell.raw))
      ((extractRefs (jsTrim cell.raw)).foldl (fun acc ref => addEdge acc cid ref) s)
      ((jsTrim cell.raw).drop 1)).2) = true by rw [hinv]; rfl)]
  have hraw1 : rawAt (substFold fuel (cid :: v) (extractRefs (jsTrim cell.raw))
      ((extractRefs (jsTrim cell.raw)).foldl (fun acc ref => addEdge acc cid ref) s)
      ((jsTrim cell.raw).drop 1)).1 cid = some cell.raw := by
    rw [rawAt_substFold, rawAt_addEdge_fold]
    unfold rawAt
    rw [hfind]
    rfl
  rw [veAt_modifyCell_self]
  cases hse : (substFold fuel (cid :: v) (extractRefs (jsTrim cell.raw))
      ((extractRefs (jsTrim cell.raw)).foldl (fun acc ref => addEdge acc cid ref) s)
      ((jsTrim cell.raw).drop 1)).1.find cid with
  | none =>
    unfold rawAt at hraw1
    rw [hse] at hraw1
    exact absurd hraw1 (by simp)
  | some c2 => rfl

/-- Claim C10, witness: with `A1 = "=1/0"` (value `Infinity`), evaluating
`B1` holding `"=A1+1"` substitutes `(Infinity)`, fails validation, and
leaves `B1` with the `#ERR` sentinel and the `Invalid formula` error. -/
theorem nonfinite_dependency_error_witness :
    veAt (evaluateCell 5
        (setCell (setCell (initSheet 2 1) idA1 "=1/0".toList) idB1 "=A1+1".toList) idB1 [])
      idB1 = some (errValue, some "Invalid formula".toList) :=
  nonfinite_dependency_error
    (setCell (setCell (initSheet 2 1) idA1 "=1/0".toList) idB1 "=A1+1".toList) idB1 [] 4
    { raw := "=A1+1".toList, value := errValue, dependencies := ["A1".toList],
      dependents := [], error := some "Invalid formula".toList }
    (by with_unfolding_all decide) (by with_unfolding_all decide)
    (by with_unfolding_all decide) [] [] "A1".toList
    (by with_unfolding_all decide)
    ⟨[], ['+', '1'], by with_unfolding_all decide⟩
    ⟨JNum.inf, by with_unfolding_all decide, Or.inl rfl⟩

/-! ### Set-operation lemmas -/

theorem listAdd_mem (l : List Str) (x y : Str) : y ∈ listAdd l x ↔ y ∈ l ∨ y = x := by
  unfold listAdd
  split
  · rename_i h
    exact ⟨Or.inl, fun h' => h'.elim id (fun he => he ▸ h)⟩
  · simp

theorem listAdd_of_mem (l : List Str) (x : Str) (h : x ∈ l) : listAdd l x = l := by
  unfold listAdd
  exact if_pos h

theorem listAdd_nodup (l : List Str) (x : Str) (h : l.Nodup) : (listAdd l x).Nodup := by
  unfold listAdd
  split
  · exact h
  · rename_i hx
    rw [List.nodup_append]
    exact ⟨h, List.nodup_singleton x,
      fun a ha hax => hx ((by simpa using hax) ▸ ha)⟩

theorem listAdd_self_mem (l : List Str) (x : Str) : x ∈ listAdd l x := by
  rw [listAdd_mem]
  exact Or.inr rfl

/-! ### `find` versus membership when identifiers are unique -/

theorem mem_of_find_eq_some (s : Sheet) (x : Str) (c : Cell) (h : s.find x = some c) :
    (x, c) ∈ s.cells := by
  unfold Sheet.find at h
  obtain ⟨kv, hkv, hc⟩ := Option.map_eq_some'.mp h
  have hmem := List.mem_of_find?_eq_some hkv
  have hp := List.find?_some hkv
  rw [beq_iff_eq] at hp
  have : kv = (x, c) := by
    cases kv
    simp_all
  exact this ▸ hmem

theorem find?_eq_some_of_mem_nodup (l : List (Str × Cell))
    (h : (l.map Prod.fst).Nodup) (x : Str) (c : Cell) (hmem : (x, c) ∈ l) :
    (l.find? (fun kv => kv.1 == x)).map Prod.snd = some c := by
  induction l with
  | nil => exact absurd hmem (List.not_mem_nil _)
  | cons kv t ih =>
    rw [List.map_cons, List.nodup_cons] at h
    rcases List.mem_cons.mp hmem with he | ht
    · rw [List.find?_cons_of_pos _ (by rw [← he]; simp)]
      rw [← he]
      rfl
    · have hne : kv.1 ≠ x := by
        intro hq
        exact h.1 (hq ▸ (List.mem_map.mpr ⟨(x, c), ht, rfl⟩))
      rw [List.find?_cons_of_neg _ (by simpa using hne)]
      exact ih h.2 ht

theorem find_eq_some_of_mem (s : Sheet) (h : (idsOf s).Nodup) (x : Str) (c : Cell)
    (hmem : (x, c) ∈ s.cells) : s.find x = some c :=
  find?_eq_some_of_mem_nodup s.cells h x c hmem

/-! ### The skeleton determines everything but values -/

theorem find_skel (s : Sheet) (x : Str) :
    (skel s).find? (fun kv => kv.1 == x) =
      (s.find x).map (fun c => (x, c.raw, c.dependencies, c.dependents)) := by
  unfold skel Sheet.find
  rw [List.find?_map]
  have key : ((fun kv => kv.1 == x) ∘
      fun kv : Str × Cell => (kv.1, kv.2.raw, kv.2.dependencies, kv.2.dependents)) =
      (fun kv : Str × Cell => kv.1 == x) := by
    funext kv
    rfl
  rw [key]
  cases hf : s.cells.find? (fun kv => kv.1 == x) with
  | none => rfl
  | some kv =>
    have hp := List.find?_some hf
    rw [beq_iff_eq] at hp
    simp [hp]

theorem skel_eq_imp (s s' : Sheet) (h : skel s = skel s') :
    ∀ x, rawAt s x = rawAt s' x ∧ depsAt s x = depsAt s' x ∧
      dependentsAt s x = dependentsAt s' x ∧ (s.find x = none ↔ s'.find x = none) := by
  intro x
  have h1 := find_skel s x
  have h2 := find_skel s' x
  rw [h] at h1
  rw [h2] at h1
  unfold rawAt depsAt dependentsAt
  cases hf : s.find x <;> cases hf' : s'.find x <;> rw [hf, hf'] at h1 <;> simp_all

theorem idsOf_eq_of_skel (s s' : Sheet) (h : skel s = skel s') : idsOf s = idsOf s' := by
  have key : ∀ t : Sheet, idsOf t = (skel t).map Prod.fst := by
    intro t; unfold idsOf skel; simp
  rw [key, key, h]

theorem skel_modifyCell_of_keep (s : Sheet) (id : Str) (f : Cell → Cell)
    (hf : ∀ c, (f c).raw = c.raw ∧ (f c).dependencies = c.dependencies ∧
      (f c).dependents = c.dependents) :
    skel (s.modifyCell id f) = skel s := by
  unfold skel Sheet.modifyCell
  simp only [List.map_map]
  refine List.map_congr_left (fun kv _ => ?_)
  by_cases h : kv.1 = id <;> simp [h, (hf kv.2).1, (hf kv.2).2.1, (hf kv.2).2.2]

theorem skel_finishWrite (c : Str) (se : Sheet × Str) :
    skel (finishWrite c se) = skel se.1 := by
  unfold finishWrite
  split
  · exact skel_modifyCell_of_keep _ _ _ (fun c => ⟨rfl, rfl, rfl⟩)
  · split <;> exact skel_modifyCell_of_keep _ _ _ (fun c => ⟨rfl, rfl, rfl⟩)

theorem skel_hitWrite (s : Sheet) (c : Str) : skel (hitWrite s c) = skel s :=
  skel_modifyCell_of_keep _ _ _ (fun c => ⟨rfl, rfl, rfl⟩)

theorem skel_litWrite (s : Sheet) (c : Str) (raw : Str) :
    skel (litWrite s c raw) = skel s :=
  skel_modifyCell_of_keep _ _ _ (fun c => ⟨rfl, rfl, rfl⟩)

/-! ### No-op modifications -/

theorem modifyCell_noop (s : Sheet) (a : Str) (f : Cell → Cell)
    (h : ∀ kv ∈ s.cells, kv.1 = a → f kv.2 = kv.2) : s.modifyCell a f = s := by
  unfold Sheet.modifyCell
  have hm : s.cells.map (fun kv => if kv.1 == a then (kv.1, f kv.2) else kv) = s.cells := by
    have : s.cells.map (fun kv => if kv.1 == a then (kv.1, f kv.2) else kv) =
        s.cells.map id := by
      refine List.map_congr_left (fun kv hkv => ?_)
      by_cases h1 : kv.1 = a
      · simp only [h1, h kv hkv h1, beq_self_eq_true, if_true, id_eq]
        rw [← h1]
      · simp [h1]
    rw [this, List.map_id]
  rw [hm]

theorem addEdge_noop (s : Sheet) (cid ref : Str)
    (h1 : ∀ kv ∈ s.cells, kv.1 = cid → ref ∈ kv.2.dependencies)
    (h2 : ∀ kv ∈ s.cells, kv.1 = ref → cid ∈ kv.2.dependents) :
    addEdge s cid ref = s := by
  unfold addEdge
  have e1 : s.modifyCell cid (fun c => { c with dependencies := listAdd c.dependencies ref }) =
      s :=
    modifyCell_noop _ _ _ (fun kv hkv hk => by rw [listAdd_of_mem _ _ (h1 kv hkv hk)])
  rw [e1]
  exact modifyCell_noop _ _ _ (fun kv hkv hk => by rw [listAdd_of_mem _ _ (h2 kv hkv hk)])

theorem mem_cells_skel (s s' : Sheet) (h : skel s = skel s') :
    ∀ kv' ∈ s'.cells, ∃ kv ∈ s.cells, kv.1 = kv'.1 ∧ kv.2.raw = kv'.2.raw ∧
      kv.2.dependencies = kv'.2.dependencies ∧ kv.2.dependents = kv'.2.dependents := by
  intro kv' hkv'
  have hm : (kv'.1, kv'.2.raw, kv'.2.dependencies, kv'.2.dependents) ∈ skel s := by
    rw [h]
    exact List.mem_map.mpr ⟨kv', hkv', rfl⟩
  obtain ⟨kv, hkv, he⟩ := List.mem_map.mp hm
  rw [Prod.mk.injEq, Prod.mk.injEq, Prod.mk.injEq] at he
  exact ⟨kv, hkv, he.1, he.2.1, he.2.2.1, he.2.2.2⟩

theorem EdgeSup_of_skel_eq (s s' : Sheet) (h : skel s = skel s') (he : EdgeSup s) :
    EdgeSup s' := by
  intro kv' hkv'
  obtain ⟨kv, hkv, e1, e2, e3, e4⟩ := mem_cells_skel s s' h kv' hkv'
  have hc := he kv hkv
  refine ⟨fun x hx => ?_, fun x hx kv2' hkv2' hk2 => ?_⟩
  · rw [← e3]
    exact hc.1 x (e2 ▸ hx)
  · obtain ⟨kv2, hkv2, f1, f2, f3, f4⟩ := mem_cells_skel s s' h kv2' hkv2'
    rw [← f4, ← e1]
    exact hc.2 x (e2 ▸ hx) kv2 hkv2 (f1.trans hk2)

/-- Uniqueness of entries: with duplicate-free identifiers, every entry
with the key of a found cell carries that cell. -/
theorem entry_eq_of_nodup (s : Sheet) (hnod : (idsOf s).Nodup) (c : Str) (cell : Cell)
    (hf : s.find c = some cell) : ∀ kv ∈ s.cells, kv.1 = c → kv.2 = cell := by
  intro kv hkv hk
  have h2 : s.find c = some kv.2 :=
    find_eq_some_of_mem s hnod c kv.2 (by rw [← hk]; exact hkv)
  rw [hf] at h2
  exact ((Option.some.injEq _ _).mp h2).symm

/-- With closed edges and unique identifiers, evaluation never changes a
raw text, an adjacency list, or the identifier list: every edge-add is a
no-op, and only values and errors are written. -/
theorem skel_evaluateCell_sup (fuel : Nat) :
    ∀ (s : Sheet) (c : Str) (v : List Str), (idsOf s).Nodup → EdgeSup s →
      skel (evaluateCell fuel s c v) = skel s := by
  induction fuel with
  | zero => intro s c v _ _; rfl
  | succ f ih =>
    intro s c v hnod hsup
    rw [evaluateCell_succ]
    cases hf : s.find c with
    | none => rfl
    | some cell =>
      simp only
      split
      · exact skel_hitWrite s c
      · split
        · exact skel_litWrite s c _
        · rename_i hht hfm
          have hfm' : startsWithEq (jsTrim cell.raw) = true := by
            cases hq : startsWithEq (jsTrim cell.raw)
            · rw [hq] at hfm
              exact absurd rfl hfm
            · rfl
          have hrefs : refsSetOf cell.raw = extractRefs (jsTrim cell.raw) := by
            unfold refsSetOf
            rw [if_pos hfm']
          have hfold : (extractRefs (jsTrim cell.raw)).foldl
              (fun acc ref => addEdge acc c ref) s = s := by
            have hstep : ∀ ref ∈ extractRefs (jsTrim cell.raw), addEdge s c ref = s := by
              intro ref href
              refine addEdge_noop s c ref (fun kv hkv hk => ?_) (fun kv hkv hk => ?_)
              · have hcell := entry_eq_of_nodup s hnod c cell hf kv hkv hk
                have hmemc : (c, cell) ∈ s.cells := mem_of_find_eq_some s c cell hf
                rw [hcell]
                exact (hsup (c, cell) hmemc).1 ref (by rw [hrefs]; exact href)
              · have hmemc : (c, cell) ∈ s.cells := mem_of_find_eq_some s c cell hf
                exact (hsup (c, cell) hmemc).2 ref (by rw [hrefs]; exact href) kv hkv hk
            have : ∀ (l : List Str), (∀ r ∈ l, addEdge s c r = s) →
                l.foldl (fun acc ref => addEdge acc c ref) s = s := by
              intro l
              induction l with
              | nil => intro _; rfl
              | cons r rs ihr =>
                intro hall
                rw [List.foldl_cons, hall r (List.mem_cons_self r rs)]
                exact ihr (fun r' hr' => hall r' (List.mem_cons_of_mem r hr'))
            exact this _ hstep
          rw [skel_finishWrite]
          have haux : ∀ (refs : List Str) (t : Sheet) (e : Str), (idsOf t).Nodup →
              EdgeSup t → skel (substFold f (c :: v) refs t e).1 = skel t := by
            intro refs
            induction refs with
            | nil => intro t e _ _; rfl
            | cons r rs ihr =>
              intro t e hnt het
              rw [substFold_cons]
              have h1 : skel (evaluateCell f t r (c :: v)) = skel t := ih t r (c :: v) hnt het
              rw [ihr _ _ (by rw [idsOf_eq_of_skel _ _ h1]; exact hnt)
                (EdgeSup_of_skel_eq _ _ h1.symm het), h1]
          rw [hfold]
          exact haux _ s _ hnod hsup

theorem skel_updateDependents_sup (fuel : Nat) :
    ∀ (s : Sheet) (c : Str) (pv : List Str), (idsOf s).Nodup → EdgeSup s →
      skel (updateDependents fuel s c pv).1 = skel s := by
  induction fuel with
  | zero => intro s c pv _ _; rfl
  | succ f ih =>
    intro s c pv hnod hsup
    rw [updateDependents_succ]
    split
    · rfl
    · cases hf : s.find c with
      | none => rfl
      | some cell =>
        simp only
        have haux : ∀ (deps : List Str) (acc : Sheet × List Str), (idsOf acc.1).Nodup →
            EdgeSup acc.1 →
            skel (deps.foldl
                (fun acc dep =>
                  updateDependents f (evaluateCell (acc.1.cells.length + 1) acc.1 dep [])
                    dep acc.2)
                acc).1 = skel acc.1 := by
          intro deps
          induction deps with
          | nil => intro acc _ _; rfl
          | cons d ds ihd =>
            intro acc hna hea
            rw [List.foldl_cons]
            have h1 : skel (evaluateCell (acc.1.cells.length + 1) acc.1 d []) = skel acc.1 :=
              skel_evaluateCell_sup _ acc.1 d [] hna hea
            have hn1 : (idsOf (evaluateCell (acc.1.cells.length + 1) acc.1 d [])).Nodup := by
              rw [idsOf_eq_of_skel _ _ h1]
              exact hna
            have he1 := EdgeSup_of_skel_eq _ _ h1.symm hea
            have h2 : skel (updateDependents f
                (evaluateCell (acc.1.cells.length + 1) acc.1 d []) d acc.2).1 =
                skel (evaluateCell (acc.1.cells.length + 1) acc.1 d []) :=
              ih _ d acc.2 hn1 he1
            rw [ihd _ (by rw [idsOf_eq_of_skel _ _ (h2.trans h1)]; exact hna)
              (EdgeSup_of_skel_eq _ _ (h2.trans h1).symm hea), h2, h1]
        exact haux cell.dependents (s, pv ++ [c]) hnod hsup

theorem listAdd_idem (l : List Str) (x : Str) : listAdd (listAdd l x) x = listAdd l x :=
  listAdd_of_mem _ _ (listAdd_self_mem l x)

theorem foldl_del_find (idv : Str) (l : List Str) :
    ∀ (t : Sheet) (x : Str), (∀ c, t.find x = some c → c.dependents.Nodup) →
      (l.foldl (fun acc dep => acc.modifyCell dep
        (fun c => { c with dependents := listDel c.dependents idv })) t).find x =
      (t.find x).map (fun c =>
        if x ∈ l then { c with dependents := c.dependents.erase idv } else c) := by
  induction l with
  | nil => intro t x _; simp
  | cons d ds ih =>
    intro t x hnod
    rw [List.foldl_cons]
    have hfind' : (t.modifyCell d
        (fun c => { c with dependents := listDel c.dependents idv })).find x =
        if x = d then (t.find x).map (fun c =>
          { c with dependents := listDel c.dependents idv }) else t.find x :=
      Sheet.find_modifyCell t d x _
    have hnod' : ∀ c, (t.modifyCell d
        (fun c => { c with dependents := listDel c.dependents idv })).find x = some c →
        c.dependents.Nodup := by
      intro c hc
      rw [hfind'] at hc
      split at hc
      · obtain ⟨c0, hc0, he⟩ := Option.map_eq_some'.mp hc
        rw [← he]
        exact (hnod c0 hc0).erase idv
      · exact hnod c hc
    rw [ih _ x hnod', hfind']
    simp only [listDel]
    by_cases hxd : x = d
    · rw [if_pos hxd]
      by_cases hxds : x ∈ ds
      · rw [Option.map_map]
        cases hfx : t.find x with
        | none => rfl
        | some c =>
          simp only [Option.map_map, Option.map_some', Function.comp_def, if_pos hxds,
            if_pos (show x ∈ d :: ds from List.mem_cons_of_mem d hxds)]
          have hne : idv ∉ c.dependents.erase idv := List.Nodup.not_mem_erase (hnod c hfx)
          rw [List.erase_of_not_mem hne]
      · rw [Option.map_map]
        cases hfx : t.find x with
        | none => rfl
        | some c =>
          simp only [Option.map_map, Option.map_some', Function.comp_def, if_neg hxds,
            if_pos (show x ∈ d :: ds from hxd ▸ List.mem_cons_self d ds)]
    · rw [if_neg hxd]
      simp [List.mem_cons, hxd]

theorem addEdge_find (s : Sheet) (cid ref x : Str) :
    (addEdge s cid ref).find x =
      (s.find x).map (fun c =>
        { c with
          dependencies := if x = cid then listAdd c.dependencies ref else c.dependencies,
          dependents := if x = ref then listAdd c.dependents cid else c.dependents }) := by
  unfold addEdge
  rw [Sheet.find_modifyCell, Sheet.find_modifyCell]
  cases hf : s.find x with
  | none =>
    by_cases h1 : x = ref <;> by_cases h2 : x = cid
    · rw [if_pos h1, if_pos h2]; rfl
    · rw [if_pos h1, if_neg h2]; rfl
    · rw [if_neg h1, if_pos h2]; rfl
    · rw [if_neg h1, if_neg h2]; rfl
  | some c =>
    by_cases h1 : x = ref <;> by_cases h2 : x = cid
    · simp only [if_pos h1, if_pos h2, Option.map_some']
    · simp only [if_pos h1, if_neg h2, Option.map_some']
    · simp only [if_neg h1, if_pos h2, Option.map_some']
    · simp only [if_neg h1, if_neg h2, Option.map_some']

/-- Claim C1.  The set calls do terminate (the model is total), but the
cycle `A1 = "=B1"`, `B1 = "=A1"` does **not** leave the circular-error
sentinel on either cell: the `'#CIRC'` value written at the revisit is
read back as a non‑numeric string, substituted as `0`, and overwritten
when the outer frame of the same cell completes, so both cells end with
the value `0` and a null error. -/
theorem circ_sentinel_overwritten :
    getCell cycState idA1 = some (Value.num (JNum.fin 0)) ∧
    errorAt cycState idA1 = some none ∧
    getCell cycState idB1 = some (Value.num (JNum.fin 0)) ∧
    errorAt cycState idB1 = some none ∧
    getCell cycState idA1 ≠ some circValue ∧
    getCell cycState idB1 ≠ some circValue := by
  with_unfolding_all decide

/-- Claim C2, counterexample.  In a cyclic configuration the propagation
sweep can leave a reachable dependent stale: after `staleState`'s final
`set(A1, "=B1+1")`, `B1` is reachable from `A1` over `dependents` edges
and holds `1`, although `A1` holds `2` (so `B1 ≠ A1 + 1`) and a fresh
re-evaluation of `B1` against the current raw texts yields `2`. -/
theorem propagation_stale_counterexample :
    idB1 ∈ dependentsClosure staleState idA1 ∧
    rawAt staleState idB1 = some "=A1+1".toList ∧
    getCell staleState idA1 = some (Value.num (JNum.fin 2)) ∧
    getCell staleState idB1 = some (Value.num (JNum.fin 1)) ∧
    reEvalValue staleState idB1 = some (Value.num (JNum.fin 2)) ∧
    getCell staleState idB1 ≠ reEvalValue staleState idB1 := by
  with_unfolding_all decide

/-- Claim C5.  `A1=5`, `B1=3`, `C1="=A1*B1+2"` gives `17`; at the token
level the evaluator multiplies and divides before adding and
subtracting, associates equal-precedence operators left-to-right, and
division by zero yields an infinite or not-a-number value rather than
faulting. -/
theorem arithmetic_precedence :
    getCell arithState idC1 = some (Value.num (JNum.fin 17)) ∧
    (∀ a b c : ℚ,
      evalTokens [Tok.tnum a, Tok.tmul, Tok.tnum b, Tok.tadd, Tok.tnum c] =
        some (((JNum.fin a).mul (JNum.fin b)).add (JNum.fin c))) ∧
    (∀ a b c : ℚ,
      evalTokens [Tok.tnum a, Tok.tadd, Tok.tnum b, Tok.tmul, Tok.tnum c] =
        some ((JNum.fin a).add ((JNum.fin b).mul (JNum.fin c)))) ∧
    (∀ a b c : ℚ,
      evalTokens [Tok.tnum a, Tok.tsub, Tok.tnum b, Tok.tsub, Tok.tnum c] =
        some (((JNum.fin a).sub (JNum.fin b)).sub (JNum.fin c))) ∧
    (∀ a b c : ℚ,
      evalTokens [Tok.tnum a, Tok.tdiv, Tok.tnum b, Tok.tmul, Tok.tnum c] =
        some (((JNum.fin a).div (JNum.fin b)).mul (JNum.fin c))) ∧
    evalExpr "1/0".toList = some JNum.inf ∧
    evalExpr "0/0".toList = some JNum.nan ∧
    evalExpr "-1/0".toList = some JNum.neginf := by
  refine ⟨by with_unfolding_all decide, fun a b c => rfl, fun a b c => rfl,
    fun a b c => rfl, fun a b c => rfl, ?_, ?_, ?_⟩ <;> with_unfolding_all decide

/-- Claim C6, counterexample.  From `nanFlipState`, the call
`set(A1, "=B1")` substitutes the text `(NaN)` — which fails the character
validation — yet the propagation sweep afterwards re-evaluates `A1`
through the `A1↔B1` cycle, reads the revisited `B1` as `0`, and leaves
`A1` holding the value `0` with a null error instead of the
generic-error sentinel. -/
theorem invalid_formula_counterexample :
    setCellExpr nanFlipState idA1 "=B1".toList = some "(NaN)".toList ∧
    validExpr "(NaN)".toList = false ∧
    getCell (setCell nanFlipState idA1 "=B1".toList) idA1 = some (Value.num (JNum.fin 0)) ∧
    errorAt (setCell nanFlipState idA1 "=B1".toList) idA1 = some none ∧
    getCell (setCell nanFlipState idA1 "=B1".toList) idA1 ≠ some errValue := by
  with_unfolding_all decide

/-- Claim C7, divergence.  The claim says `set` on every identifier that
names no cell is a silent no-op raising no error.  In the source
`this.cells = {}` inherits `Object.prototype`, so for its property names
(`constructor`, `toString`, `__proto__`, ...) the `!this.cells[cellId]`
guard passes and `setCell` throws a `TypeError` iterating the undefined
`cell.dependencies` — on the program's fresh 5×5 grid,
`set('constructor', "1")` faults even though `constructor` names no
cell.  The no-op part does hold for every non-cell identifier outside
`Object.prototype`'s properties, and `get` returns the absent indicator
for every non-cell identifier without faulting. -/
theorem unknown_id_set_throws (s : Sheet) (id v : Str) (hid : s.find id = none) :
    getCellJS s id = none ∧
    (id ∉ protoKeys → setCellJS s id v = some s) ∧
    ("constructor".toList ∉ idsOf (initSheet 5 5) ∧
      setCellJS (initSheet 5 5) "constructor".toList "1".toList = none) := by
  refine ⟨?_, ?_, by with_unfolding_all decide⟩
  · unfold getCellJS cellsGet
    rw [hid]
    by_cases hp : id ∈ protoKeys
    · rw [if_pos hp]
    · rw [if_neg hp]
  · intro hp
    unfold setCellJS cellsGet
    rw [hid, if_neg hp]

/-- Claim C7, witness: on the program's 5×5 grid, `Z9` names no cell and
is not an `Object.prototype` property name — `set` is a silent no-op and
`get` reads absent — while `constructor` also names no cell yet
`set('constructor', "1")` throws. -/
theorem unknown_id_set_throws_witness :
    getCellJS (initSheet 5 5) "Z9".toList = none ∧
    setCellJS (initSheet 5 5) "Z9".toList "1".toList = some (initSheet 5 5) ∧
    setCellJS (initSheet 5 5) "constructor".toList "1".toList = none := by
  obtain ⟨h1, h2, h3⟩ := unknown_id_set_throws (initSheet 5 5) "Z9".toList "1".toList
    (by with_unfolding_all decide)
  exact ⟨h1, h2 (by with_unfolding_all decide), h3.2⟩

/-- Claim C8, counterexample.  The extraction pattern is not derived from
the construction parameters: on a 2×2 grid the out-of-range identifier
`C1` is still recognised as a reference (and silently valued `0`), and on
a 6×6 grid the in-range identifier `F1` is not recognised at all, so
`"=F1"` is rejected as an invalid formula. -/
theorem ref_pattern_counterexample :
    ((initSheet 2 2).find idC1 = none ∧
      extractRefs "=C1".toList = [idC1] ∧
      getCell (setCell (initSheet 2 2) idA1 "=C1".toList) idA1 =
        some (Value.num (JNum.fin 0))) ∧
    ((initSheet 6 6).find "F1".toList ≠ none ∧
      extractRefs "=F1".toList = [] ∧
      getCell (setCell (initSheet 6 6) idA1 "=F1".toList) idA1 = some errValue) := by
  with_unfolding_all decide

/-! ### Characterising the edge folds of `setCell` and the formula branch -/

theorem mem_foldl_listAdd (l : List Str) :
    ∀ (init : List Str) (y : Str), y ∈ l.foldl listAdd init ↔ y ∈ init ∨ y ∈ l := by
  induction l with
  | nil => intro init y; simp
  | cons r rs ih =>
    intro init y
    rw [List.foldl_cons, ih, listAdd_mem, List.mem_cons]
    tauto

theorem nodup_foldl_listAdd (l : List Str) :
    ∀ init : List Str, init.Nodup → (l.foldl listAdd init).Nodup := by
  induction l with
  | nil => intro init h; exact h
  | cons r rs ih => intro init h; exact ih _ (listAdd_nodup _ _ h)

theorem idsOf_addEdge (s : Sheet) (cid ref : Str) : idsOf (addEdge s cid ref) = idsOf s := by
  unfold addEdge
  rw [idsOf_modifyCell, idsOf_modifyCell]

theorem idsOf_addEdge_fold (cid : Str) (l : List Str) :
    ∀ s : Sheet, idsOf (l.foldl (fun acc ref => addEdge acc cid ref) s) = idsOf s := by
  induction l with
  | nil => intro s; rfl
  | cons r rs ih => intro s; rw [List.foldl_cons, ih, idsOf_addEdge]

theorem idsOf_del_fold (cid : Str) (l : List Str) :
    ∀ s : Sheet, idsOf (l.foldl (fun acc dep => acc.modifyCell dep
      (fun c => { c with dependents := listDel c.dependents cid })) s) = idsOf s := by
  induction l with
  | nil => intro s; rfl
  | cons r rs ih => intro s; rw [List.foldl_cons, ih, idsOf_modifyCell]

theorem idsOf_cleanupOf (s : Sheet) (cid v : Str) (old : List Str) :
    idsOf (cleanupOf s cid v old) = idsOf s := by
  unfold cleanupOf
  rw [idsOf_modifyCell, idsOf_del_fold, idsOf_modifyCell]

theorem addEdge_fold_find (cid : Str) (l : List Str) :
    ∀ (s : Sheet) (x : Str),
      (l.foldl (fun acc ref => addEdge acc cid ref) s).find x =
        (s.find x).map (fun c =>
          { c with
            dependencies := if x = cid then l.foldl listAdd c.dependencies
              else c.dependencies,
            dependents := if x ∈ l then listAdd c.dependents cid else c.dependents }) := by
  induction l with
  | nil =>
    intro s x
    simp only [List.foldl_nil]
    cases hf : s.find x with
    | none => rfl
    | some c =>
      simp only [Option.map_some']
      rw [if_neg (List.not_mem_nil x), ite_self]
  | cons r rs ih =>
    intro s x
    rw [List.foldl_cons, ih, addEdge_find, Option.map_map]
    cases hf : s.find x with
    | none => rfl
    | some c =>
      simp only [Option.map_some', Function.comp_def]
      by_cases h1 : x = cid <;> by_cases h2 : x = r <;> by_cases h3 : x ∈ rs
      · simp only [if_pos h1, if_pos h2, if_pos h3,
          if_pos (List.mem_cons.mpr (Or.inl h2)), listAdd_idem, List.foldl_cons]
      · simp only [if_pos h1, if_pos h2, if_neg h3,
          if_pos (List.mem_cons.mpr (Or.inl h2)), List.foldl_cons]
      · simp only [if_pos h1, if_neg h2, if_pos h3,
          if_pos (List.mem_cons_of_mem r h3), List.foldl_cons]
      · simp only [if_pos h1, if_neg h2, if_neg h3,
          if_neg (show x ∉ r :: rs from fun hm =>
            (List.mem_cons.mp hm).elim h2 h3), List.foldl_cons]
      · simp only [if_neg h1, if_pos h2, if_pos h3,
          if_pos (List.mem_cons.mpr (Or.inl h2)), listAdd_idem]
      · simp only [if_neg h1, if_pos h2, if_neg h3,
          if_pos (List.mem_cons.mpr (Or.inl h2))]
      · simp only [if_neg h1, if_neg h2, if_pos h3,
          if_pos (List.mem_cons_of_mem r h3)]
      · simp only [if_neg h1, if_neg h2, if_neg h3,
          if_neg (show x ∉ r :: rs from fun hm =>
            (List.mem_cons.mp hm).elim h2 h3)]

theorem cleanupOf_find (s : Sheet) (cid v : Str) (old : List Str)
    (hnod : ∀ kv ∈ s.cells, kv.2.dependents.Nodup) (x : Str) :
    (cleanupOf s cid v old).find x =
      (s.find x).map (fun c =>
        { raw := if x = cid then v else c.raw,
          value := c.value,
          dependencies := if x = cid then [] else c.dependencies,
          dependents := if x ∈ old then c.dependents.erase cid else c.dependents,
          error := if x = cid then none else c.error }) := by
  unfold cleanupOf
  have hn1 : ∀ c, ((s.modifyCell cid
      (fun c => { c with raw := v, error := none })).find x = some c) →
      c.dependents.Nodup := by
    intro c hc
    rw [Sheet.find_modifyCell] at hc
    split at hc
    · obtain ⟨c0, hc0, he⟩ := Option.map_eq_some'.mp hc
      rw [← he]
      exact hnod (x, c0) (mem_of_find_eq_some s x c0 hc0)
    · exact hnod (x, c) (mem_of_find_eq_some s x c hc)
  rw [Sheet.find_modifyCell, foldl_del_find cid old _ x hn1, Sheet.find_modifyCell]
  by_cases h1 : x = cid <;> by_cases h2 : x ∈ old <;>
    cases hf : s.find x
  · rw [if_pos h1, if_pos h1]; rfl
  · simp only [if_pos h1, Option.map_some', if_pos h2]
  · rw [if_pos h1, if_pos h1]; rfl
  · simp only [if_pos h1, Option.map_some', if_neg h2]
  · rw [if_neg h1, if_neg h1]; rfl
  · simp only [if_neg h1, Option.map_some', if_pos h2]
  · rw [if_neg h1, if_neg h1]; rfl
  · simp only [if_neg h1, Option.map_some', if_neg h2]

/-! ### The invariant is a property of the skeleton -/

theorem refsAtD_eq_of_skel (s s' : Sheet) (h : skel s = skel s') (c : Str) :
    ((s'.find c).map (fun cc => refsSetOf cc.raw)).getD [] =
      ((s.find c).map (fun cc => refsSetOf cc.raw)).getD [] := by
  have h4 := skel_eq_imp s s' h c
  cases hf : s.find c with
  | none =>
    rw [(h4.2.2.2).mp hf]
  | some cc =>
    cases hf' : s'.find c with
    | none => exact absurd ((h4.2.2.2).mpr hf') (by rw [hf]; exact Option.noConfusion)
    | some cc' =>
      have hr := h4.1
      unfold rawAt at hr
      rw [hf, hf'] at hr
      have : cc.raw = cc'.raw := by simpa using hr
      simp [this]

theorem Inv_of_skel (s s' : Sheet) (h : skel s = skel s') (hi : Inv s) : Inv s' := by
  refine ⟨by rw [← idsOf_eq_of_skel s s' h]; exact hi.1, ?_⟩
  intro kv' hkv'
  obtain ⟨kv, hkv, e1, e2, e3, e4⟩ := mem_cells_skel s s' h kv' hkv'
  have hc := hi.2 kv hkv
  refine ⟨by rw [← e4]; exact hc.1, by rw [← e3]; exact hc.2.1, ?_, ?_, ?_, ?_⟩
  · intro x hx
    rw [← e2]
    exact hc.2.2.1 x (by rw [← e3] at hx; exact hx)
  · intro x hx
    rw [← e3]
    exact hc.2.2.2.1 x (by rw [← e2] at hx; exact hx)
  · intro c hcc
    rw [refsAtD_eq_of_skel s s' h c, ← e1]
    exact hc.2.2.2.2.1 c (by rw [← e4] at hcc; exact hcc)
  · intro kv2' hkv2' hx
    obtain ⟨kv2, hkv2, f1, f2, f3, f4⟩ := mem_cells_skel s s' h kv2' hkv2'
    rw [← e4, ← f1]
    exact hc.2.2.2.2.2 kv2 hkv2 (by rw [← f2] at hx; rw [← e1] at hx; exact hx)

theorem EdgeSup_of_Inv (s : Sheet) (hi : Inv s) : EdgeSup s := by
  intro kv hkv
  refine ⟨(hi.2 kv hkv).2.2.2.1, ?_⟩
  intro x hx kv2 hkv2 hk2
  exact (hi.2 kv2 hkv2).2.2.2.2.2 kv hkv (by rw [hk2]; exact hx)

theorem skel_substFold_sup (f : Nat) (vis : List Str) (refs : List Str) :
    ∀ (t : Sheet) (e : Str), (idsOf t).Nodup → EdgeSup t →
      skel (substFold f vis refs t e).1 = skel t := by
  induction refs with
  | nil => intro t e _ _; rfl
  | cons r rs ihr =>
    intro t e hnt het
    rw [substFold_cons]
    have h1 : skel (evaluateCell f t r vis) = skel t :=
      skel_evaluateCell_sup f t r vis hnt het
    rw [ihr _ _ (by rw [idsOf_eq_of_skel _ _ h1]; exact hnt)
      (EdgeSup_of_skel_eq _ _ h1.symm het), h1]

/-! ### The cleanup and edge phases of `setCell` restore the invariant -/

/-- After the detach loop, no live cell holds the updated cell in its
`dependents`: a recorded reverse edge implies a forward reference, which
the invariant puts into the old `dependencies` — exactly the entries the
loop erased. -/
theorem cid_not_in_cleaned_dependents (s : Sheet) (cid : Str) (cell : Cell)
    (hi : Inv s) (hf : s.find cid = some cell) (x : Str) (c : Cell)
    (hc : s.find x = some c) :
    cid ∉ (if x ∈ cell.dependencies then c.dependents.erase cid else c.dependents) := by
  by_cases h2 : x ∈ cell.dependencies
  · rw [if_pos h2]
    exact List.Nodup.not_mem_erase ((hi.2 (x, c) (mem_of_find_eq_some s x c hc)).1)
  · rw [if_neg h2]
    intro hmem
    have h5 := (hi.2 (x, c) (mem_of_find_eq_some s x c hc)).2.2.2.2.1 cid hmem
    rw [hf] at h5
    have h5' : x ∈ refsSetOf cell.raw := by simpa using h5
    exact h2 ((hi.2 (cid, cell) (mem_of_find_eq_some s cid cell hf)).2.2.2.1 x h5')

/-- The store/detach/clear steps followed by the edge loop of the formula
branch rebuild the invariant, for any list `rl` that is exactly the
reference set of the new raw text. -/
theorem inv_cleanup_eval (s : Sheet) (cid v : Str) (cell : Cell) (rl : List Str)
    (hi : Inv s) (hf : s.find cid = some cell) (hrv : refsSetOf v = rl) :
    Inv (rl.foldl (fun acc ref => addEdge acc cid ref)
      (cleanupOf s cid v cell.dependencies)) := by
  have hdnod : ∀ kv ∈ s.cells, kv.2.dependents.Nodup := fun kv hkv => (hi.2 kv hkv).1
  have hfind : ∀ x, (rl.foldl (fun acc ref => addEdge acc cid ref)
      (cleanupOf s cid v cell.dependencies)).find x =
      (s.find x).map (fun c =>
        { raw := if x = cid then v else c.raw,
          value := c.value,
          dependencies := if x = cid then rl.foldl listAdd [] else c.dependencies,
          dependents := if x ∈ rl then
              listAdd (if x ∈ cell.dependencies then c.dependents.erase cid
                else c.dependents) cid
            else (if x ∈ cell.dependencies then c.dependents.erase cid else c.dependents),
          error := if x = cid then none else c.error }) := by
    intro x
    rw [addEdge_fold_find, cleanupOf_find s cid v cell.dependencies hdnod x, Option.map_map]
    cases hfx : s.find x with
    | none => rfl
    | some c =>
      simp only [Option.map_some', Function.comp_def]
      by_cases h1 : x = cid <;> by_cases h3 : x ∈ rl
      · simp only [if_pos h1, if_pos h3]
      · simp only [if_pos h1, if_neg h3]
      · simp only [if_neg h1, if_pos h3]
      · simp only [if_neg h1, if_neg h3]
  have hids : idsOf (rl.foldl (fun acc ref => addEdge acc cid ref)
      (cleanupOf s cid v cell.dependencies)) = idsOf s := by
    rw [idsOf_addEdge_fold, idsOf_cleanupOf]
  have hnod' : (idsOf (rl.foldl (fun acc ref => addEdge acc cid ref)
      (cleanupOf s cid v cell.dependencies))).Nodup := by
    rw [hids]; exact hi.1
  refine ⟨hnod', ?_⟩
  intro kv' hkv'
  have hfk : (rl.foldl (fun acc ref => addEdge acc cid ref)
      (cleanupOf s cid v cell.dependencies)).find kv'.1 = some kv'.2 :=
    find_eq_some_of_mem _ hnod' kv'.1 kv'.2 hkv'
  rw [hfind kv'.1] at hfk
  obtain ⟨c, hc, he⟩ := Option.map_eq_some'.mp hfk
  have hmemc : (kv'.1, c) ∈ s.cells := mem_of_find_eq_some s kv'.1 c hc
  have hcInv := hi.2 (kv'.1, c) hmemc
  have hraw : kv'.2.raw = (if kv'.1 = cid then v else c.raw) := by rw [← he]
  have hdcs : kv'.2.dependencies =
      (if kv'.1 = cid then rl.foldl listAdd [] else c.dependencies) := by rw [← he]
  have hdep : kv'.2.dependents =
      (if kv'.1 ∈ rl then
        listAdd (if kv'.1 ∈ cell.dependencies then c.dependents.erase cid
          else c.dependents) cid
      else (if kv'.1 ∈ cell.dependencies then c.dependents.erase cid
        else c.dependents)) := by rw [← he]
  have hb : (if kv'.1 ∈ cell.dependencies then c.dependents.erase cid
      else c.dependents).Nodup := by
    split
    · exact (hcInv.1).erase cid
    · exact hcInv.1
  have herase : ∀ {z : Str}, z ∈ (if kv'.1 ∈ cell.dependencies then
      c.dependents.erase cid else c.dependents) → z ∈ c.dependents := by
    intro z hz
    split at hz
    · exact List.mem_of_mem_erase hz
    · exact hz
  refine ⟨?_, ?_, ?_, ?_, ?_, ?_⟩
  · rw [hdep]
    split
    · exact listAdd_nodup _ _ hb
    · exact hb
  · rw [hdcs]
    split
    · exact nodup_foldl_listAdd rl [] List.nodup_nil
    · exact hcInv.2.1
  · intro y hy
    rw [hdcs] at hy
    rw [hraw]
    by_cases h1 : kv'.1 = cid
    · rw [if_pos h1] at hy
      rw [if_pos h1, hrv]
      rcases (mem_foldl_listAdd rl [] y).mp hy with h | h
      · exact absurd h (List.not_mem_nil y)
      · exact h
    · rw [if_neg h1] at hy
      rw [if_neg h1]
      exact hcInv.2.2.1 y hy
  · intro y hy
    rw [hraw] at hy
    rw [hdcs]
    by_cases h1 : kv'.1 = cid
    · rw [if_pos h1, hrv] at hy
      rw [if_pos h1]
      exact (mem_foldl_listAdd rl [] y).mpr (Or.inr hy)
    · rw [if_neg h1] at hy
      rw [if_neg h1]
      exact hcInv.2.2.2.1 y hy
  · intro d hd
    rw [hdep] at hd
    rw [hfind d]
    by_cases hdc : d = cid
    · subst hdc
      rw [hf]
      by_cases h3 : kv'.1 ∈ rl
      · simp only [Option.map_some', Option.getD_some, if_true]
        rw [hrv]
        exact h3
      · rw [if_neg h3] at hd
        exact absurd hd (cid_not_in_cleaned_dependents s d cell hi hf kv'.1 c hc)
    · have hdo : d ∈ c.dependents := by
        by_cases h3 : kv'.1 ∈ rl
        · rw [if_pos h3] at hd
          rcases (listAdd_mem _ cid d).mp hd with h | h
          · exact herase h
          · exact absurd h hdc
        · rw [if_neg h3] at hd
          exact herase hd
      have h5 := hcInv.2.2.2.2.1 d hdo
      cases hfd : s.find d with
      | none =>
        rw [hfd] at h5
        exact absurd h5 (by simp)
      | some cd =>
        rw [hfd] at h5
        simp only [Option.map_some', Option.getD_some] at h5 ⊢
        simp only [if_neg hdc]
        exact h5
  · intro kv2' hkv2' hx
    have hfk2 : (rl.foldl (fun acc ref => addEdge acc cid ref)
        (cleanupOf s cid v cell.dependencies)).find kv2'.1 = some kv2'.2 :=
      find_eq_some_of_mem _ hnod' kv2'.1 kv2'.2 hkv2'
    rw [hfind kv2'.1] at hfk2
    obtain ⟨c2, hc2, he2⟩ := Option.map_eq_some'.mp hfk2
    have hraw2 : kv2'.2.raw = (if kv2'.1 = cid then v else c2.raw) := by rw [← he2]
    rw [hdep]
    by_cases h1 : kv2'.1 = cid
    · rw [hraw2, if_pos h1, hrv] at hx
      rw [if_pos hx, h1]
      exact listAdd_self_mem _ cid
    · rw [hraw2, if_neg h1] at hx
      have hmem2 : (kv2'.1, c2) ∈ s.cells := mem_of_find_eq_some s kv2'.1 c2 hc2
      have hd0 : kv2'.1 ∈ c.dependents := hcInv.2.2.2.2.2 (kv2'.1, c2) hmem2 hx
      have hbase : kv2'.1 ∈ (if kv'.1 ∈ cell.dependencies then
          c.dependents.erase cid else c.dependents) := by
        split
        · exact (List.mem_erase_of_ne h1).mpr hd0
        · exact hd0
      split
      · exact (listAdd_mem _ cid kv2'.1).mpr (Or.inl hbase)
      · exact hbase

/-- The evaluation phase of `setCell` (run on the cleaned state with one
frame of fuel to spare) leaves an invariant-satisfying state: its first
frame rebuilds the edges, and everything after only writes values and
errors. -/
theorem inv_eval_cleanup (s : Sheet) (cid v : Str) (cell : Cell) (hi : Inv s)
    (hf : s.find cid = some cell) (f : Nat) :
    Inv (evaluateCell (f + 1) (cleanupOf s cid v cell.dependencies) cid []) := by
  have hdnod : ∀ kv ∈ s.cells, kv.2.dependents.Nodup := fun kv hkv => (hi.2 kv hkv).1
  have hc3 := cleanupOf_find s cid v cell.dependencies hdnod cid
  rw [hf] at hc3
  simp only [Option.map_some', eq_self_iff_true, if_true] at hc3
  rw [evaluateCell_succ, hc3]
  simp only [List.not_mem_nil, if_false]
  cases hsw : startsWithEq (jsTrim v) with
  | false =>
    have hrv : refsSetOf v = [] := by
      unfold refsSetOf
      rw [if_neg (by simp [hsw])]
    have hinv3 : Inv (cleanupOf s cid v cell.dependencies) :=
      inv_cleanup_eval s cid v cell [] hi hf hrv
    simp only [hsw, Bool.not_false, eq_self_iff_true, if_true]
    exact Inv_of_skel _ _ (skel_litWrite _ cid _).symm hinv3
  | true =>
    have hrv : refsSetOf v = extractRefs (jsTrim v) := by
      unfold refsSetOf
      rw [if_pos hsw]
    have hinv1 : Inv ((extractRefs (jsTrim v)).foldl (fun acc ref => addEdge acc cid ref)
        (cleanupOf s cid v cell.dependencies)) :=
      inv_cleanup_eval s cid v cell (extractRefs (jsTrim v)) hi hf hrv
    simp only [hsw, Bool.not_true, Bool.false_eq_true, if_false]
    have hsf := skel_substFold_sup f (cid :: []) (extractRefs (jsTrim v))
      ((extractRefs (jsTrim v)).foldl (fun acc ref => addEdge acc cid ref)
        (cleanupOf s cid v cell.dependencies))
      ((jsTrim v).drop 1) hinv1.1 (EdgeSup_of_Inv _ hinv1)
    exact Inv_of_skel _ _ ((skel_finishWrite cid _).trans hsf).symm hinv1

/-- `setCell` preserves the invariant. -/
theorem inv_setCell (s : Sheet) (cid v : Str) (hi : Inv s) : Inv (setCell s cid v) := by
  cases hf : s.find cid with
  | none =>
    unfold setCell
    rw [hf]
    exact hi
  | some cell =>
    rw [setCell_eq s cid v cell hf]
    have hinv4 : Inv (evaluateCell ((cleanupOf s cid v cell.dependencies).cells.length + 1)
        (cleanupOf s cid v cell.dependencies) cid []) :=
      inv_eval_cleanup s cid v cell hi hf _
    have hup := skel_updateDependents_sup
      ((evaluateCell ((cleanupOf s cid v cell.dependencies).cells.length + 1)
        (cleanupOf s cid v cell.dependencies) cid []).cells.length + 1)
      (evaluateCell ((cleanupOf s cid v cell.dependencies).cells.length + 1)
        (cleanupOf s cid v cell.dependencies) cid []) cid []
      hinv4.1 (EdgeSup_of_Inv _ hinv4)
    exact Inv_of_skel _ _ hup.symm hinv4

/-! ### The invariant holds at construction -/

theorem char_ofNat_toNat (n : Nat) (h : n < 55296) : (Char.ofNat n).toNat = n := by
  unfold Char.ofNat
  rw [dif_pos (Or.inl h : n.isValidChar)]
  rfl

theorem natDigits_single (r : Nat) (h : r ≤ 8) :
    natDigits (r + 1) = [Char.ofNat (49 + r)] := by
  interval_cases r <;> with_unfolding_all decide

theorem idsOf_initSheet (cols rows : Nat) :
    idsOf (initSheet cols rows) =
      (List.range cols).flatMap
        (fun i => (List.range rows).map
          (fun r => Char.ofNat (65 + i) :: natDigits (r + 1))) := by
  unfold idsOf initSheet
  rw [List.map_flatMap, List.flatMap_map]
  simp [List.map_map, Function.comp_def]

theorem nodup_ids_initSheet (cols rows : Nat) (hc : cols ≤ 26) (hr : rows ≤ 9) :
    (idsOf (initSheet cols rows)).Nodup := by
  rw [idsOf_initSheet, List.nodup_flatMap]
  constructor
  · intro i hi
    refine List.Nodup.map_on ?_ (List.nodup_range rows)
    intro r1 h1 r2 h2 he
    have hm1 := List.mem_range.mp h1
    have hm2 := List.mem_range.mp h2
    rw [natDigits_single r1 (by omega), natDigits_single r2 (by omega)] at he
    simp only [List.cons.injEq, and_true, true_and] at he
    have he2 := congrArg Char.toNat he
    rw [char_ofNat_toNat _ (by omega), char_ofNat_toNat _ (by omega)] at he2
    omega
  · have hnd : (List.range cols).Nodup := List.nodup_range cols
    refine List.Pairwise.imp_of_mem ?_ hnd
    intro a b ha hb hne
    intro x hx1 hx2
    obtain ⟨r1, hr1m, he1⟩ := List.mem_map.mp hx1
    obtain ⟨r2, hr2m, he2⟩ := List.mem_map.mp hx2
    have h3 := he1.trans he2.symm
    simp only [List.cons.injEq] at h3
    have h4 := congrArg Char.toNat h3.1
    have hma := List.mem_range.mp ha
    have hmb := List.mem_range.mp hb
    rw [char_ofNat_toNat _ (by omega), char_ofNat_toNat _ (by omega)] at h4
    exact hne (by omega)

theorem initSheet_cells_newCell (cols rows : Nat) :
    ∀ kv ∈ (initSheet cols rows).cells, kv.2 = newCell := by
  intro kv hkv
  unfold initSheet at hkv
  obtain ⟨ch, hch, hm⟩ := List.mem_flatMap.mp hkv
  obtain ⟨r, hrr, he⟩ := List.mem_map.mp hm
  rw [← he]

theorem refsSetOf_newCell : refsSetOf newCell.raw = [] := rfl

theorem inv_initSheet (cols rows : Nat) (hc : cols ≤ 26) (hr : rows ≤ 9) :
    Inv (initSheet cols rows) := by
  refine ⟨nodup_ids_initSheet cols rows hc hr, ?_⟩
  intro kv hkv
  have hnc := initSheet_cells_newCell cols rows kv hkv
  rw [hnc]
  refine ⟨List.nodup_nil, List.nodup_nil, ?_, ?_, ?_, ?_⟩
  · intro x hx
    exact absurd hx (List.not_mem_nil x)
  · intro x hx
    rw [refsSetOf_newCell] at hx
    exact absurd hx (List.not_mem_nil x)
  · intro d hd
    exact absurd hd (List.not_mem_nil d)
  · intro kv2 hkv2 hx
    rw [initSheet_cells_newCell cols rows kv2 hkv2, refsSetOf_newCell] at hx
    exact absurd hx (List.not_mem_nil kv.1)

/-- Every state reachable through the public interface satisfies the
well-formedness invariant. -/
theorem inv_of_reachable (s : Sheet) (h : Reachable s) : Inv s := by
  induction h with
  | init cols rows hc hr => exact inv_initSheet cols rows hc hr
  | step s id v _ ih => exact inv_setCell s id v ih

/-- Claim C3.  At every state reachable through the public interface (a
freshly constructed grid followed by any sequence of completed `set`
calls), for every pair of live cells `A` and `B`, `B` is a member of
`A.dependencies` exactly when `A` is a member of `B.dependents`: the
forward and reverse dependency edge sets are mutually consistent. -/
theorem mutual_edge_invariant (s : Sheet) (h : Reachable s) (A B : Str) (cA cB : Cell)
    (hA : s.find A = some cA) (hB : s.find B = some cB) :
    B ∈ cA.dependencies ↔ A ∈ cB.dependents := by
  have hi := inv_of_reachable s h
  have hmA : (A, cA) ∈ s.cells := mem_of_find_eq_some s A cA hA
  have hmB : (B, cB) ∈ s.cells := mem_of_find_eq_some s B cB hB
  constructor
  · intro hd
    have hr : B ∈ refsSetOf cA.raw := (hi.2 (A, cA) hmA).2.2.1 B hd
    exact (hi.2 (B, cB) hmB).2.2.2.2.2 (A, cA) hmA hr
  · intro hd
    have h5 := (hi.2 (B, cB) hmB).2.2.2.2.1 A hd
    rw [hA] at h5
    have h5' : B ∈ refsSetOf cA.raw := by simpa using h5
    exact (hi.2 (A, cA) hmA).2.2.2.1 B h5'

/-- Claim C3, witness: on a 2×2 grid after `set(A1, "=B1")`, cell `A1`
holds `B1` in `dependencies` and cell `B1` holds `A1` in `dependents`,
and the mutual-edge equivalence holds between them. -/
theorem mutual_edge_invariant_witness :
    (setCell (initSheet 2 2) idA1 "=B1".toList).find idA1 =
      some { raw := "=B1".toList, value := Value.num (JNum.fin 0),
             dependencies := [idB1], dependents := [], error := none } ∧
    (setCell (initSheet 2 2) idA1 "=B1".toList).find idB1 =
      some { raw := [], value := Value.str [], dependencies := [],
             dependents := [idA1], error := none } ∧
    (idB1 ∈ [idB1] ↔ idA1 ∈ [idA1]) :=
  ⟨by with_unfolding_all decide, by with_unfolding_all decide,
    mutual_edge_invariant (setCell (initSheet 2 2) idA1 "=B1".toList)
      (Reachable.step _ idA1 "=B1".toList (Reachable.init 2 2 (by decide) (by decide)))
      idA1 idB1
      { raw := "=B1".toList, value := Value.num (JNum.fin 0),
        dependencies := [idB1], dependents := [], error := none }
      { raw := [], value := Value.str [], dependencies := [],
        dependents := [idA1], error := none }
      (by with_unfolding_all decide) (by with_unfolding_all decide)⟩

/-! ### Pairwise simulation: states agreeing on identifiers, raws and
adjacency make identical control-flow decisions -/

theorem find_none_iff_ids (s : Sheet) (x : Str) : s.find x = none ↔ x ∉ idsOf s := by
  unfold Sheet.find idsOf
  rw [Option.map_eq_none', List.find?_eq_none]
  constructor
  · intro h hmem
    obtain ⟨kv, hkv, he⟩ := List.mem_map.mp hmem
    exact h kv hkv (beq_iff_eq.mpr he)
  · intro h kv hkv hbeq
    exact h (List.mem_map.mpr ⟨kv, hkv, beq_iff_eq.mp hbeq⟩)

theorem skRel_rfl (t : Sheet) : SkRel t t := ⟨rfl, fun _ => rfl⟩

theorem skRel_find_none (t t' : Sheet) (h : SkRel t t') (x : Str) :
    t.find x = none ↔ t'.find x = none := by
  have h2 := h.2 x
  cases hf : t.find x <;> cases hf' : t'.find x <;> rw [hf, hf'] at h2 <;> simp_all

theorem skRel_find_some (t t' : Sheet) (h : SkRel t t') (x : Str) (c : Cell)
    (hc : t.find x = some c) :
    ∃ c', t'.find x = some c' ∧ c.raw = c'.raw ∧ c.dependencies = c'.dependencies ∧
      c.dependents = c'.dependents := by
  have h2 := h.2 x
  rw [hc] at h2
  cases hf' : t'.find x with
  | none =>
    rw [hf'] at h2
    exact absurd h2 (by simp)
  | some c' =>
    rw [hf'] at h2
    simp only [Option.map_some'] at h2
    have h3 : cellSk c = cellSk c' := by simpa using h2
    unfold cellSk at h3
    rw [Prod.mk.injEq, Prod.mk.injEq] at h3
    exact ⟨c', rfl, h3.1, h3.2.1, h3.2.2⟩

theorem cells_length_eq_of_ids (t t' : Sheet) (h : idsOf t = idsOf t') :
    t.cells.length = t'.cells.length := by
  have h2 := congrArg List.length h
  simpa [idsOf] using h2

theorem goodFuel_nil (t : Sheet) : goodFuel t [] (t.cells.length + 1) := by
  unfold goodFuel
  have hfe : (idsOf t).filter (fun id => decide (id ∉ ([] : List Str))) = idsOf t :=
    List.filter_eq_self.mpr (fun a _ => by simp)
  rw [hfe]
  unfold idsOf
  simp [Nat.lt_succ_iff]

theorem goodFuel_of_ids (t t' : Sheet) (h : idsOf t = idsOf t') (v : List Str) (f : Nat)
    (hg : goodFuel t v f) : goodFuel t' v f := by
  unfold goodFuel at hg ⊢
  rw [← h]
  exact hg

theorem goodFuel_step (t : Sheet) (x : Str) (v : List Str) (f : Nat)
    (hnod : (idsOf t).Nodup) (hx : x ∈ idsOf t) (hxv : x ∉ v)
    (hg : goodFuel t v (f + 1)) : goodFuel t (x :: v) f := by
  unfold goodFuel at hg ⊢
  have hpred : ∀ id ∈ (idsOf t), (decide (id ∉ x :: v) : Bool) =
      ((id != x) && (decide (id ∉ v))) := by
    intro id _
    by_cases h1 : id = x <;> by_cases h2 : id ∈ v <;>
      simp [h1, h2, List.mem_cons]
  have e1 : (idsOf t).filter (fun id => decide (id ∉ x :: v)) =
      ((idsOf t).filter (fun id => decide (id ∉ v))).filter (fun id => id != x) := by
    rw [List.filter_filter]
    exact List.filter_congr hpred
  have hxf : x ∈ (idsOf t).filter (fun id => decide (id ∉ v)) :=
    List.mem_filter.mpr ⟨hx, by simp [hxv]⟩
  have hnf : ((idsOf t).filter (fun id => decide (id ∉ v))).Nodup := hnod.filter _
  have e2 : ((idsOf t).filter (fun id => decide (id ∉ v))).filter (fun id => id != x) =
      ((idsOf t).filter (fun id => decide (id ∉ v))).erase x :=
    (hnf.erase_eq_filter x).symm
  have e3 := List.length_erase_of_mem hxf
  have e4 := List.length_pos_of_mem hxf
  rw [e1, e2, e3]
  omega

theorem value_eq_of_veAt (t t' : Sheet) (a : Str) (h : veAt t a = veAt t' a) :
    (t.find a).map Cell.value = (t'.find a).map Cell.value := by
  unfold veAt at h
  cases hf : t.find a <;> cases hf' : t'.find a <;> rw [hf, hf'] at h <;> simp_all

theorem skRel_symm (t t' : Sheet) (h : SkRel t t') : SkRel t' t :=
  ⟨h.1.symm, fun x => (h.2 x).symm⟩

theorem skRel_trans (t1 t2 t3 : Sheet) (h1 : SkRel t1 t2) (h2 : SkRel t2 t3) :
    SkRel t1 t3 :=
  ⟨h1.1.trans h2.1, fun x => (h1.2 x).trans (h2.2 x)⟩

theorem skRel_of_skel (t t' : Sheet) (h : skel t = skel t') : SkRel t t' := by
  refine ⟨idsOf_eq_of_skel t t' h, ?_⟩
  intro x
  have h1 := find_skel t x
  have h2 := find_skel t' x
  rw [h] at h1
  rw [h2] at h1
  unfold cellSk
  cases hf : t.find x <;> cases hf' : t'.find x <;> rw [hf, hf'] at h1 <;> simp_all

theorem skRel_addEdge (t t' : Sheet) (h : SkRel t t') (cid r : Str) :
    SkRel (addEdge t cid r) (addEdge t' cid r) := by
  refine ⟨by rw [idsOf_addEdge, idsOf_addEdge]; exact h.1, ?_⟩
  intro x
  rw [addEdge_find, addEdge_find, Option.map_map, Option.map_map]
  cases hf : t.find x with
  | none =>
    rw [(skRel_find_none t t' h x).mp hf]
  | some c =>
    obtain ⟨c', hf', e1, e2, e3⟩ := skRel_find_some t t' h x c hf
    rw [hf']
    simp only [Option.map_some', Function.comp_def]
    unfold cellSk
    rw [Option.some.injEq, Prod.mk.injEq, Prod.mk.injEq]
    exact ⟨e1, by rw [e2], by rw [e3]⟩

theorem skRel_addEdge_fold (cid : Str) (l : List Str) :
    ∀ (t t' : Sheet), SkRel t t' →
      SkRel (l.foldl (fun acc ref => addEdge acc cid ref) t)
        (l.foldl (fun acc ref => addEdge acc cid ref) t') := by
  induction l with
  | nil => intro t t' h; exact h
  | cons r rs ihr =>
    intro t t' h
    rw [List.foldl_cons, List.foldl_cons]
    exact ihr _ _ (skRel_addEdge t t' h cid r)

theorem veAt_addEdge_fold (cid : Str) (l : List Str) :
    ∀ (t : Sheet) (y : Str),
      veAt (l.foldl (fun acc ref => addEdge acc cid ref) t) y = veAt t y := by
  induction l with
  | nil => intro t y; rfl
  | cons r rs ihr =>
    intro t y
    rw [List.foldl_cons, ihr, veAt_addEdge]

theorem veAt_hitWrite_self (t : Sheet) (c : Str) (cc : Cell) (h : t.find c = some cc) :
    veAt (hitWrite t c) c = some (circValue, some "Circular reference".toList) := by
  unfold hitWrite
  rw [veAt_modifyCell_self, h]
  rfl

theorem veAt_litWrite_self (t : Sheet) (c : Str) (raw : Str) (cc : Cell)
    (h : t.find c = some cc) :
    veAt (litWrite t c raw) c = some (litValue raw, none) := by
  unfold litWrite
  rw [veAt_modifyCell_self, h]
  rfl

theorem veAt_finishWrite_self (a : Str) (se : Sheet × Str) (cc : Cell)
    (h : se.1.find a = some cc) :
    veAt (finishWrite a se) a = some (
      if !validExpr se.2 then (errValue, some "Invalid formula".toList)
      else
        match evalExpr se.2 with
        | none => (errValue, some "SyntaxError".toList)
        | some n => (Value.num n, none)) := by
  unfold finishWrite
  split
  · rw [veAt_modifyCell_self, h]
    rfl
  · split
    · rw [veAt_modifyCell_self, h]
      rfl
    · rw [veAt_modifyCell_self, h]
      rfl

/-- Two evaluations of the same cell from states that agree on
identifiers, raw texts and adjacency — with any sufficient fuels — make
the same control-flow decisions: the resulting states still agree, every
cell was either written with the same value/error pair on both sides or
left untouched on both sides, and the evaluated cell itself (if live)
carries the same value/error pair afterwards. -/
theorem eval_pair : ∀ (f f' : Nat) (t t' : Sheet) (x : Str) (vis : List Str),
    SkRel t t' → (idsOf t).Nodup → goodFuel t vis f → goodFuel t' vis f' →
    SkRel (evaluateCell f t x vis) (evaluateCell f' t' x vis) ∧
    (∀ y, veAt (evaluateCell f t x vis) y = veAt (evaluateCell f' t' x vis) y ∨
      (veAt (evaluateCell f t x vis) y = veAt t y ∧
       veAt (evaluateCell f' t' x vis) y = veAt t' y)) ∧
    (∀ c, t.find x = some c →
      veAt (evaluateCell f t x vis) x = veAt (evaluateCell f' t' x vis) x) := by
  intro f
  induction f with
  | zero =>
    intro f' t t' x vis hsk hnod hg hg'
    exact absurd hg (by unfold goodFuel; omega)
  | succ fs ih =>
    intro f' t t' x vis hsk hnod hg hg'
    cases f' with
    | zero => exact absurd hg' (by unfold goodFuel; omega)
    | succ gs =>
      rw [evaluateCell_succ, evaluateCell_succ]
      cases hf : t.find x with
      | none =>
        rw [(skRel_find_none t t' hsk x).mp hf]
        exact ⟨hsk, fun y => Or.inr ⟨rfl, rfl⟩,
          fun c hc => Option.noConfusion hc⟩
      | some c =>
        obtain ⟨c', hf', eraw, edeps, edept⟩ := skRel_find_some t t' hsk x c hf
        rw [hf']
        simp only
        by_cases hvis : x ∈ vis
        · rw [if_pos hvis, if_pos hvis]
          have hwx : veAt (hitWrite t x) x = veAt (hitWrite t' x) x := by
            rw [veAt_hitWrite_self t x c hf, veAt_hitWrite_self t' x c' hf']
          refine ⟨skRel_trans _ _ _ (skRel_of_skel _ _ (skel_hitWrite t x))
            (skRel_trans _ _ _ hsk (skRel_of_skel _ _ (skel_hitWrite t' x).symm)),
            ?_, fun cc _ => hwx⟩
          intro y
          by_cases hyx : y = x
          · subst hyx
            exact Or.inl hwx
          · exact Or.inr ⟨veAt_hitWrite t x y hyx, veAt_hitWrite t' x y hyx⟩
        · rw [if_neg hvis, if_neg hvis, ← eraw]
          cases hsw : startsWithEq (jsTrim c.raw) with
          | false =>
            rw [if_pos (show (!false) = true from rfl), if_pos (show (!false) = true from rfl)]
            have hwx : veAt (litWrite t x (jsTrim c.raw)) x =
                veAt (litWrite t' x (jsTrim c.raw)) x := by
              rw [veAt_litWrite_self t x _ c hf, veAt_litWrite_self t' x _ c' hf']
            refine ⟨skRel_trans _ _ _ (skRel_of_skel _ _ (skel_litWrite t x _))
              (skRel_trans _ _ _ hsk (skRel_of_skel _ _ (skel_litWrite t' x _).symm)),
              ?_, fun cc _ => hwx⟩
            intro y
            by_cases hyx : y = x
            · subst hyx
              exact Or.inl hwx
            · exact Or.inr ⟨veAt_litWrite t x _ y hyx, veAt_litWrite t' x _ y hyx⟩
          | true =>
            rw [if_neg (show ¬(!true) = true from fun hq => Bool.noConfusion hq),
              if_neg (show ¬(!true) = true from fun hq => Bool.noConfusion hq)]
            have hx_ids : x ∈ idsOf t := by
              by_contra hxi
              have h0 := (find_none_iff_ids t x).mpr hxi
              rw [hf] at h0
              exact Option.noConfusion h0
            have hgf : goodFuel t (x :: vis) fs :=
              goodFuel_step t x vis fs hnod hx_ids hvis hg
            have hgf' : goodFuel t' (x :: vis) gs :=
              goodFuel_step t' x vis gs (by rw [← hsk.1]; exact hnod)
                (by rw [← hsk.1]; exact hx_ids) hvis hg'
            have haux : ∀ (rfs : List Str) (t1 t1' : Sheet) (e : Str),
                SkRel t1 t1' → idsOf t1 = idsOf t → idsOf t1' = idsOf t' →
                goodFuel t1 (x :: vis) fs → goodFuel t1' (x :: vis) gs →
                (∀ y, veAt t1 y = veAt t1' y ∨
                  (veAt t1 y = veAt t y ∧ veAt t1' y = veAt t' y)) →
                SkRel (substFold fs (x :: vis) rfs t1 e).1
                    (substFold gs (x :: vis) rfs t1' e).1 ∧
                  (substFold fs (x :: vis) rfs t1 e).2 =
                    (substFold gs (x :: vis) rfs t1' e).2 ∧
                  idsOf (substFold fs (x :: vis) rfs t1 e).1 = idsOf t ∧
                  (∀ y, veAt (substFold fs (x :: vis) rfs t1 e).1 y =
                      veAt (substFold gs (x :: vis) rfs t1' e).1 y ∨
                    (veAt (substFold fs (x :: vis) rfs t1 e).1 y = veAt t y ∧
                     veAt (substFold gs (x :: vis) rfs t1' e).1 y = veAt t' y)) := by
              intro rfs
              induction rfs with
              | nil =>
                intro t1 t1' e hsk1 hid1 hid1' _ _ hve
                exact ⟨hsk1, rfl, hid1, hve⟩
              | cons r rs ihr =>
                intro t1 t1' e hsk1 hid1 hid1' hg1 hg1' hve
                rw [substFold_cons, substFold_cons]
                obtain ⟨hskE, hveE, hliveE⟩ :=
                  ih gs t1 t1' r (x :: vis) hsk1 (by rw [hid1]; exact hnod) hg1 hg1'
                have hvalr : ((evaluateCell fs t1 r (x :: vis)).find r).map Cell.value =
                    ((evaluateCell gs t1' r (x :: vis)).find r).map Cell.value := by
                  cases hfr : t1.find r with
                  | none =>
                    have hdead : r ∉ idsOf t1 := (find_none_iff_ids t1 r).mp hfr
                    have h1 : (evaluateCell fs t1 r (x :: vis)).find r = none := by
                      rw [find_none_iff_ids, idsOf_evaluateCell]
                      exact hdead
                    have h2 : (evaluateCell gs t1' r (x :: vis)).find r = none := by
                      rw [find_none_iff_ids, idsOf_evaluateCell, ← hsk1.1]
                      exact hdead
                    rw [h1, h2]
                  | some cr => exact value_eq_of_veAt _ _ r (hliveE cr hfr)
                rw [hvalr]
                have hidE : idsOf (evaluateCell fs t1 r (x :: vis)) = idsOf t := by
                  rw [idsOf_evaluateCell]
                  exact hid1
                have hidE' : idsOf (evaluateCell gs t1' r (x :: vis)) = idsOf t' := by
                  rw [idsOf_evaluateCell]
                  exact hid1'
                have hgE : goodFuel (evaluateCell fs t1 r (x :: vis)) (x :: vis) fs :=
                  goodFuel_of_ids t1 _ (idsOf_evaluateCell fs t1 r (x :: vis)).symm _ _ hg1
                have hgE' : goodFuel (evaluateCell gs t1' r (x :: vis)) (x :: vis) gs :=
                  goodFuel_of_ids t1' _ (idsOf_evaluateCell gs t1' r (x :: vis)).symm _ _ hg1'
                have hveN : ∀ y, veAt (evaluateCell fs t1 r (x :: vis)) y =
                    veAt (evaluateCell gs t1' r (x :: vis)) y ∨
                    (veAt (evaluateCell fs t1 r (x :: vis)) y = veAt t y ∧
                     veAt (evaluateCell gs t1' r (x :: vis)) y = veAt t' y) := by
                  intro y
                  rcases hveE y with h | ⟨h1, h2⟩
                  · exact Or.inl h
                  · rcases hve y with h3 | ⟨h4, h5⟩
                    · exact Or.inl (by rw [h1, h2, h3])
                    · exact Or.inr ⟨h1.trans h4, h2.trans h5⟩
                exact ihr _ _ _ hskE hidE hidE' hgE hgE' hveN
            have hsk0 : SkRel ((extractRefs (jsTrim c.raw)).foldl
                (fun acc ref => addEdge acc x ref) t)
                ((extractRefs (jsTrim c.raw)).foldl (fun acc ref => addEdge acc x ref) t') :=
              skRel_addEdge_fold x _ t t' hsk
            have hve0 : ∀ y, veAt ((extractRefs (jsTrim c.raw)).foldl
                (fun acc ref => addEdge acc x ref) t) y =
                veAt t y := fun y => veAt_addEdge_fold x _ t y
            have hve0' : ∀ y, veAt ((extractRefs (jsTrim c.raw)).foldl
                (fun acc ref => addEdge acc x ref) t') y =
                veAt t' y := fun y => veAt_addEdge_fold x _ t' y
            obtain ⟨hskF, heF, hidF, hveF⟩ := haux (extractRefs (jsTrim c.raw)) _ _
              ((jsTrim c.raw).drop 1) hsk0 (idsOf_addEdge_fold x _ t)
              (idsOf_addEdge_fold x _ t')
              (goodFuel_of_ids t _ (idsOf_addEdge_fold x _ t).symm _ _ hgf)
              (goodFuel_of_ids t' _ (idsOf_addEdge_fold x _ t').symm _ _ hgf')
              (fun y => Or.inr ⟨hve0 y, hve0' y⟩)
            have hfx1 : (substFold fs (x :: vis) (extractRefs (jsTrim c.raw))
                ((extractRefs (jsTrim c.raw)).foldl (fun acc ref => addEdge acc x ref) t)
                ((jsTrim c.raw).drop 1)).1.find x ≠ none := by
              rw [ne_eq, find_none_iff_ids, hidF]
              exact fun hq => hq hx_ids
            have hwx : veAt (finishWrite x (substFold fs (x :: vis)
                  (extractRefs (jsTrim c.raw))
                  ((extractRefs (jsTrim c.raw)).foldl (fun acc ref => addEdge acc x ref) t)
                  ((jsTrim c.raw).drop 1))) x =
                veAt (finishWrite x (substFold gs (x :: vis)
                  (extractRefs (jsTrim c.raw))
                  ((extractRefs (jsTrim c.raw)).foldl (fun acc ref => addEdge acc x ref) t')
                  ((jsTrim c.raw).drop 1))) x := by
              cases hfs1 : (substFold fs (x :: vis) (extractRefs (jsTrim c.raw))
                  ((extractRefs (jsTrim c.raw)).foldl (fun acc ref => addEdge acc x ref) t)
                  ((jsTrim c.raw).drop 1)).1.find x with
              | none => exact absurd hfs1 hfx1
              | some cx =>
                obtain ⟨cx', hfs1', _, _, _⟩ := skRel_find_some _ _ hskF x cx hfs1
                rw [veAt_finishWrite_self x _ cx hfs1, veAt_finishWrite_self x _ cx' hfs1',
                  heF]
            refine ⟨skRel_trans _ _ _ (skRel_of_skel _ _ (skel_finishWrite x _))
              (skRel_trans _ _ _ hskF (skRel_of_skel _ _ (skel_finishWrite x _).symm)),
              ?_, fun cc _ => hwx⟩
            intro y
            by_cases hyx : y = x
            · subst hyx
              exact Or.inl hwx
            · rw [veAt_finishWrite x _ y hyx, veAt_finishWrite x _ y hyx]
              rcases hveF y with h | ⟨h1, h2⟩
              · exact Or.inl h
              · exact Or.inr ⟨h1, h2⟩

/-- Two propagation sweeps from states that agree on identifiers, raws
and adjacency visit the same cells in the same order, return the same
"already propagated" set, and write the same value/error pairs. -/
theorem upd_pair : ∀ (f : Nat) (t t' : Sheet) (c : Str) (pv : List Str),
    SkRel t t' → (idsOf t).Nodup →
    SkRel (updateDependents f t c pv).1 (updateDependents f t' c pv).1 ∧
    (updateDependents f t c pv).2 = (updateDependents f t' c pv).2 ∧
    (∀ y, veAt (updateDependents f t c pv).1 y = veAt (updateDependents f t' c pv).1 y ∨
      (veAt (updateDependents f t c pv).1 y = veAt t y ∧
       veAt (updateDependents f t' c pv).1 y = veAt t' y)) := by
  intro f
  induction f with
  | zero =>
    intro t t' c pv hsk hnod
    exact ⟨hsk, rfl, fun y => Or.inr ⟨rfl, rfl⟩⟩
  | succ fs ih =>
    intro t t' c pv hsk hnod
    rw [updateDependents_succ, updateDependents_succ]
    by_cases hcv : c ∈ pv
    · rw [if_pos hcv, if_pos hcv]
      exact ⟨hsk, rfl, fun y => Or.inr ⟨rfl, rfl⟩⟩
    · rw [if_neg hcv, if_neg hcv]
      cases hf : t.find c with
      | none =>
        rw [(skRel_find_none t t' hsk c).mp hf]
        exact ⟨hsk, rfl, fun y => Or.inr ⟨rfl, rfl⟩⟩
      | some cell =>
        obtain ⟨cell', hf', eraw, edeps, edept⟩ := skRel_find_some t t' hsk c cell hf
        rw [hf']
        simp only
        rw [← edept]
        have haux : ∀ (deps : List Str) (a a' : Sheet) (w w' : List Str), w = w' →
            SkRel a a' → (idsOf a).Nodup →
            (∀ y, veAt a y = veAt a' y ∨
              (veAt a y = veAt t y ∧ veAt a' y = veAt t' y)) →
            SkRel (deps.foldl (fun acc dep => updateDependents fs
                (evaluateCell (acc.1.cells.length + 1) acc.1 dep []) dep acc.2) (a, w)).1
              (deps.foldl (fun acc dep => updateDependents fs
                (evaluateCell (acc.1.cells.length + 1) acc.1 dep []) dep acc.2) (a', w')).1 ∧
            (deps.foldl (fun acc dep => updateDependents fs
                (evaluateCell (acc.1.cells.length + 1) acc.1 dep []) dep acc.2) (a, w)).2 =
              (deps.foldl (fun acc dep => updateDependents fs
                (evaluateCell (acc.1.cells.length + 1) acc.1 dep []) dep acc.2) (a', w')).2 ∧
            (∀ y, veAt (deps.foldl (fun acc dep => updateDependents fs
                  (evaluateCell (acc.1.cells.length + 1) acc.1 dep []) dep acc.2) (a, w)).1 y =
                veAt (deps.foldl (fun acc dep => updateDependents fs
                  (evaluateCell (acc.1.cells.length + 1) acc.1 dep [])
                  dep acc.2) (a', w')).1 y ∨
              (veAt (deps.foldl (fun acc dep => updateDependents fs
                  (evaluateCell (acc.1.cells.length + 1) acc.1 dep []) dep acc.2)
                  (a, w)).1 y = veAt t y ∧
               veAt (deps.foldl (fun acc dep => updateDependents fs
                  (evaluateCell (acc.1.cells.length + 1) acc.1 dep []) dep acc.2)
                  (a', w')).1 y = veAt t' y)) := by
          intro deps
          induction deps with
          | nil =>
            intro a a' w w' hw hska hnoda hvea
            subst hw
            exact ⟨hska, rfl, hvea⟩
          | cons d ds ihd =>
            intro a a' w w' hw hska hnoda hvea
            subst hw
            rw [List.foldl_cons, List.foldl_cons]
            obtain ⟨hskE, hveE, _⟩ := eval_pair (a.cells.length + 1) (a'.cells.length + 1)
              a a' d [] hska hnoda (goodFuel_nil a) (goodFuel_nil a')
            obtain ⟨hskU, heU, hveU⟩ := ih (evaluateCell (a.cells.length + 1) a d [])
              (evaluateCell (a'.cells.length + 1) a' d []) d w hskE
              (by rw [idsOf_evaluateCell]; exact hnoda)
            have hnodU : (idsOf (updateDependents fs
                (evaluateCell (a.cells.length + 1) a d []) d w).1).Nodup := by
              rw [idsOf_eq_of_rawSkel _ _ (rawSkel_updateDependents fs _ d w),
                idsOf_evaluateCell]
              exact hnoda
            have hveC : ∀ y, veAt (updateDependents fs
                  (evaluateCell (a.cells.length + 1) a d []) d w).1 y =
                veAt (updateDependents fs
                  (evaluateCell (a'.cells.length + 1) a' d []) d w).1 y ∨
                (veAt (updateDependents fs
                  (evaluateCell (a.cells.length + 1) a d []) d w).1 y = veAt t y ∧
                 veAt (updateDependents fs
                  (evaluateCell (a'.cells.length + 1) a' d []) d w).1 y = veAt t' y) := by
              intro y
              rcases hveU y with h | ⟨h1, h2⟩
              · exact Or.inl h
              · rcases hveE y with h3 | ⟨h4, h5⟩
                · exact Or.inl (by rw [h1, h2, h3])
                · rcases hvea y with h6 | ⟨h7, h8⟩
                  · exact Or.inl (by rw [h1, h4, h2, h5, h6])
                  · exact Or.inr ⟨(h1.trans h4).trans h7, (h2.trans h5).trans h8⟩
            exact ihd _ _ _ _ heU hskU hnodU hveC
        exact haux cell.dependents t t' (pv ++ [c]) (pv ++ [c]) rfl hsk hnod
          (fun y => Or.inr ⟨rfl, rfl⟩)

/-! ### What one `setCell` call does to the skeleton -/

theorem cleanup_fold_find (s : Sheet) (cid v : Str) (old rl : List Str)
    (hdnod : ∀ kv ∈ s.cells, kv.2.dependents.Nodup) (x : Str) :
    (rl.foldl (fun acc ref => addEdge acc cid ref) (cleanupOf s cid v old)).find x =
      (s.find x).map (fun c =>
        { raw := if x = cid then v else c.raw,
          value := c.value,
          dependencies := if x = cid then rl.foldl listAdd [] else c.dependencies,
          dependents := if x ∈ rl then
              listAdd (if x ∈ old then c.dependents.erase cid else c.dependents) cid
            else (if x ∈ old then c.dependents.erase cid else c.dependents),
          error := if x = cid then none else c.error }) := by
  rw [addEdge_fold_find, cleanupOf_find s cid v old hdnod x, Option.map_map]
  cases hfx : s.find x with
  | none => rfl
  | some c =>
    simp only [Option.map_some', Function.comp_def]
    by_cases h1 : x = cid <;> by_cases h3 : x ∈ rl
    · simp only [if_pos h1, if_pos h3]
    · simp only [if_pos h1, if_neg h3]
    · simp only [if_neg h1, if_pos h3]
    · simp only [if_neg h1, if_neg h3]

theorem skel_eval_cleanup (s : Sheet) (cid v : Str) (cell : Cell) (hi : Inv s)
    (hf : s.find cid = some cell) (f : Nat) :
    skel (evaluateCell (f + 1) (cleanupOf s cid v cell.dependencies) cid []) =
      skel ((refsSetOf v).foldl (fun acc ref => addEdge acc cid ref)
        (cleanupOf s cid v cell.dependencies)) := by
  have hdnod : ∀ kv ∈ s.cells, kv.2.dependents.Nodup := fun kv hkv => (hi.2 kv hkv).1
  have hc3 := cleanupOf_find s cid v cell.dependencies hdnod cid
  rw [hf] at hc3
  simp only [Option.map_some', eq_self_iff_true, if_true] at hc3
  rw [evaluateCell_succ, hc3]
  simp only [List.not_mem_nil, if_false]
  cases hsw : startsWithEq (jsTrim v) with
  | false =>
    have hrv : refsSetOf v = [] := by
      unfold refsSetOf
      rw [if_neg (by simp [hsw])]
    rw [hrv]
    simp only [List.foldl_nil, hsw, Bool.not_false, eq_self_iff_true, if_true]
    exact skel_litWrite _ cid _
  | true =>
    have hrv : refsSetOf v = extractRefs (jsTrim v) := by
      unfold refsSetOf
      rw [if_pos hsw]
    rw [hrv]
    simp only [hsw, Bool.not_true, Bool.false_eq_true, if_false]
    have hinv1 : Inv ((extractRefs (jsTrim v)).foldl (fun acc ref => addEdge acc cid ref)
        (cleanupOf s cid v cell.dependencies)) :=
      inv_cleanup_eval s cid v cell (extractRefs (jsTrim v)) hi hf hrv
    exact (skel_finishWrite cid _).trans (skel_substFold_sup f (cid :: []) _ _ _
      hinv1.1 (EdgeSup_of_Inv _ hinv1))

theorem skel_setCell (s : Sheet) (cid v : Str) (cell : Cell) (hi : Inv s)
    (hf : s.find cid = some cell) :
    skel (setCell s cid v) =
      skel ((refsSetOf v).foldl (fun acc ref => addEdge acc cid ref)
        (cleanupOf s cid v cell.dependencies)) := by
  rw [setCell_eq s cid v cell hf]
  have hinv4 : Inv (evaluateCell ((cleanupOf s cid v cell.dependencies).cells.length + 1)
      (cleanupOf s cid v cell.dependencies) cid []) := inv_eval_cleanup s cid v cell hi hf _
  rw [skel_updateDependents_sup _ _ cid [] hinv4.1 (EdgeSup_of_Inv _ hinv4)]
  exact skel_eval_cleanup s cid v cell hi hf _

theorem idsOf_setCell (s : Sheet) (cid v : Str) : idsOf (setCell s cid v) = idsOf s := by
  cases hf : s.find cid with
  | none =>
    unfold setCell
    rw [hf]
  | some cell =>
    rw [setCell_eq s cid v cell hf,
      idsOf_eq_of_rawSkel _ _ (rawSkel_updateDependents _ _ cid []),
      idsOf_evaluateCell, idsOf_cleanupOf]

/-- The store/detach/clear phase of a second identical `set` call
produces a state that agrees with the first call's cleaned state on
identifiers, raws and adjacency: detaching the freshly added reverse
edges and re-clearing the dependencies undoes exactly what the first
call's edge phase added. -/
theorem skRel_second_cleanup (s : Sheet) (cid v : Str) (cell cell1 : Cell) (hi : Inv s)
    (hf : s.find cid = some cell)
    (hf1 : (setCell s cid v).find cid = some cell1) :
    SkRel (cleanupOf (setCell s cid v) cid v cell1.dependencies)
      (cleanupOf s cid v cell.dependencies) := by
  have hiA : Inv (setCell s cid v) := inv_setCell s cid v hi
  have hdnod : ∀ kv ∈ s.cells, kv.2.dependents.Nodup := fun kv hkv => (hi.2 kv hkv).1
  have hdnodA : ∀ kv ∈ (setCell s cid v).cells, kv.2.dependents.Nodup :=
    fun kv hkv => (hiA.2 kv hkv).1
  have hskA : SkRel (setCell s cid v) ((refsSetOf v).foldl
      (fun acc ref => addEdge acc cid ref) (cleanupOf s cid v cell.dependencies)) :=
    skRel_of_skel _ _ (skel_setCell s cid v cell hi hf)
  have hFfind := cleanup_fold_find s cid v cell.dependencies (refsSetOf v) hdnod cid
  rw [hf] at hFfind
  simp only [Option.map_some', eq_self_iff_true, if_true] at hFfind
  have h2 := hskA.2 cid
  rw [hf1, hFfind] at h2
  simp only [Option.map_some', Option.some.injEq] at h2
  have hdeps1 : cell1.dependencies = (refsSetOf v).foldl listAdd [] := by
    unfold cellSk at h2
    rw [Prod.mk.injEq, Prod.mk.injEq] at h2
    exact h2.2.1
  have hmem1 : ∀ z, z ∈ cell1.dependencies ↔ z ∈ refsSetOf v := by
    intro z
    rw [hdeps1, mem_foldl_listAdd]
    simp
  refine ⟨by rw [idsOf_cleanupOf, idsOf_cleanupOf, idsOf_setCell], ?_⟩
  intro x
  rw [cleanupOf_find _ cid v _ hdnodA x, cleanupOf_find s cid v _ hdnod x,
    Option.map_map, Option.map_map]
  cases hfx : s.find x with
  | none =>
    have hxa : (setCell s cid v).find x = none := by
      rw [find_none_iff_ids, idsOf_setCell]
      exact (find_none_iff_ids s x).mp hfx
    rw [hxa]
    rfl
  | some c =>
    have hFx := cleanup_fold_find s cid v cell.dependencies (refsSetOf v) hdnod x
    rw [hfx] at hFx
    simp only [Option.map_some'] at hFx
    have h2x := hskA.2 x
    rw [hFx] at h2x
    cases hfa : (setCell s cid v).find x with
    | none =>
      rw [hfa] at h2x
      exact absurd h2x (by simp)
    | some cA =>
      rw [hfa] at h2x
      simp only [Option.map_some', Option.some.injEq] at h2x
      unfold cellSk at h2x
      simp only [Prod.mk.injEq] at h2x
      obtain ⟨hraw3, hdeps3, hdept3⟩ := h2x
      simp only [Option.map_some', Function.comp_def, Option.some.injEq]
      unfold cellSk
      simp only [Prod.mk.injEq]
      refine ⟨?_, ?_, ?_⟩
      · by_cases h1 : x = cid
        · rw [if_pos h1, if_pos h1]
        · rw [if_neg h1, if_neg h1]
          rw [if_neg h1] at hraw3
          exact hraw3
      · by_cases h1 : x = cid
        · rw [if_pos h1, if_pos h1]
        · rw [if_neg h1, if_neg h1]
          rw [if_neg h1] at hdeps3
          exact hdeps3
      · by_cases h3r : x ∈ refsSetOf v
        · rw [if_pos ((hmem1 x).mpr h3r)]
          rw [if_pos h3r] at hdept3
          have hcidB : cid ∉ (if x ∈ cell.dependencies then c.dependents.erase cid
              else c.dependents) :=
            cid_not_in_cleaned_dependents s cid cell hi hf x c hfx
          have hla : listAdd (if x ∈ cell.dependencies then c.dependents.erase cid
              else c.dependents) cid =
              (if x ∈ cell.dependencies then c.dependents.erase cid
                else c.dependents) ++ [cid] := by
            unfold listAdd
            rw [if_neg hcidB]
          rw [hdept3, hla, List.erase_append_right _ hcidB, List.erase_cons_head,
            List.append_nil]
        · rw [if_neg (fun hq => h3r ((hmem1 x).mp hq))]
          rw [if_neg h3r] at hdept3
          exact hdept3

theorem veAt_cleanupOf_ne (t : Sheet) (cid v : Str) (old : List Str)
    (hdnod : ∀ kv ∈ t.cells, kv.2.dependents.Nodup) (z : Str) (hz : z ≠ cid) :
    veAt (cleanupOf t cid v old) z = veAt t z := by
  unfold veAt
  rw [cleanupOf_find t cid v old hdnod z, Option.map_map]
  cases hfz : t.find z with
  | none => rfl
  | some c =>
    simp only [Option.map_some', Function.comp_def, if_neg hz]

/-- Claim C9.  On every state reachable through the public interface,
calling `set(id, raw)` twice in succession with the same raw text leaves
every cell with the same value and error as calling it once. -/
theorem set_idempotent (s : Sheet) (cid v : Str) (h : Reachable s) (y : Str) :
    veAt (setCell (setCell s cid v) cid v) y = veAt (setCell s cid v) y := by
  have hi := inv_of_reachable s h
  cases hf : s.find cid with
  | none =>
    have e1 : setCell s cid v = s := by
      unfold setCell
      rw [hf]
    rw [e1, e1]
  | some cell =>
    have hiA : Inv (setCell s cid v) := inv_setCell s cid v hi
    have hdnodA : ∀ kv ∈ (setCell s cid v).cells, kv.2.dependents.Nodup :=
      fun kv hkv => (hiA.2 kv hkv).1
    have hxid : cid ∈ idsOf s := by
      by_contra hq
      have h0 := (find_none_iff_ids s cid).mpr hq
      rw [hf] at h0
      exact Option.noConfusion h0
    cases hf1 : (setCell s cid v).find cid with
    | none =>
      exact absurd ((find_none_iff_ids _ cid).mp hf1)
        (by rw [idsOf_setCell]; exact fun hq => hq hxid)
    | some cell1 =>
      rw [setCell_eq (setCell s cid v) cid v cell1 hf1]
      have hsk3 : SkRel (cleanupOf (setCell s cid v) cid v cell1.dependencies)
          (cleanupOf s cid v cell.dependencies) :=
        skRel_second_cleanup s cid v cell cell1 hi hf hf1
      have hnod3 : (idsOf (cleanupOf (setCell s cid v) cid v
          cell1.dependencies)).Nodup := by
        rw [idsOf_cleanupOf, idsOf_setCell]
        exact hi.1
      obtain ⟨hskE, hveE, hliveE⟩ := eval_pair
        ((cleanupOf (setCell s cid v) cid v cell1.dependencies).cells.length + 1)
        ((cleanupOf s cid v cell.dependencies).cells.length + 1)
        (cleanupOf (setCell s cid v) cid v cell1.dependencies)
        (cleanupOf s cid v cell.dependencies) cid [] hsk3 hnod3
        (goodFuel_nil _) (goodFuel_nil _)
      have hnodE : (idsOf (evaluateCell
          ((cleanupOf (setCell s cid v) cid v cell1.dependencies).cells.length + 1)
          (cleanupOf (setCell s cid v) cid v cell1.dependencies) cid [])).Nodup := by
        rw [idsOf_evaluateCell]
        exact hnod3
      have hlenE : (evaluateCell
          ((cleanupOf (setCell s cid v) cid v cell1.dependencies).cells.length + 1)
          (cleanupOf (setCell s cid v) cid v cell1.dependencies) cid []).cells.length =
          (evaluateCell ((cleanupOf s cid v cell.dependencies).cells.length + 1)
            (cleanupOf s cid v cell.dependencies) cid []).cells.length :=
        cells_length_eq_of_ids _ _ hskE.1
      obtain ⟨hskU, heU, hveU⟩ := upd_pair
        ((evaluateCell ((cleanupOf (setCell s cid v) cid v
            cell1.dependencies).cells.length + 1)
          (cleanupOf (setCell s cid v) cid v cell1.dependencies) cid []).cells.length + 1)
        (evaluateCell ((cleanupOf (setCell s cid v) cid v
            cell1.dependencies).cells.length + 1)
          (cleanupOf (setCell s cid v) cid v cell1.dependencies) cid [])
        (evaluateCell ((cleanupOf s cid v cell.dependencies).cells.length + 1)
          (cleanupOf s cid v cell.dependencies) cid [])
        cid [] hskE hnodE
      have hA1 : ∀ z, veAt (setCell s cid v) z = veAt ((updateDependents
          ((evaluateCell ((cleanupOf (setCell s cid v) cid v
              cell1.dependencies).cells.length + 1)
            (cleanupOf (setCell s cid v) cid v cell1.dependencies) cid
            []).cells.length + 1)
          (evaluateCell ((cleanupOf s cid v cell.dependencies).cells.length + 1)
            (cleanupOf s cid v cell.dependencies) cid [])
          cid []).1) z := by
        intro z
        nth_rewrite 1 [setCell_eq s cid v cell hf]
        rw [hlenE]
      rcases hveU y with hu | ⟨hu1, hu2⟩
      · rw [hu]
        exact (hA1 y).symm
      · rw [hu1]
        by_cases hyc : y = cid
        · rw [hyc] at hu2 ⊢
          cases hfc3 : (cleanupOf (setCell s cid v) cid v
              cell1.dependencies).find cid with
          | none =>
            exact absurd ((find_none_iff_ids _ cid).mp hfc3)
              (by rw [idsOf_cleanupOf, idsOf_setCell]; exact fun hq => hq hxid)
          | some c3 =>
            rw [hliveE c3 hfc3, hA1 cid]
            exact hu2.symm
        · rcases hveE y with he | ⟨he1, he2⟩
          · rw [he, hA1 y]
            exact hu2.symm
          · rw [he1]
            exact veAt_cleanupOf_ne (setCell s cid v) cid v cell1.dependencies
              hdnodA y hyc

/-! ### The pure denotation of a cell under an acyclicity rank -/

theorem pureVE_dead (f : Nat) (s : Sheet) (x : Str) (h : s.find x = none) :
    pureVE f s x = none := by
  cases f with
  | zero => rfl
  | succ g =>
    unfold pureVE
    rw [h]

theorem foldl_replace_congr (F G : Str → Option (Value × Option Str)) (rl : List Str)
    (h : ∀ r ∈ rl, F r = G r) :
    ∀ e, rl.foldl (fun e2 ref => replaceAll e2 ref (refValStr ((F ref).map Prod.fst))) e =
      rl.foldl (fun e2 ref => replaceAll e2 ref (refValStr ((G ref).map Prod.fst))) e := by
  induction rl with
  | nil => intro e; rfl
  | cons r rs ih =>
    intro e
    rw [List.foldl_cons, List.foldl_cons, h r (List.mem_cons_self r rs)]
    exact ih (fun r' hr' => h r' (List.mem_cons_of_mem r hr')) _

theorem rawSkel_eq_of_skel (t t' : Sheet) (h : skel t = skel t') :
    rawSkel t = rawSkel t' := by
  have key : ∀ u : Sheet, rawSkel u = (skel u).map (fun q => (q.1, q.2.1)) := by
    intro u
    unfold rawSkel skel
    rw [List.map_map]
    rfl
  rw [key, key, h]

theorem find_none_iff_of_rawSkel (t t' : Sheet) (h : rawSkel t = rawSkel t') (x : Str) :
    t.find x = none ↔ t'.find x = none := by
  rw [find_none_iff_ids, find_none_iff_ids, idsOf_eq_of_rawSkel t t' h]

theorem pureVE_rawSkel : ∀ (f : Nat) (t t' : Sheet), rawSkel t = rawSkel t' →
    ∀ x, pureVE f t x = pureVE f t' x := by
  intro f
  induction f with
  | zero => intro t t' h x; rfl
  | succ g ih =>
    intro t t' h x
    unfold pureVE
    have hraw := rawAt_eq_of_rawSkel t t' h x
    cases hf : t.find x with
    | none =>
      rw [(find_none_iff_of_rawSkel t t' h x).mp hf]
    | some c =>
      cases hf' : t'.find x with
      | none =>
        rw [(find_none_iff_of_rawSkel t t' h x).mpr hf'] at hf
        exact Option.noConfusion hf
      | some c' =>
        have hcraw : c.raw = c'.raw := by
          unfold rawAt at hraw
          rw [hf, hf'] at hraw
          simpa using hraw
        simp only
        rw [← hcraw]
        cases hsw : startsWithEq (jsTrim c.raw) with
        | false =>
          rw [if_pos (show (!false) = true from rfl),
            if_pos (show (!false) = true from rfl)]
        | true =>
          rw [if_neg (show ¬(!true) = true from fun hq => Bool.noConfusion hq),
            if_neg (show ¬(!true) = true from fun hq => Bool.noConfusion hq)]
          have hfold := foldl_replace_congr (fun ref => pureVE g t ref)
            (fun ref => pureVE g t' ref) (extractRefs (jsTrim c.raw))
            (fun r _ => ih t t' h r) ((jsTrim c.raw).drop 1)
          rw [hfold]

theorem mem_cells_rawSkel (t t' : Sheet) (h : rawSkel t = rawSkel t') :
    ∀ kv' ∈ t'.cells, ∃ kv ∈ t.cells, kv.1 = kv'.1 ∧ kv.2.raw = kv'.2.raw := by
  intro kv' hkv'
  have hm : (kv'.1, kv'.2.raw) ∈ rawSkel t := by
    rw [h]
    exact List.mem_map.mpr ⟨kv', hkv', rfl⟩
  obtain ⟨kv, hkv, he⟩ := List.mem_map.mp hm
  rw [Prod.mk.injEq] at he
  exact ⟨kv, hkv, he.1, he.2⟩

theorem RankOK_of_rawSkel (t t' : Sheet) (h : rawSkel t = rawSkel t') (rk : Str → Nat)
    (hr : RankOK t rk) : RankOK t' rk := by
  intro kv' hkv' r hrr hrid
  obtain ⟨kv, hkv, e1, e2⟩ := mem_cells_rawSkel t t' h kv' hkv'
  rw [← e1]
  exact hr kv hkv r (by rw [e2]; exact hrr)
    (by rw [idsOf_eq_of_rawSkel t t' h]; exact hrid)

theorem value_of_veAt (u : Sheet) (a : Str) (w : Option (Value × Option Str))
    (h : veAt u a = w) : (u.find a).map Cell.value = w.map Prod.fst := by
  subst h
  unfold veAt
  rw [Option.map_map]
  cases u.find a <;> rfl

/-- Under a rank function, the pure denotation is independent of the fuel
once the fuel exceeds the cell's rank. -/
theorem pureVE_stable (t : Sheet) (rk : Str → Nat) (hr : RankOK t rk) :
    ∀ (n : Nat) (x : Str) (f f' : Nat), rk x ≤ n → rk x < f → rk x < f' →
      pureVE f t x = pureVE f' t x := by
  intro n
  induction n with
  | zero =>
    intro x f f' hxn hf hf'
    cases f with
    | zero => omega
    | succ g =>
      cases f' with
      | zero => omega
      | succ g' =>
        unfold pureVE
        cases hfx : t.find x with
        | none => rfl
        | some c =>
          simp only
          cases hsw : startsWithEq (jsTrim c.raw) with
          | false =>
            rw [if_pos (show (!false) = true from rfl),
              if_pos (show (!false) = true from rfl)]
          | true =>
            rw [if_neg (show ¬(!true) = true from fun hq => Bool.noConfusion hq),
              if_neg (show ¬(!true) = true from fun hq => Bool.noConfusion hq)]
            have hrefs : ∀ r ∈ extractRefs (jsTrim c.raw),
                pureVE g t r = pureVE g' t r := by
              intro r hrr
              cases hfr : t.find r with
              | none => rw [pureVE_dead g t r hfr, pureVE_dead g' t r hfr]
              | some cr =>
                have hlive : r ∈ idsOf t := by
                  by_contra hq
                  have h0 := (find_none_iff_ids t r).mpr hq
                  rw [hfr] at h0
                  exact Option.noConfusion h0
                have hlt : rk r < rk x := hr (x, c) (mem_of_find_eq_some t x c hfx) r
                  (by unfold refsSetOf; rw [if_pos hsw]; exact hrr) hlive
                exact absurd hlt (by omega)
            rw [foldl_replace_congr (fun ref => pureVE g t ref)
              (fun ref => pureVE g' t ref) _ hrefs]
  | succ m ih =>
    intro x f f' hxn hf hf'
    cases f with
    | zero => omega
    | succ g =>
      cases f' with
      | zero => omega
      | succ g' =>
        unfold pureVE
        cases hfx : t.find x with
        | none => rfl
        | some c =>
          simp only
          cases hsw : startsWithEq (jsTrim c.raw) with
          | false =>
            rw [if_pos (show (!false) = true from rfl),
              if_pos (show (!false) = true from rfl)]
          | true =>
            rw [if_neg (show ¬(!true) = true from fun hq => Bool.noConfusion hq),
              if_neg (show ¬(!true) = true from fun hq => Bool.noConfusion hq)]
            have hrefs : ∀ r ∈ extractRefs (jsTrim c.raw),
                pureVE g t r = pureVE g' t r := by
              intro r hrr
              cases hfr : t.find r with
              | none => rw [pureVE_dead g t r hfr, pureVE_dead g' t r hfr]
              | some cr =>
                have hlive : r ∈ idsOf t := by
                  by_contra hq
                  have h0 := (find_none_iff_ids t r).mpr hq
                  rw [hfr] at h0
                  exact Option.noConfusion h0
                have hlt : rk r < rk x := hr (x, c) (mem_of_find_eq_some t x c hfx) r
                  (by unfold refsSetOf; rw [if_pos hsw]; exact hrr) hlive
                exact ih r g g' (by omega) (by omega) (by omega)
            rw [foldl_replace_congr (fun ref => pureVE g t ref)
              (fun ref => pureVE g' t ref) _ hrefs]

theorem filter_sub_length (l : List Str) (p q : Str → Bool)
    (h : ∀ a, p a = true → q a = true) :
    (l.filter p).length ≤ (l.filter q).length := by
  induction l with
  | nil => exact Nat.le_refl 0
  | cons a as ih =>
    by_cases hp : p a = true
    · rw [List.filter_cons_of_pos hp, List.filter_cons_of_pos (h a hp)]
      simpa using ih
    · rw [List.filter_cons_of_neg (by simpa using hp)]
      by_cases hq : q a = true
      · rw [List.filter_cons_of_pos hq]
        exact ih.trans (by simp)
      · rw [List.filter_cons_of_neg (by simpa using hq)]
        exact ih

theorem goodFuel_mono_pv (t : Sheet) (pv pv' : List Str) (f : Nat)
    (hsub : ∀ z ∈ pv, z ∈ pv') (hg : goodFuel t pv f) : goodFuel t pv' f := by
  unfold goodFuel at hg ⊢
  have hle := filter_sub_length (idsOf t) (fun id => decide (id ∉ pv'))
    (fun id => decide (id ∉ pv))
    (fun a ha => by
      simp only [decide_eq_true_eq] at ha ⊢
      exact fun hmem => ha (hsub a hmem))
  omega

theorem goodFuel_append (t : Sheet) (x : Str) (pv : List Str) (f : Nat)
    (hnod : (idsOf t).Nodup) (hx : x ∈ idsOf t) (hxv : x ∉ pv)
    (hg : goodFuel t pv (f + 1)) : goodFuel t (pv ++ [x]) f :=
  goodFuel_mono_pv t (x :: pv) (pv ++ [x]) f
    (fun z hz => by
      rcases List.mem_cons.mp hz with h | h
      · simp [h]
      · simp [h])
    (goodFuel_step t x pv f hnod hx hxv hg)

theorem addEdge_fold_noop (s : Sheet) (c : Str) (cell : Cell) (hnod : (idsOf s).Nodup)
    (hsup : EdgeSup s) (hf : s.find c = some cell)
    (hrefs : refsSetOf cell.raw = extractRefs (jsTrim cell.raw)) :
    (extractRefs (jsTrim cell.raw)).foldl (fun acc ref => addEdge acc c ref) s = s := by
  have hstep : ∀ ref ∈ extractRefs (jsTrim cell.raw), addEdge s c ref = s := by
    intro ref href
    refine addEdge_noop s c ref (fun kv hkv hk => ?_) (fun kv hkv hk => ?_)
    · have hcell := entry_eq_of_nodup s hnod c cell hf kv hkv hk
      have hmemc : (c, cell) ∈ s.cells := mem_of_find_eq_some s c cell hf
      rw [hcell]
      exact (hsup (c, cell) hmemc).1 ref (by rw [hrefs]; exact href)
    · have hmemc : (c, cell) ∈ s.cells := mem_of_find_eq_some s c cell hf
      exact (hsup (c, cell) hmemc).2 ref (by rw [hrefs]; exact href) kv hkv hk
  have hgen : ∀ (l : List Str), (∀ r ∈ l, addEdge s c r = s) →
      l.foldl (fun acc ref => addEdge acc c ref) s = s := by
    intro l
    induction l with
    | nil => intro _; rfl
    | cons r rs ihr =>
      intro hall
      rw [List.foldl_cons, hall r (List.mem_cons_self r rs)]
      exact ihr (fun r' hr' => hall r' (List.mem_cons_of_mem r hr'))
  exact hgen _ hstep

theorem dependents_live (t : Sheet) (hi : Inv t) (d : Str) (c : Cell)
    (hfd : t.find d = some c) : ∀ e ∈ c.dependents, e ∈ idsOf t := by
  intro e he
  have h5 := (hi.2 (d, c) (mem_of_find_eq_some t d c hfd)).2.2.2.2.1 e he
  cases hfe : t.find e with
  | none =>
    rw [hfe] at h5
    exact absurd h5 (by simp)
  | some ce =>
    by_contra hq
    have h0 := (find_none_iff_ids t e).mpr hq
    rw [hfe] at h0
    exact Option.noConfusion h0

/-- The reference-substitution loop, run from an invariant-satisfying
skeleton under an acyclicity rank: the skeleton is preserved, every cell
is either untouched or freshly written with its pure value, and the
substituted text coincides with the pure substitution. -/
theorem substFold_pure (rk : Str → Nat) (fs : Nat)
    (HIH : ∀ (t1 : Sheet) (x1 : Str) (v1 : List Str), Inv t1 → RankOK t1 rk →
      goodFuel t1 v1 fs → (∀ z ∈ v1, rk x1 < rk z) →
      (∀ y, veAt (evaluateCell fs t1 x1 v1) y = veAt t1 y ∨
        veAt (evaluateCell fs t1 x1 v1) y = pureVE (rk y + 1) t1 y) ∧
      (∀ c, t1.find x1 = some c →
        veAt (evaluateCell fs t1 x1 v1) x1 = pureVE (rk x1 + 1) t1 x1)) :
    ∀ (rfs : List Str) (vv : List Str) (T : Sheet) (e : Str) (t : Sheet) (g0 : Nat),
      skel T = skel t → Inv t → RankOK t rk → goodFuel T vv fs →
      (∀ r ∈ rfs, r ∈ idsOf t → ((∀ z ∈ vv, rk r < rk z) ∧ rk r < g0)) →
      (∀ y, veAt T y = veAt t y ∨ veAt T y = pureVE (rk y + 1) t y) →
      skel (substFold fs vv rfs T e).1 = skel t ∧
      (∀ y, veAt (substFold fs vv rfs T e).1 y = veAt t y ∨
        veAt (substFold fs vv rfs T e).1 y = pureVE (rk y + 1) t y) ∧
      (substFold fs vv rfs T e).2 =
        rfs.foldl (fun e2 ref => replaceAll e2 ref
          (refValStr ((pureVE g0 t ref).map Prod.fst))) e := by
  intro rfs
  induction rfs with
  | nil =>
    intro vv T e t g0 hskT hit hrkt hgT hranks hveT
    exact ⟨hskT, hveT, rfl⟩
  | cons r rs ih =>
    intro vv T e t g0 hskT hit hrkt hgT hranks hveT
    rw [substFold_cons, List.foldl_cons]
    have hiT : Inv T := Inv_of_skel t T hskT.symm hit
    have hnodT : (idsOf T).Nodup := hiT.1
    cases hfr : T.find r with
    | none =>
      have heq : evaluateCell fs T r vv = T := by
        cases fs with
        | zero => rfl
        | succ g2 => rw [evaluateCell_succ, hfr]
      rw [heq, hfr]
      have hdt : t.find r = none := by
        rw [find_none_iff_ids, ← idsOf_eq_of_skel T t hskT]
        exact (find_none_iff_ids T r).mp hfr
      rw [show (none : Option Cell).map Cell.value =
        (pureVE g0 t r).map Prod.fst by rw [pureVE_dead g0 t r hdt]; rfl]
      exact ih vv T _ t g0 hskT hit hrkt hgT
        (fun r' hr' => hranks r' (List.mem_cons_of_mem r hr')) hveT
    | some cr =>
      have hlive_T : r ∈ idsOf T := by
        by_contra hq
        have h0 := (find_none_iff_ids T r).mpr hq
        rw [hfr] at h0
        exact Option.noConfusion h0
      have hlive_t : r ∈ idsOf t := by
        rw [← idsOf_eq_of_skel T t hskT]
        exact hlive_T
      obtain ⟨hranks_r, hg0r⟩ := hranks r (List.mem_cons_self r rs) hlive_t
      have hrkT : RankOK T rk :=
        RankOK_of_rawSkel t T (rawSkel_eq_of_skel t T hskT.symm) rk hrkt
      obtain ⟨hveE, hliveE⟩ := HIH T r vv hiT hrkT hgT hranks_r
      have hskE : skel (evaluateCell fs T r vv) = skel T :=
        skel_evaluateCell_sup fs T r vv hnodT (EdgeSup_of_Inv T hiT)
      have hpr : veAt (evaluateCell fs T r vv) r = pureVE (rk r + 1) T r :=
        hliveE cr hfr
      have hval : ((evaluateCell fs T r vv).find r).map Cell.value =
          (pureVE g0 t r).map Prod.fst := by
        rw [value_of_veAt _ r _ hpr,
          pureVE_rawSkel _ T t (rawSkel_eq_of_skel T t hskT) r,
          pureVE_stable t rk hrkt (rk r) r _ _ (Nat.le_refl _) (by omega) hg0r]
      rw [hval]
      have hskE' : skel (evaluateCell fs T r vv) = skel t := hskE.trans hskT
      have hgE : goodFuel (evaluateCell fs T r vv) vv fs :=
        goodFuel_of_ids T _ (idsOf_evaluateCell fs T r vv).symm vv fs hgT
      have hveE' : ∀ y, veAt (evaluateCell fs T r vv) y = veAt t y ∨
          veAt (evaluateCell fs T r vv) y = pureVE (rk y + 1) t y := by
        intro y
        rcases hveE y with h1 | h2
        · rcases hveT y with h3 | h4
          · exact Or.inl (h1.trans h3)
          · exact Or.inr (h1.trans h4)
        · exact Or.inr (h2.trans
            (pureVE_rawSkel _ T t (rawSkel_eq_of_skel T t hskT) y))
      exact ih vv _ _ t g0 hskE' hit hrkt hgE
        (fun r' hr' => hranks r' (List.mem_cons_of_mem r hr')) hveE'

theorem pureVE_succ_eq (g : Nat) (t : Sheet) (x : Str) :
    pureVE (g + 1) t x =
      match t.find x with
      | none => none
      | some cell =>
        if !startsWithEq (jsTrim cell.raw) then some (litValue (jsTrim cell.raw), none)
        else
          (if !validExpr ((extractRefs (jsTrim cell.raw)).foldl
              (fun e2 ref => replaceAll e2 ref
                (refValStr ((pureVE g t ref).map Prod.fst)))
              ((jsTrim cell.raw).drop 1)) then
            some (errValue, some "Invalid formula".toList)
          else match evalExpr ((extractRefs (jsTrim cell.raw)).foldl
              (fun e2 ref => replaceAll e2 ref
                (refValStr ((pureVE g t ref).map Prod.fst)))
              ((jsTrim cell.raw).drop 1)) with
            | none => some (errValue, some "SyntaxError".toList)
            | some n => some (Value.num n, none)) := rfl

theorem pure_branch_eq (E : Str) :
    some (if !validExpr E then
        ((errValue, some "Invalid formula".toList) : Value × Option Str)
      else match evalExpr E with
        | none => (errValue, some "SyntaxError".toList)
        | some n => (Value.num n, none)) =
    (if !validExpr E then
        some ((errValue, some "Invalid formula".toList) : Value × Option Str)
      else match evalExpr E with
        | none => some ((errValue, some "SyntaxError".toList) : Value × Option Str)
        | some n => some (Value.num n, none)) := by
  cases hv : validExpr E
  · rw [if_pos (show (!false) = true from rfl), if_pos (show (!false) = true from rfl)]
  · rw [if_neg (show ¬(!true) = true from fun h => Bool.noConfusion h),
      if_neg (show ¬(!true) = true from fun h => Bool.noConfusion h)]
    cases evalExpr E <;> rfl

/-- Evaluation from an invariant-satisfying state whose reference graph
admits a rank function, with the visited set above the evaluated cell in
rank: no in-progress cell is ever revisited, every cell is either left
untouched or written with its pure value, and a live evaluated cell ends
holding exactly its pure value/error pair. -/
theorem eval_pure (rk : Str → Nat) : ∀ (f : Nat) (t : Sheet) (x : Str) (v : List Str),
    Inv t → RankOK t rk → goodFuel t v f → (∀ z ∈ v, rk x < rk z) →
    (∀ y, veAt (evaluateCell f t x v) y = veAt t y ∨
      veAt (evaluateCell f t x v) y = pureVE (rk y + 1) t y) ∧
    (∀ c, t.find x = some c →
      veAt (evaluateCell f t x v) x = pureVE (rk x + 1) t x) := by
  intro f
  induction f with
  | zero =>
    intro t x v _ _ hg _
    exact absurd hg (by unfold goodFuel; omega)
  | succ fs ihf =>
    intro t x v hit hrkt hg hvz
    rw [evaluateCell_succ]
    cases hf : t.find x with
    | none => exact ⟨fun y => Or.inl rfl, fun c hc => Option.noConfusion hc⟩
    | some c =>
      simp only
      by_cases hvis : x ∈ v
      · exact absurd (hvz x hvis) (lt_irrefl _)
      · rw [if_neg hvis]
        cases hsw : startsWithEq (jsTrim c.raw) with
        | false =>
          rw [if_pos (show (!false) = true from rfl)]
          have hpx : pureVE (rk x + 1) t x = some (litValue (jsTrim c.raw), none) := by
            rw [pureVE_succ_eq, hf]
            simp only
            rw [hsw, if_pos (show (!false) = true from rfl)]
          refine ⟨?_, ?_⟩
          · intro y
            by_cases hyx : y = x
            · subst hyx
              right
              rw [veAt_litWrite_self t y _ c hf, hpx]
            · exact Or.inl (veAt_litWrite t x _ y hyx)
          · intro cc _
            rw [veAt_litWrite_self t x _ c hf, hpx]
        | true =>
          rw [if_neg (show ¬(!true) = true from fun hq => Bool.noConfusion hq)]
          have hrefs_eq : refsSetOf c.raw = extractRefs (jsTrim c.raw) := by
            unfold refsSetOf
            rw [if_pos hsw]
          have hnod := hit.1
          have hfold : (extractRefs (jsTrim c.raw)).foldl
              (fun acc ref => addEdge acc x ref) t = t :=
            addEdge_fold_noop t x c hnod (EdgeSup_of_Inv t hit) hf hrefs_eq
          rw [hfold]
          have hx_ids : x ∈ idsOf t := by
            by_contra hq
            have h0 := (find_none_iff_ids t x).mpr hq
            rw [hf] at h0
            exact Option.noConfusion h0
          have hgf : goodFuel t (x :: v) fs := goodFuel_step t x v fs hnod hx_ids hvis hg
          have hranks : ∀ r ∈ extractRefs (jsTrim c.raw), r ∈ idsOf t →
              ((∀ z ∈ x :: v, rk r < rk z) ∧ rk r < rk x) := by
            intro r hrr hlr
            have hlt : rk r < rk x := hrkt (x, c) (mem_of_find_eq_some t x c hf) r
              (by rw [hrefs_eq]; exact hrr) hlr
            refine ⟨?_, hlt⟩
            intro z hz
            rcases List.mem_cons.mp hz with h | h
            · rw [h]
              exact hlt
            · exact hlt.trans (hvz z h)
          obtain ⟨hskF, hveF, heF⟩ := substFold_pure rk fs
            (fun t1 x1 v1 h1 h2 h3 h4 => ihf t1 x1 v1 h1 h2 h3 h4)
            (extractRefs (jsTrim c.raw)) (x :: v) t ((jsTrim c.raw).drop 1) t (rk x)
            rfl hit hrkt hgf hranks (fun y => Or.inl rfl)
          have hfsx : (substFold fs (x :: v) (extractRefs (jsTrim c.raw)) t
              ((jsTrim c.raw).drop 1)).1.find x ≠ none := by
            rw [ne_eq, find_none_iff_ids, idsOf_eq_of_skel _ _ hskF]
            exact fun hq => hq hx_ids
          have hpx : pureVE (rk x + 1) t x =
              (if !validExpr ((extractRefs (jsTrim c.raw)).foldl
                  (fun e2 ref => replaceAll e2 ref
                    (refValStr ((pureVE (rk x) t ref).map Prod.fst)))
                  ((jsTrim c.raw).drop 1)) then
                some ((errValue, some "Invalid formula".toList) : Value × Option Str)
              else match evalExpr ((extractRefs (jsTrim c.raw)).foldl
                  (fun e2 ref => replaceAll e2 ref
                    (refValStr ((pureVE (rk x) t ref).map Prod.fst)))
                  ((jsTrim c.raw).drop 1)) with
                | none => some ((errValue, some "SyntaxError".toList) : Value × Option Str)
                | some n => some (Value.num n, none)) := by
            rw [pureVE_succ_eq, hf]
            simp only
            rw [hsw, if_neg (show ¬(!true) = true from fun hq => Bool.noConfusion hq)]
          have hwx : veAt (finishWrite x (substFold fs (x :: v)
              (extractRefs (jsTrim c.raw)) t ((jsTrim c.raw).drop 1))) x =
              pureVE (rk x + 1) t x := by
            cases hfsx1 : (substFold fs (x :: v) (extractRefs (jsTrim c.raw)) t
                ((jsTrim c.raw).drop 1)).1.find x with
            | none => exact absurd hfsx1 hfsx
            | some cx =>
              rw [veAt_finishWrite_self x _ cx hfsx1, heF, hpx]
              exact pure_branch_eq _
          refine ⟨?_, ?_⟩
          · intro y
            by_cases hyx : y = x
            · subst hyx
              exact Or.inr hwx
            · rw [veAt_finishWrite x _ y hyx]
              exact hveF y
          · intro cc _
            exact hwx

/-- The propagation sweep from an invariant-satisfying state under an
acyclicity rank: the skeleton is preserved, the returned set only grows,
the start cell is recorded, every cell is untouched or written pure, a
newly recorded cell other than the start holds its pure value, and every
dependent of a newly recorded cell is recorded and holds its pure
value. -/
theorem upd_pure (rk : Str → Nat) : ∀ (f : Nat) (t : Sheet) (c : Str) (pv : List Str),
    Inv t → RankOK t rk → goodFuel t pv f →
    skel (updateDependents f t c pv).1 = skel t ∧
    (∀ z ∈ pv, z ∈ (updateDependents f t c pv).2) ∧
    c ∈ (updateDependents f t c pv).2 ∧
    (∀ y, veAt (updateDependents f t c pv).1 y = veAt t y ∨
      veAt (updateDependents f t c pv).1 y = pureVE (rk y + 1) t y) ∧
    (∀ d, d ∈ (updateDependents f t c pv).2 → d ∉ pv → d ≠ c →
      veAt (updateDependents f t c pv).1 d = pureVE (rk d + 1) t d) ∧
    (∀ d, d ∈ (updateDependents f t c pv).2 → d ∉ pv →
      ∀ e ∈ (dependentsAt t d).getD [],
        e ∈ (updateDependents f t c pv).2 ∧
        veAt (updateDependents f t c pv).1 e = pureVE (rk e + 1) t e) := by
  intro f
  induction f with
  | zero =>
    intro t c pv _ _ hg
    exact absurd hg (by unfold goodFuel; omega)
  | succ fs ihf =>
    intro t c pv hit hrkt hg
    rw [updateDependents_succ]
    by_cases hcv : c ∈ pv
    · rw [if_pos hcv]
      refine ⟨rfl, fun z hz => hz, hcv, fun y => Or.inl rfl, ?_, ?_⟩
      · intro d hd hdp _
        exact absurd hd hdp
      · intro d hd hdp
        exact absurd hd hdp
    · rw [if_neg hcv]
      cases hfc : t.find c with
      | none =>
        refine ⟨rfl, fun z hz => List.mem_append_left _ hz,
          List.mem_append_right _ (List.mem_singleton.mpr rfl),
          fun y => Or.inl rfl, ?_, ?_⟩
        · intro d hd hdp hdc
          rcases List.mem_append.mp hd with h | h
          · exact absurd h hdp
          · exact absurd (List.mem_singleton.mp h) hdc
        · intro d hd hdp e he
          rcases List.mem_append.mp hd with h | h
          · exact absurd h hdp
          · rw [List.mem_singleton.mp h] at he
            unfold dependentsAt at he
            rw [hfc] at he
            exact absurd he (by simp)
      | some cell =>
        simp only
        have hclive : c ∈ idsOf t := by
          by_contra hq
          have h0 := (find_none_iff_ids t c).mpr hq
          rw [hfc] at h0
          exact Option.noConfusion h0
        have hgf1 : goodFuel t (pv ++ [c]) fs :=
          goodFuel_append t c pv fs hit.1 hclive hcv hg
        have haux : ∀ (ds : List Str) (a : Sheet) (w : List Str),
            skel a = skel t → (∀ z ∈ pv ++ [c], z ∈ w) →
            skel (ds.foldl (fun acc dep => updateDependents fs
                (evaluateCell (acc.1.cells.length + 1) acc.1 dep []) dep acc.2)
                (a, w)).1 = skel t ∧
            (∀ z ∈ w, z ∈ (ds.foldl (fun acc dep => updateDependents fs
                (evaluateCell (acc.1.cells.length + 1) acc.1 dep []) dep acc.2)
                (a, w)).2) ∧
            (∀ y, veAt (ds.foldl (fun acc dep => updateDependents fs
                  (evaluateCell (acc.1.cells.length + 1) acc.1 dep []) dep acc.2)
                  (a, w)).1 y = veAt a y ∨
              veAt (ds.foldl (fun acc dep => updateDependents fs
                  (evaluateCell (acc.1.cells.length + 1) acc.1 dep []) dep acc.2)
                  (a, w)).1 y = pureVE (rk y + 1) t y) ∧
            (∀ e ∈ ds, e ∈ (ds.foldl (fun acc dep => updateDependents fs
                  (evaluateCell (acc.1.cells.length + 1) acc.1 dep []) dep acc.2)
                  (a, w)).2 ∧
              veAt (ds.foldl (fun acc dep => updateDependents fs
                  (evaluateCell (acc.1.cells.length + 1) acc.1 dep []) dep acc.2)
                  (a, w)).1 e = pureVE (rk e + 1) t e) ∧
            (∀ d, d ∈ (ds.foldl (fun acc dep => updateDependents fs
                  (evaluateCell (acc.1.cells.length + 1) acc.1 dep []) dep acc.2)
                  (a, w)).2 → d ∉ w →
              veAt (ds.foldl (fun acc dep => updateDependents fs
                  (evaluateCell (acc.1.cells.length + 1) acc.1 dep []) dep acc.2)
                  (a, w)).1 d = pureVE (rk d + 1) t d ∧
              (∀ e ∈ (dependentsAt t d).getD [],
                e ∈ (ds.foldl (fun acc dep => updateDependents fs
                    (evaluateCell (acc.1.cells.length + 1) acc.1 dep []) dep acc.2)
                    (a, w)).2 ∧
                veAt (ds.foldl (fun acc dep => updateDependents fs
                    (evaluateCell (acc.1.cells.length + 1) acc.1 dep []) dep acc.2)
                    (a, w)).1 e = pureVE (rk e + 1) t e)) := by
          intro ds
          induction ds with
          | nil =>
            intro a w hska hw
            refine ⟨hska, fun z hz => hz, fun y => Or.inl rfl, ?_, ?_⟩
            · intro e he
              exact absurd he (List.not_mem_nil e)
            · intro d hd hdw
              exact absurd hd hdw
          | cons d ds ihd =>
            intro a w hska hw
            rw [List.foldl_cons]
            have hia : Inv a := Inv_of_skel t a hska.symm hit
            have hrka : RankOK a rk :=
              RankOK_of_rawSkel t a (rawSkel_eq_of_skel t a hska.symm) rk hrkt
            have hpuret : ∀ (u : Sheet), skel u = skel t →
                ∀ y, pureVE (rk y + 1) u y = pureVE (rk y + 1) t y :=
              fun u hu y => pureVE_rawSkel _ u t (rawSkel_eq_of_skel u t hu) y
            obtain ⟨hveE, hliveE⟩ := eval_pure rk (a.cells.length + 1) a d []
              hia hrka (goodFuel_nil a) (fun z hz => absurd hz (List.not_mem_nil z))
            have hskE : skel (evaluateCell (a.cells.length + 1) a d []) = skel a :=
              skel_evaluateCell_sup _ a d [] hia.1 (EdgeSup_of_Inv a hia)
            have hskE' : skel (evaluateCell (a.cells.length + 1) a d []) = skel t :=
              hskE.trans hska
            have hgw : goodFuel (evaluateCell (a.cells.length + 1) a d []) w fs := by
              refine goodFuel_of_ids t _ ?_ w fs
                (goodFuel_mono_pv t (pv ++ [c]) w fs hw hgf1)
              rw [idsOf_evaluateCell, idsOf_eq_of_skel a t hska]
            have hiE : Inv (evaluateCell (a.cells.length + 1) a d []) :=
              Inv_of_skel t _ hskE'.symm hit
            have hrkE : RankOK (evaluateCell (a.cells.length + 1) a d []) rk :=
              RankOK_of_rawSkel t _ (rawSkel_eq_of_skel t _ hskE'.symm) rk hrkt
            obtain ⟨hsk1, hmono1, hd1, hve1, hnew1, hdep1⟩ :=
              ihf (evaluateCell (a.cells.length + 1) a d []) d w hiE hrkE hgw
            have hsk1' : skel (updateDependents fs
                (evaluateCell (a.cells.length + 1) a d []) d w).1 = skel t :=
              hsk1.trans hskE'
            have hpured : veAt (updateDependents fs
                (evaluateCell (a.cells.length + 1) a d []) d w).1 d =
                pureVE (rk d + 1) t d := by
              rcases hve1 d with h1 | h2
              · rw [h1]
                cases hfd : a.find d with
                | none =>
                  have heq : evaluateCell (a.cells.length + 1) a d [] = a := by
                    rw [evaluateCell_succ, hfd]
                  have hdt : t.find d = none := by
                    rw [find_none_iff_ids, ← idsOf_eq_of_skel a t hska]
                    exact (find_none_iff_ids a d).mp hfd
                  rw [heq, pureVE_dead _ t d hdt]
                  unfold veAt
                  rw [hfd]
                  rfl
                | some cd =>
                  rw [hliveE cd hfd, hpuret a hska d]
              · rw [h2, hpuret _ hskE' d]
            obtain ⟨hskS, hmonoS, hveS, hdS, heS⟩ :=
              ihd (updateDependents fs
                (evaluateCell (a.cells.length + 1) a d []) d w).1
                (updateDependents fs
                (evaluateCell (a.cells.length + 1) a d []) d w).2
                hsk1' (fun z hz => hmono1 z (hw z hz))
            refine ⟨hskS, ?_, ?_, ?_, ?_⟩
            · intro z hz
              exact hmonoS z (hmono1 z hz)
            · intro y
              rcases hveS y with h1 | h2
              · rw [h1]
                rcases hve1 y with h3 | h4
                · rw [h3]
                  rcases hveE y with h5 | h6
                  · exact Or.inl h5
                  · exact Or.inr (h6.trans (hpuret a hska y))
                · exact Or.inr (h4.trans (hpuret _ hskE' y))
              · exact Or.inr h2
            · intro e he
              rcases List.mem_cons.mp he with h | h
              · subst h
                refine ⟨hmonoS e hd1, ?_⟩
                rcases hveS e with h1 | h2
                · rw [h1]
                  exact hpured
                · exact h2
              · exact hdS e h
            · intro d0 hd0 hd0w
              by_cases hd0n : d0 ∈ (updateDependents fs
                  (evaluateCell (a.cells.length + 1) a d []) d w).2
              · by_cases hd0d : d0 = d
                · refine ⟨?_, ?_⟩
                  · rcases hveS d0 with h1 | h2
                    · rw [h1, hd0d]
                      exact hpured
                    · exact h2
                  · intro e he
                    have hdepA := hdep1 d0 hd0n hd0w e
                      (by
                        rw [show dependentsAt (evaluateCell (a.cells.length + 1) a d [])
                            d0 = dependentsAt t d0 from
                          (skel_eq_imp _ t hskE' d0).2.2.1]
                        exact he)
                    refine ⟨hmonoS e hdepA.1, ?_⟩
                    rcases hveS e with h1 | h2
                    · rw [h1, hdepA.2]
                      exact hpuret _ hskE' e
                    · exact h2
                · refine ⟨?_, ?_⟩
                  · rcases hveS d0 with h1 | h2
                    · rw [h1, hnew1 d0 hd0n hd0w hd0d]
                      exact hpuret _ hskE' d0
                    · exact h2
                  · intro e he
                    have hdepA := hdep1 d0 hd0n hd0w e
                      (by
                        rw [show dependentsAt (evaluateCell (a.cells.length + 1) a d [])
                            d0 = dependentsAt t d0 from
                          (skel_eq_imp _ t hskE' d0).2.2.1]
                        exact he)
                    refine ⟨hmonoS e hdepA.1, ?_⟩
                    rcases hveS e with h1 | h2
                    · rw [h1, hdepA.2]
                      exact hpuret _ hskE' e
                    · exact h2
              · exact heS d0 hd0 hd0n
        obtain ⟨hskF, hmonoF, hveF, hdF, heF⟩ :=
          haux cell.dependents t (pv ++ [c]) rfl (fun z hz => hz)
        refine ⟨hskF, ?_, ?_, hveF, ?_, ?_⟩
        · intro z hz
          exact hmonoF z (List.mem_append_left _ hz)
        · exact hmonoF c (List.mem_append_right _ (List.mem_singleton.mpr rfl))
        · intro d hd hdp hdc
          have hdw : d ∉ pv ++ [c] := by
            intro hq
            rcases List.mem_append.mp hq with h | h
            · exact hdp h
            · exact hdc (List.mem_singleton.mp h)
          exact (heF d hd hdw).1
        · intro d hd hdp e he
          by_cases hdc : d = c
          · subst hdc
            have he' : e ∈ cell.dependents := by
              unfold dependentsAt at he
              rw [hfc] at he
              simpa using he
            exact hdF e he'
          · have hdw : d ∉ pv ++ [c] := by
              intro hq
              rcases List.mem_append.mp hq with h | h
              · exact hdp h
              · exact hdc (List.mem_singleton.mp h)
            exact (heF d hd hdw).2 e he

/-- The evaluation phase of `setCell` coincides with a fresh evaluation
started from the state in which the edges have already been rebuilt: the
first frame's edge loop produces that state, and started from it the
edge loop is a no-op. -/
theorem eval_cleanup_eq (s : Sheet) (cid v : Str) (cell : Cell) (hi : Inv s)
    (hf : s.find cid = some cell) :
    evaluateCell ((cleanupOf s cid v cell.dependencies).cells.length + 1)
      (cleanupOf s cid v cell.dependencies) cid [] =
    evaluateCell ((((refsSetOf v).foldl (fun acc ref => addEdge acc cid ref)
        (cleanupOf s cid v cell.dependencies)).cells.length) + 1)
      ((refsSetOf v).foldl (fun acc ref => addEdge acc cid ref)
        (cleanupOf s cid v cell.dependencies)) cid [] := by
  have hdnod : ∀ kv ∈ s.cells, kv.2.dependents.Nodup := fun kv hkv => (hi.2 kv hkv).1
  have hlen : ((refsSetOf v).foldl (fun acc ref => addEdge acc cid ref)
      (cleanupOf s cid v cell.dependencies)).cells.length =
      (cleanupOf s cid v cell.dependencies).cells.length :=
    cells_length_eq_of_ids _ _ (idsOf_addEdge_fold cid (refsSetOf v) _)
  rw [hlen]
  have hc3 := cleanupOf_find s cid v cell.dependencies hdnod cid
  rw [hf] at hc3
  simp only [Option.map_some', eq_self_iff_true, if_true] at hc3
  have hcF := cleanup_fold_find s cid v cell.dependencies (refsSetOf v) hdnod cid
  rw [hf] at hcF
  simp only [Option.map_some', eq_self_iff_true, if_true] at hcF
  rw [evaluateCell_succ, evaluateCell_succ, hc3, hcF]
  simp only [List.not_mem_nil, if_false]
  cases hsw : startsWithEq (jsTrim v) with
  | false =>
    have hrv : refsSetOf v = [] := by
      unfold refsSetOf
      rw [if_neg (by simp [hsw])]
    rw [hrv]
    simp only [List.foldl_nil, hsw, Bool.not_false, eq_self_iff_true, if_true]
  | true =>
    have hrv : refsSetOf v = extractRefs (jsTrim v) := by
      unfold refsSetOf
      rw [if_pos hsw]
    simp only [hsw, Bool.not_true, Bool.false_eq_true, if_false]
    rw [← hrv]
    have hiFS : Inv ((refsSetOf v).foldl (fun acc ref => addEdge acc cid ref)
        (cleanupOf s cid v cell.dependencies)) :=
      inv_cleanup_eval s cid v cell (refsSetOf v) hi hf rfl
    have hnoop := addEdge_fold_noop
      ((refsSetOf v).foldl (fun acc ref => addEdge acc cid ref)
        (cleanupOf s cid v cell.dependencies)) cid _ hiFS.1 (EdgeSup_of_Inv _ hiFS) hcF
      (by exact hrv)
    have hnoop2 : (refsSetOf v).foldl (fun acc ref => addEdge acc cid ref)
        ((refsSetOf v).foldl (fun acc ref => addEdge acc cid ref)
          (cleanupOf s cid v cell.dependencies)) =
        (refsSetOf v).foldl (fun acc ref => addEdge acc cid ref)
          (cleanupOf s cid v cell.dependencies) := by
      nth_rewrite 2 [hrv]
      exact hnoop
    rw [hnoop2]

/-- A list closed under the `dependents` step contains everything
`reachN` produces from a start inside it. -/
theorem reachN_subset (s : Sheet) (S : List Str)
    (hcl : ∀ d ∈ S, ∀ e ∈ (((s.find d).map Cell.dependents).getD []), e ∈ S) :
    ∀ (f : Nat) (acc : List Str), (∀ z ∈ acc, z ∈ S) →
      ∀ z ∈ reachN f s acc, z ∈ S := by
  intro f
  induction f with
  | zero => intro acc h; exact h
  | succ g ih =>
    intro acc h
    have hstep : ∀ (l : List Str), (∀ z ∈ l, z ∈ S) → ∀ (a0 : List Str),
        (∀ z ∈ a0, z ∈ S) →
        ∀ z ∈ (l.foldl (fun a id =>
            (((s.find id).map Cell.dependents).getD []).foldl listAdd a) a0), z ∈ S := by
      intro l
      induction l with
      | nil => intro _ a0 h0; exact h0
      | cons i is ihl =>
        intro hl a0 h0
        rw [List.foldl_cons]
        refine ihl (fun z hz => hl z (List.mem_cons_of_mem i hz)) _ ?_
        intro z hz
        have hmem := (mem_foldl_listAdd _ a0 z).mp hz
        rcases hmem with hz0 | hzd
        · exact h0 z hz0
        · exact hcl i (hl i (List.mem_cons_self i is)) z hzd
    exact ih _ (hstep acc h acc h)

theorem closure_dead (s : Sheet) (A : Str) (hA : s.find A = none) :
    ∀ C ∈ dependentsClosure s A, C = A := by
  have key : ∀ (f : Nat), ∀ C ∈ reachN f s [A], C = A := by
    intro f
    induction f with
    | zero =>
      intro C hC
      rw [show reachN 0 s [A] = [A] from rfl] at hC
      simpa using hC
    | succ g ih =>
      intro C hC
      rw [show reachN (g + 1) s [A] = reachN g s
          (([A].foldl (fun a id =>
            (((s.find id).map Cell.dependents).getD []).foldl listAdd a) [A])) from rfl]
        at hC
      rw [show ([A].foldl (fun a id =>
          (((s.find id).map Cell.dependents).getD []).foldl listAdd a) [A]) =
          [A] by rw [List.foldl_cons, hA]; rfl] at hC
      exact ih C hC
  exact key s.cells.length

/-- Claim C9, witness: on a fresh 2×2 grid, setting `A1` to `"=B1+1"`
twice leaves `A1` with the same value/error pair as setting it once. -/
theorem set_idempotent_witness :
    veAt (setCell (setCell (initSheet 2 2) idA1 "=B1+1".toList) idA1 "=B1+1".toList)
        idA1 =
      veAt (setCell (initSheet 2 2) idA1 "=B1+1".toList) idA1 :=
  set_idempotent (initSheet 2 2) idA1 "=B1+1".toList
    (Reachable.init 2 2 (by decide) (by decide)) idA1

/-- The core of the acyclic-propagation argument, with the edge-rebuilt
state `FS` abstract: if `setCell s A raw` equals the propagation sweep
run from the fresh evaluation of `A` over `FS`, then every cell in the
`dependents` closure of `A` ends holding its pure value/error pair. -/
theorem setCell_pure_aux (s : Sheet) (A raw : Str) (rk : Str → Nat) (FS : Sheet) (c0 : Cell)
    (hrk : RankOK (setCell s A raw) rk)
    (hskS : skel (setCell s A raw) = skel FS)
    (hiFS : Inv FS) (hfsA : FS.find A = some c0)
    (hs2 : setCell s A raw =
      (updateDependents ((evaluateCell (FS.cells.length + 1) FS A []).cells.length + 1)
        (evaluateCell (FS.cells.length + 1) FS A []) A []).1) :
    ∀ C ∈ dependentsClosure (setCell s A raw) A,
      veAt (setCell s A raw) C = pureVE (rk C + 1) (setCell s A raw) C := by
  have hrawS : rawSkel (setCell s A raw) = rawSkel FS := rawSkel_eq_of_skel _ _ hskS
  have hrkFS : RankOK FS rk := RankOK_of_rawSkel _ _ hrawS rk hrk
  have hskE2 : skel (evaluateCell (FS.cells.length + 1) FS A []) = skel FS :=
    skel_evaluateCell_sup _ FS A [] hiFS.1 (EdgeSup_of_Inv FS hiFS)
  have hiE2 : Inv (evaluateCell (FS.cells.length + 1) FS A []) :=
    Inv_of_skel FS _ hskE2.symm hiFS
  have hrawE2 : rawSkel (evaluateCell (FS.cells.length + 1) FS A []) = rawSkel FS :=
    rawSkel_eq_of_skel _ _ hskE2
  have hrkE2 : RankOK (evaluateCell (FS.cells.length + 1) FS A []) rk :=
    RankOK_of_rawSkel FS _ hrawE2.symm rk hrkFS
  obtain ⟨hveE, hliveE⟩ := eval_pure rk (FS.cells.length + 1) FS A [] hiFS hrkFS
    (goodFuel_nil FS) (fun z hz => absurd hz (List.not_mem_nil z))
  have hEA : veAt (evaluateCell (FS.cells.length + 1) FS A []) A = pureVE (rk A + 1) FS A :=
    hliveE c0 hfsA
  obtain ⟨hskU, hmonoU, hAU, hveU, hnewU, hdepU⟩ :=
    upd_pure rk ((evaluateCell (FS.cells.length + 1) FS A []).cells.length + 1)
      (evaluateCell (FS.cells.length + 1) FS A []) A [] hiE2 hrkE2
      (goodFuel_nil (evaluateCell (FS.cells.length + 1) FS A []))
  rw [← hs2] at hveU hnewU hdepU
  have hsub : ∀ z ∈ dependentsClosure (setCell s A raw) A,
      z ∈ (updateDependents ((evaluateCell (FS.cells.length + 1) FS A []).cells.length + 1)
        (evaluateCell (FS.cells.length + 1) FS A []) A []).2 := by
    intro z hz
    unfold dependentsClosure at hz
    refine reachN_subset (setCell s A raw) _ ?_ _ [A] ?_ z hz
    · intro d hd e he
      have hdd := (skel_eq_imp (setCell s A raw) (evaluateCell (FS.cells.length + 1) FS A [])
        (hskS.trans hskE2.symm) d).2.2.1
      have he' : e ∈ (dependentsAt (setCell s A raw) d).getD [] := he
      rw [hdd] at he'
      exact (hdepU d hd (List.not_mem_nil d) e he').1
    · intro w hw
      rw [List.mem_singleton] at hw
      rw [hw]
      exact hAU
  intro C hC
  by_cases hCA : C = A
  · rw [hCA]
    rcases hveU A with h1 | h2
    · rw [h1, hEA]
      exact pureVE_rawSkel _ FS (setCell s A raw) hrawS.symm A
    · rw [h2]
      exact pureVE_rawSkel _ (evaluateCell (FS.cells.length + 1) FS A [])
        (setCell s A raw) (hrawE2.trans hrawS.symm) A
  · rw [hnewU C (hsub C hC) (List.not_mem_nil C) hCA]
    exact pureVE_rawSkel _ (evaluateCell (FS.cells.length + 1) FS A [])
      (setCell s A raw) (hrawE2.trans hrawS.symm) C

/-- Claim C2 (amended).  After `set(A, raw)` completes from a state
reachable through the public interface, provided the cell-reference
graph after the update admits a rank function (is acyclic), every cell
`C` reachable from `A` along `dependents` edges holds exactly the value
a fresh full re-evaluation from the current raw texts would produce (no
stale reads); concretely, with `A1 = 1` and `B1 = "=A1+1"` (value 2),
`set(A1, "10")` makes `get(B1)` return `11` while `B1`'s raw text is
never set again. -/
theorem propagation_acyclic_consistent (s : Sheet) (A raw : Str) (rk : Str → Nat)
    (h : Reachable s) (hrk : RankOK (setCell s A raw) rk) :
    (∀ C ∈ dependentsClosure (setCell s A raw) A,
        getCell (setCell s A raw) C = reEvalValue (setCell s A raw) C) ∧
    getCell refreshState idB1 = some (Value.num (JNum.fin 11)) ∧
    rawAt refreshState idB1 = some "=A1+1".toList := by
  refine ⟨?_, by with_unfolding_all decide, by with_unfolding_all decide⟩
  have hi := inv_of_reachable s h
  intro C hC
  cases hfA : s.find A with
  | none =>
    have hnoop : setCell s A raw = s := by
      unfold setCell
      rw [hfA]
    rw [hnoop] at hC ⊢
    have hCA : C = A := closure_dead s A hfA C hC
    rw [hCA]
    unfold reEvalValue
    have heval : evaluateCell (s.cells.length + 1) s A [] = s := by
      rw [evaluateCell_succ, hfA]
    rw [heval]
  | some cell =>
    have hiS : Inv (setCell s A raw) := inv_setCell s A raw hi
    have hdnod : ∀ kv ∈ s.cells, kv.2.dependents.Nodup := fun kv hkv => (hi.2 kv hkv).1
    have hcFA := cleanup_fold_find s A raw cell.dependencies (refsSetOf raw) hdnod A
    rw [hfA] at hcFA
    simp only [Option.map_some', eq_self_iff_true, if_true] at hcFA
    have hs2 := setCell_eq s A raw cell hfA
    rw [eval_cleanup_eq s A raw cell hi hfA] at hs2
    have hpure := setCell_pure_aux s A raw rk _ _ hrk
      (skel_setCell s A raw cell hi hfA)
      (inv_cleanup_eval s A raw cell (refsSetOf raw) hi hfA rfl)
      hcFA hs2 C hC
    cases hfC : (setCell s A raw).find C with
    | none =>
      unfold reEvalValue
      have heval2 : evaluateCell ((setCell s A raw).cells.length + 1) (setCell s A raw) C []
          = setCell s A raw := by
        rw [evaluateCell_succ, hfC]
      rw [heval2]
    | some cC =>
      have hL : getCell (setCell s A raw) C =
          (pureVE (rk C + 1) (setCell s A raw) C).map Prod.fst :=
        value_of_veAt _ C _ hpure
      obtain ⟨hve2, hlive2⟩ := eval_pure rk ((setCell s A raw).cells.length + 1)
        (setCell s A raw) C [] hiS hrk (goodFuel_nil _)
        (fun z hz => absurd hz (List.not_mem_nil z))
      have hR : reEvalValue (setCell s A raw) C =
          (pureVE (rk C + 1) (setCell s A raw) C).map Prod.fst :=
        value_of_veAt _ C _ (hlive2 cC hfC)
      rw [hL, hR]

/-- Claim C2, witness: the concrete refresh scenario on a 2×1 grid —
`A1 = "1"`, `B1 = "=A1+1"`, then `set(A1, "10")` — is acyclic with the
rank function that puts `B1` above `A1`, so every dependent of `A1`
agrees with a fresh re-evaluation, `get(B1)` returns `11`, and `B1`'s
raw text is still `"=A1+1"`. -/
theorem propagation_acyclic_consistent_witness :
    (∀ C ∈ dependentsClosure refreshState idA1,
        getCell refreshState C = reEvalValue refreshState C) ∧
    getCell refreshState idB1 = some (Value.num (JNum.fin 11)) ∧
    rawAt refreshState idB1 = some "=A1+1".toList :=
  propagation_acyclic_consistent
    (setCell (setCell (initSheet 2 1) idA1 "1".toList) idB1 "=A1+1".toList)
    idA1 "10".toList (fun id => if id = idB1 then 1 else 0)
    (Reachable.step _ idB1 "=A1+1".toList
      (Reachable.step _ idA1 "1".toList
        (Reachable.init 2 1 (by decide) (by decide))))
    (by unfold RankOK; with_unfolding_all decide)

end Sheetv
